import Mathlib

/-!
# Verification of the Maze-Training-Site core

Shallow embedding of the repository's core components:

* `PriorityQueue` — the 0-indexed binary min-heap (TypeScript
  `priority-queue.ts`, the file embedded in `part_005`);
* `Maze` — grid construction, the initial skeleton and the randomized-Prim
  carving loop `generateMaze` (`maze.ts` in `part_005` / `part_002`);
* `MazePath` — the ordered validated path (`src/maze/mazepath.ts`);
* the BFS solvers `getSolution` (`part_004`) and `drawSolution`
  (`src/maze/mazeoperations.ts`), together with the array-based `Queue`
  (`src/maze/queue.ts`).

Conventions of the embedding:

* JavaScript cells are mutable objects owned by their maze; a cell is
  represented by its coordinate pair `(row, column)` and the mutable
  `open` flags of a whole maze are represented by a function
  `Nat × Nat → Bool`.  Object identity of two cells of the same maze
  coincides with equality of their coordinates, since a board owns exactly
  one cell per coordinate.
* A thrown JavaScript exception (e.g. a `TypeError` from dereferencing
  `undefined`) is modelled by `Option`/`Except` failure values.
* `Math.random()` draws are modelled by explicit streams that are
  universally quantified; a stream value used as `Math.floor(Math.random()
  * (i + 1))` is clamped by `% (i + 1)`, which ranges over exactly the
  values the JavaScript expression can produce.
* Loops whose termination is not structural are defined with an explicit
  fuel argument; lemmas establish that the fuel used by the top-level
  definitions is sufficient, so the embedded functions agree with the
  JavaScript loops (which run until their condition fails).
-/

namespace MazeSite

/-! ## Priority queue (part_005, `priority-queue.ts`) -/

/-- One element of the heap: `PriorityQueueElement` holds `data` and a
numeric `priority`. -/
structure PQElem (T : Type) where
  data : T
  priority : Int
  deriving DecidableEq

/-- The priority queue: a heap array and the `_size` field, kept separately
exactly as in the source. -/
structure PriorityQueue (T : Type) where
  heap : List (PQElem T)
  size : Nat
  deriving DecidableEq

/-- The free `swap` helper of `priority-queue.ts`: swaps the entries at two
indices.  For out-of-range indices the JavaScript code would manufacture
`undefined` entries; such calls only arise from the corrupted
empty-`removeMin` state, and the embedding leaves the list unchanged
there. -/
def swapList {α : Type} (arr : List α) (i j : Nat) : List α :=
  match arr.get? i, arr.get? j with
  | some a, some b => (arr.set i b).set j a
  | _, _ => arr

/-- `heapifyUp`: bubble the entry at `index` towards the root while it is
strictly smaller than its parent.  The recursion follows `index ↦ (index -
1) / 2`; `fuel ≥ index` iterations always suffice. -/
def heapifyUpF {T : Type} (fuel : Nat) (h : List (PQElem T)) (index : Nat) :
    List (PQElem T) :=
  match fuel with
  | 0 => h
  | fuel + 1 =>
    if index = 0 then h
    else
      match h.get? index, h.get? ((index - 1) / 2) with
      | some ei, some ep =>
        if ei.priority < ep.priority then
          heapifyUpF fuel (swapList h index ((index - 1) / 2)) ((index - 1) / 2)
        else h
      | _, _ => h

/-- `insert(element, priority)`: push a new `PriorityQueueElement`, bump
`_size`, and sift up from the last slot. -/
def PriorityQueue.insert {T : Type} (pq : PriorityQueue T) (element : T)
    (priority : Int) : PriorityQueue T :=
  let heap := pq.heap ++ [⟨element, priority⟩]
  let size := pq.size + 1
  ⟨heapifyUpF size heap (size - 1), size⟩

/-- `removeMin()`: swap the first and last heap slots, decrement `_size`,
pop the last array entry and return its data.  NOTE (faithful to the
source): no sift-down is performed afterwards.  On an empty queue the
JavaScript code pops `undefined` and crashes on `.getData()`; that failure
is the `none` result. -/
def PriorityQueue.removeMin {T : Type} (pq : PriorityQueue T) :
    Option (T × PriorityQueue T) :=
  let h := swapList pq.heap 0 (pq.size - 1)
  match h.getLast? with
  | none => none
  | some e => some (e.data, ⟨h.dropLast, pq.size - 1⟩)

/-- The empty queue produced by the argumentless constructor. -/
def PriorityQueue.empty (T : Type) : PriorityQueue T := ⟨[], 0⟩

/-- Repeated `removeMin()` until the queue reports size 0, collecting the
returned elements. -/
def drainAll {T : Type} (fuel : Nat) (pq : PriorityQueue T) : List T :=
  match fuel with
  | 0 => []
  | fuel + 1 =>
    if pq.size = 0 then []
    else
      match pq.removeMin with
      | none => []
      | some (x, pq') => x :: drainAll fuel pq'

/-! Basic facts about the heap helpers. -/

theorem swapList_length {α : Type} (arr : List α) (i j : Nat) :
    (swapList arr i j).length = arr.length := by
  unfold swapList
  cases hi : arr.get? i <;> cases hj : arr.get? j <;> simp

theorem heapifyUpF_length {T : Type} (fuel : Nat) (h : List (PQElem T))
    (index : Nat) : (heapifyUpF fuel h index).length = h.length := by
  induction fuel generalizing h index with
  | zero => rfl
  | succ fuel ih =>
    unfold heapifyUpF
    by_cases h0 : index = 0
    · simp [h0]
    · simp only [h0, if_false]
      cases hi : h.get? index <;> cases hp : h.get? ((index - 1) / 2) <;>
        simp only
      split
      · rw [ih, swapList_length]
      · rfl

theorem swapList_get? {α : Type} (arr : List α) (i j k : Nat)
    (hi : i < arr.length) (hj : j < arr.length) :
    (swapList arr i j).get? k =
      if j = k then arr.get? i
      else if i = k then arr.get? j else arr.get? k := by
  have h1 : arr.get? i = some (arr.get ⟨i, hi⟩) := List.get?_eq_get hi
  have h2 : arr.get? j = some (arr.get ⟨j, hj⟩) := List.get?_eq_get hj
  have hj' : j < (arr.set i (arr.get ⟨j, hj⟩)).length := by
    rw [List.length_set]; exact hj
  unfold swapList
  rw [h1, h2]
  simp only
  rw [List.get?_set_of_lt' _ _ hj', List.get?_set_of_lt' _ _ hi]

theorem mem_swapList {α : Type} {arr : List α} {i j : Nat} {x : α}
    (hx : x ∈ swapList arr i j) : x ∈ arr := by
  by_cases hi : i < arr.length
  · by_cases hj : j < arr.length
    · obtain ⟨n, hn⟩ := List.mem_iff_get?.1 hx
      rw [swapList_get? arr i j n hi hj] at hn
      by_cases h1 : j = n
      · simp only [h1, if_pos rfl] at hn
        exact List.mem_iff_get?.2 ⟨i, hn⟩
      · rw [if_neg h1] at hn
        by_cases h2 : i = n
        · rw [if_pos h2] at hn
          exact List.mem_iff_get?.2 ⟨j, hn⟩
        · rw [if_neg h2] at hn
          exact List.mem_iff_get?.2 ⟨n, hn⟩
    · unfold swapList at hx
      rw [List.get?_eq_none.2 (Nat.le_of_not_lt hj)] at hx
      cases h : arr.get? i <;> rw [h] at hx <;> exact hx
  · unfold swapList at hx
    rw [List.get?_eq_none.2 (Nat.le_of_not_lt hi)] at hx
    exact hx

theorem swapList_mem {α : Type} {arr : List α} {i j : Nat} {x : α}
    (hx : x ∈ arr) : x ∈ swapList arr i j := by
  by_cases hi : i < arr.length
  · by_cases hj : j < arr.length
    · obtain ⟨n, hn⟩ := List.mem_iff_get?.1 hx
      by_cases h1 : n = i
      · refine List.mem_iff_get?.2 ⟨j, ?_⟩
        rw [swapList_get? arr i j j hi hj, if_pos rfl, ← h1, hn]
      · by_cases h2 : n = j
        · refine List.mem_iff_get?.2 ⟨i, ?_⟩
          rw [swapList_get? arr i j i hi hj]
          have hji : ¬ j = i := fun hc => h1 (h2.trans hc)
          rw [if_neg hji, if_pos rfl, ← h2, hn]
        · refine List.mem_iff_get?.2 ⟨n, ?_⟩
          rw [swapList_get? arr i j n hi hj,
            if_neg (fun hc => h2 hc.symm), if_neg (fun hc => h1 hc.symm), hn]
    · unfold swapList
      rw [List.get?_eq_none.2 (Nat.le_of_not_lt hj)]
      cases h : arr.get? i <;> exact hx
  · unfold swapList
    rw [List.get?_eq_none.2 (Nat.le_of_not_lt hi)]
    exact hx

theorem heapifyUpF_mem {T : Type} {fuel : Nat} {h : List (PQElem T)}
    {index : Nat} {x : PQElem T} (hx : x ∈ heapifyUpF fuel h index) :
    x ∈ h := by
  induction fuel generalizing h index with
  | zero => exact hx
  | succ fuel ih =>
    unfold heapifyUpF at hx
    by_cases h0 : index = 0
    · rw [if_pos h0] at hx; exact hx
    · rw [if_neg h0] at hx
      cases h1 : h.get? index <;> rw [h1] at hx
      · exact hx
      · cases h2 : h.get? ((index - 1) / 2) <;> rw [h2] at hx
        · exact hx
        · simp only at hx
          split at hx
          · exact mem_swapList (ih hx)
          · exact hx

theorem mem_heapifyUpF {T : Type} {fuel : Nat} {h : List (PQElem T)}
    {index : Nat} {x : PQElem T} (hx : x ∈ h) :
    x ∈ heapifyUpF fuel h index := by
  induction fuel generalizing h index with
  | zero => exact hx
  | succ fuel ih =>
    unfold heapifyUpF
    by_cases h0 : index = 0
    · rw [if_pos h0]; exact hx
    · rw [if_neg h0]
      cases h1 : h.get? index
      · exact hx
      · cases h2 : h.get? ((index - 1) / 2)
        · exact hx
        · simp only
          split
          · exact ih (swapList_mem hx)
          · exact hx

theorem insert_size {T : Type} (pq : PriorityQueue T) (x : T) (p : Int) :
    (pq.insert x p).size = pq.size + 1 := rfl

theorem insert_wf {T : Type} (pq : PriorityQueue T) (x : T) (p : Int)
    (hwf : pq.heap.length = pq.size) :
    (pq.insert x p).heap.length = (pq.insert x p).size := by
  show (heapifyUpF _ _ _).length = pq.size + 1
  rw [heapifyUpF_length, List.length_append, hwf]
  rfl

theorem insert_mem_iff {T : Type} (pq : PriorityQueue T) (x : T) (p : Int)
    (y : PQElem T) :
    y ∈ (pq.insert x p).heap ↔ y ∈ pq.heap ∨ y = ⟨x, p⟩ := by
  constructor
  · intro hy
    have := heapifyUpF_mem hy
    rcases List.mem_append.1 this with h | h
    · exact Or.inl h
    · exact Or.inr (List.mem_singleton.1 h)
  · intro hy
    apply mem_heapifyUpF
    rcases hy with h | h
    · exact List.mem_append.2 (Or.inl h)
    · exact List.mem_append.2 (Or.inr (List.mem_singleton.2 h))

theorem removeMin_none_iff {T : Type} (pq : PriorityQueue T)
    (hwf : pq.heap.length = pq.size) :
    pq.removeMin = none ↔ pq.size = 0 := by
  unfold PriorityQueue.removeMin
  simp only
  cases hl : (swapList pq.heap 0 (pq.size - 1)).getLast? with
  | none =>
    refine ⟨fun _ => ?_, fun _ => rfl⟩
    have hnil := List.getLast?_eq_none_iff.1 hl
    have hlen : (swapList pq.heap 0 (pq.size - 1)).length = pq.size := by
      rw [swapList_length, hwf]
    rw [hnil] at hlen
    exact hlen.symm
  | some e =>
    refine ⟨fun hc => Option.noConfusion hc, fun h0 => ?_⟩
    exfalso
    have hlen : (swapList pq.heap 0 (pq.size - 1)).length = 0 := by
      rw [swapList_length, hwf, h0]
    have hnil := List.getLast?_eq_none_iff.2 (List.length_eq_zero.1 hlen)
    rw [hnil] at hl
    exact Option.noConfusion hl

theorem removeMin_spec {T : Type} (pq : PriorityQueue T)
    (hwf : pq.heap.length = pq.size) {x : T} {pq' : PriorityQueue T}
    (h : pq.removeMin = some (x, pq')) :
    pq'.size = pq.size - 1 ∧ pq'.heap.length = pq'.size ∧
      ∃ e ∈ pq.heap, e.data = x ∧
        (∀ y ∈ pq.heap, y = e ∨ y ∈ pq'.heap) ∧
        (∀ y ∈ pq'.heap, y ∈ pq.heap) := by
  unfold PriorityQueue.removeMin at h
  simp only at h
  cases hl : (swapList pq.heap 0 (pq.size - 1)).getLast? with
  | none => rw [hl] at h; exact Option.noConfusion h
  | some e =>
    rw [hl] at h
    have he := Option.some.inj h
    have hx : e.data = x := congrArg Prod.fst he
    have hq : pq' = ⟨(swapList pq.heap 0 (pq.size - 1)).dropLast, pq.size - 1⟩ :=
      (congrArg Prod.snd he).symm
    have hsplit : (swapList pq.heap 0 (pq.size - 1)).dropLast ++ [e] =
        swapList pq.heap 0 (pq.size - 1) :=
      List.dropLast_append_getLast? e hl
    subst hq
    refine ⟨rfl, ?_, e, ?_, hx, ?_, ?_⟩
    · show (swapList pq.heap 0 (pq.size - 1)).dropLast.length = pq.size - 1
      have : (swapList pq.heap 0 (pq.size - 1)).length = pq.size := by
        rw [swapList_length, hwf]
      rw [List.length_dropLast, this]
    · exact mem_swapList (List.mem_of_mem_getLast? hl)
    · intro y hy
      have : y ∈ swapList pq.heap 0 (pq.size - 1) := swapList_mem hy
      rw [← hsplit] at this
      rcases List.mem_append.1 this with h' | h'
      · exact Or.inr h'
      · exact Or.inl (List.mem_singleton.1 h')
    · intro y hy
      apply @mem_swapList _ pq.heap 0 (pq.size - 1) y
      rw [← hsplit]
      exact List.mem_append.2 (Or.inl hy)

/-- Claim C2 (settled as a code bug, evaluated at the failing input):
`removeMin` performs no sift-down after swapping, so draining the queue is
NOT non-decreasing in priority.  Inserting elements with priorities
1, 2, 3, 4 (in that order) and then draining yields the priority sequence
1, 4, 3, 2 — the element of priority 4 is removed before those of
priorities 2 and 3, contradicting both the claim and the method's own
documentation ("Removes and returns the element with minimum priority").
The spec's own example (A,5), (B,1), (C,3) → B, C, A (encoded as labels
0, 1, 2) does happen to hold, which is the second conjunct. -/
theorem claim_C2_removeMin_order_bug :
    drainAll 4
        (((((PriorityQueue.empty Int).insert 1 1).insert 2 2).insert 3
              3).insert 4 4) =
      [1, 4, 3, 2] ∧
    drainAll 3
        ((((PriorityQueue.empty Nat).insert 0 5).insert 1 1).insert 2 3) =
      [1, 2, 0] :=
  ⟨rfl, rfl⟩

/-- Claim C6: on a well-formed queue (heap array length equals the `_size`
field — true for every queue built through the public interface),
`removeMin()` fails exactly when the size is 0, and succeeds whenever the
size is at least 1.  The failure on an empty queue is the JavaScript
`TypeError` raised by calling `.getData()` on the `undefined` result of
popping the empty heap array (the repository defines no named
`EmptyQueueError` class; the spec's name labels this failure). -/
theorem claim_C6_removeMin_empty {T : Type} (pq : PriorityQueue T)
    (hwf : pq.heap.length = pq.size) :
    (pq.size = 0 → pq.removeMin = none) ∧
    (1 ≤ pq.size → ∃ x pq', pq.removeMin = some (x, pq')) := by
  constructor
  · exact fun h0 => (removeMin_none_iff pq hwf).2 h0
  · intro h1
    cases h : pq.removeMin with
    | none =>
      exfalso
      have h0 := (removeMin_none_iff pq hwf).1 h
      omega
    | some xq => exact ⟨xq.1, xq.2, rfl⟩

/-- Witness for C6: the empty queue fails, a singleton queue succeeds. -/
theorem claim_C6_removeMin_empty_witness :
    (PriorityQueue.empty Nat).removeMin = none ∧
    ∃ x pq', ((PriorityQueue.empty Nat).insert 7 3).removeMin =
      some (x, pq') :=
  ⟨(claim_C6_removeMin_empty (PriorityQueue.empty Nat) rfl).1 rfl,
   (claim_C6_removeMin_empty ((PriorityQueue.empty Nat).insert 7 3)
      rfl).2 (by decide)⟩

/-! ## Grid basics (maze.ts, part_005 / part_002)

A maze is `rows × columns`; a cell is its coordinate pair `(row, column)`
and the openness of all cells of a board is a function `Nat × Nat → Bool`
(the `open` flags of the cell objects).  Out-of-bounds coordinates have no
cell in the source; the openness functions produced by the embedding are
`false` there, and no embedded operation ever reads them. -/

/-- In-bounds predicate for a `rows × cols` board. -/
def InB (rows cols : Nat) (p : Nat × Nat) : Prop :=
  p.1 < rows ∧ p.2 < cols

instance (rows cols : Nat) (p : Nat × Nat) : Decidable (InB rows cols p) :=
  inferInstanceAs (Decidable (_ ∧ _))

/-- Grid adjacency: Manhattan distance exactly 1 (`areNeighbours` /
`isNeighbour` without the bounds clipping). -/
def Adj (p q : Nat × Nat) : Prop :=
  (p.1 = q.1 ∧ (p.2 + 1 = q.2 ∨ q.2 + 1 = p.2)) ∨
  (p.2 = q.2 ∧ (p.1 + 1 = q.1 ∨ q.1 + 1 = p.1))

instance (p q : Nat × Nat) : Decidable (Adj p q) :=
  inferInstanceAs (Decidable (_ ∨ _))

theorem Adj.symm {p q : Nat × Nat} (h : Adj p q) : Adj q p := by
  unfold Adj at h ⊢
  omega

/-- `neighbours(cell)`: the in-bounds cells at distance one, pushed in the
source's order — up, left, down, right (the loop runs `i = -1` then
`i = 1`, pushing the row neighbour before the column neighbour). -/
def neighbours (rows cols : Nat) (p : Nat × Nat) : List (Nat × Nat) :=
  (if 1 ≤ p.1 ∧ p.1 - 1 ≤ rows - 1 then [(p.1 - 1, p.2)] else []) ++
  (if 1 ≤ p.2 ∧ p.2 - 1 ≤ cols - 1 then [(p.1, p.2 - 1)] else []) ++
  (if p.1 + 1 ≤ rows - 1 then [(p.1 + 1, p.2)] else []) ++
  (if p.2 + 1 ≤ cols - 1 then [(p.1, p.2 + 1)] else [])

theorem mem_neighbours {rows cols : Nat} {p q : Nat × Nat}
    (hp : InB rows cols p) :
    q ∈ neighbours rows cols p ↔ InB rows cols q ∧ Adj p q := by
  obtain ⟨p1, p2⟩ := p
  obtain ⟨q1, q2⟩ := q
  obtain ⟨hp1, hp2⟩ := hp
  simp only [neighbours, List.mem_append, List.mem_ite_nil_right,
    List.mem_singleton, Prod.mk.injEq, InB, Adj] at *
  omega

theorem neighbours_length_le {rows cols : Nat} (p : Nat × Nat) :
    (neighbours rows cols p).length ≤ 4 := by
  unfold neighbours
  split <;> split <;> split <;> split <;> simp

/-- The initial skeleton of `initBoard`: a cell is open iff its row index
is even or the last row, and its column index is even or the last column.
(Out-of-bounds coordinates have no cell; they are mapped to `false`.) -/
def initOpen (rows cols : Nat) (p : Nat × Nat) : Bool :=
  decide (p.1 < rows) && decide (p.2 < cols) &&
    (decide (p.1 % 2 = 0) || decide (p.1 = rows - 1)) &&
    (decide (p.2 % 2 = 0) || decide (p.2 = cols - 1))

/-- The skeleton pattern alone (the open/closed rule of `initBoard`). -/
def Skel (rows cols : Nat) (p : Nat × Nat) : Prop :=
  (p.1 % 2 = 0 ∨ p.1 = rows - 1) ∧ (p.2 % 2 = 0 ∨ p.2 = cols - 1)

instance (rows cols : Nat) (p : Nat × Nat) : Decidable (Skel rows cols p) :=
  inferInstanceAs (Decidable (_ ∧ _))

theorem initOpen_eq_true_iff {rows cols : Nat} {p : Nat × Nat} :
    initOpen rows cols p = true ↔ InB rows cols p ∧ Skel rows cols p := by
  unfold initOpen InB Skel
  simp only [Bool.and_eq_true, Bool.or_eq_true, decide_eq_true_eq]
  tauto

/-! ## Maze constructor validation (part_005 / part_002, claim C7)

The constructor's guard, over mathematical integers (JavaScript numbers
restricted to integer inputs):

```
if (rows * columns === 0)           throw "One of rows and columns is 0."
else if (rows > Math.floor(2147483647 / columns)) throw "Maze size is too large."
```

`Math.floor` of the real quotient is `Int.fdiv` for a nonzero divisor; the
divisor-zero case is unreachable because `rows * 0 === 0` throws first. -/
def mazeDimsThrow (rows cols : Int) : Bool :=
  if rows * cols = 0 then true
  else if Int.fdiv 2147483647 cols < rows then true
  else false

/-- Claim C7 counterexample: `(rows, columns) = (-1, 1)` violates the
claimed validity condition `rows ≥ 1`, yet the constructor's validation
does NOT throw (`-1 * 1 ≠ 0` and `-1 ≤ floor(2147483647 / 1)`), so
construction does not fail with the dimension error as claimed.  (The
JavaScript constructor instead crashes later, while allocating the
`visited` array of length `-1` — a `RangeError`, not the
`InvalidDimensionsError` of the claim.) -/
theorem claim_C7_counterexample :
    mazeDimsThrow (-1) 1 = false ∧ ¬ (1 ≤ (-1 : Int)) := by
  refine ⟨?_, by decide⟩
  rfl

/-- Claim C7 amended: the validation rejects exactly `rows * columns = 0`
or `rows > ⌊2147483647 / columns⌋`; in particular it accepts every
claimed-valid triple (`rows ≥ 1`, `columns ≥ 1`,
`rows ≤ ⌊2147483647 / columns⌋`), but it also accepts some claimed-invalid
dimensions (negative `rows` with positive `columns`), which therefore do
not fail with the dimension error. -/
theorem claim_C7_guard (rows cols : Int) :
    (1 ≤ rows → 1 ≤ cols → rows ≤ Int.fdiv 2147483647 cols →
      mazeDimsThrow rows cols = false) ∧
    (mazeDimsThrow rows cols = true ↔
      rows * cols = 0 ∨ Int.fdiv 2147483647 cols < rows) := by
  constructor
  · intro h1 h2 h3
    unfold mazeDimsThrow
    have hne : rows * cols ≠ 0 := by positivity
    rw [if_neg hne, if_neg (not_lt.2 h3)]
  · unfold mazeDimsThrow
    by_cases h0 : rows * cols = 0
    · rw [if_pos h0]
      simp only [true_iff]
      exact Or.inl h0
    · rw [if_neg h0]
      by_cases h1 : Int.fdiv 2147483647 cols < rows
      · rw [if_pos h1]
        simp only [true_iff]
        exact Or.inr h1
      · rw [if_neg h1]
        simp only [Bool.false_eq_true, false_iff]
        push_neg
        exact ⟨h0, not_lt.1 h1⟩

/-- Witness for C7 at the dimensions the application uses (25 × 51). -/
theorem claim_C7_guard_witness :
    mazeDimsThrow 25 51 = false ∧
    (mazeDimsThrow 25 51 = true ↔
      (25 : Int) * 51 = 0 ∨ Int.fdiv 2147483647 51 < 25) :=
  ⟨(claim_C7_guard 25 51).1 (by decide) (by decide) (by decide),
   (claim_C7_guard 25 51).2⟩

/-! ## Boards, cells and the rendering environment

`Board` is the read-only view of a constructed maze that `MazePath`,
`getSolution` and `drawSolution` consume: dimensions plus the per-cell
`open` flags (false off the board, where no cell exists).  JavaScript
compares mazes and cells by object identity; distinct maze objects are
modelled by distinct `Nat` identifiers interpreted by an environment
`env : Nat → Board`, and a cell object is the pair of its maze identifier
and its coordinates. -/

structure Board where
  rows : Nat
  cols : Nat
  openAt : Nat × Nat → Bool

/-- A cell object: the owning maze's identifier and the coordinates. -/
def MCell : Type := Nat × (Nat × Nat)

instance : DecidableEq MCell := inferInstanceAs (DecidableEq (Nat × Nat × Nat))

/-- `cell.isOpen()`. -/
def isOpenCell (env : Nat → Board) (c : MCell) : Bool := (env c.1).openAt c.2

/-- A well-formed environment: every board's openness function is `false`
off the board (no cell object exists there in the source). -/
def WfEnv (env : Nat → Board) : Prop :=
  ∀ id p, ¬ InB (env id).rows (env id).cols p → (env id).openAt p = false

/-- `Cell.isNeighbour(otherCell)`: same maze (object identity) and
Manhattan distance 1. -/
def isNeighbourB (c d : MCell) : Bool :=
  decide (d.1 = c.1) && decide (Adj c.2 d.2)

/-- `Maze.getCell(row, column)`: the board's cell at in-bounds
coordinates, `null` otherwise.  Inputs are JavaScript numbers, so the
arguments are integers here. -/
def mazeGetCell (b : Board) (row col : Int) : Option (Nat × Nat) :=
  if 0 ≤ row ∧ row < b.rows ∧ 0 ≤ col ∧ col < b.cols then
    some (row.toNat, col.toNat)
  else none

/-! ## MazePath (src/maze/mazepath.ts) -/

/-- The `MazePath` state: the maze it was constructed against (through its
`MazeDrawer`), the ordered cell list, and the `cellPositions` table
(`-1` marks an absent cell).  The table is total here; the JavaScript
`rows × columns` array is only ever indexed at coordinates of existing
cells. -/
structure MazePath where
  mazeId : Nat
  path : List MCell
  cellPositions : Nat × Nat → Int

/-- The freshly-constructed empty path bound to maze `id`. -/
def emptyPath (id : Nat) : MazePath := ⟨id, [], fun _ => -1⟩

/-- `add(cell)`: silently do nothing unless the cell belongs to this
path's maze and is open; append unconditionally when the path is empty,
otherwise only when the cell is absent and the current last cell occurs
among the cell's neighbours (object identity).  Rendering calls are
side-effect free here. -/
def MazePath.add (env : Nat → Board) (mp : MazePath) (c : MCell) :
    MazePath :=
  if c.1 = mp.mazeId ∧ isOpenCell env c = true then
    if mp.path.length = 0 then
      ⟨mp.mazeId, mp.path ++ [c],
        fun p => if p = c.2 then 0 else mp.cellPositions p⟩
    else
      if mp.cellPositions c.2 = -1 then
        match mp.path.getLast? with
        | none => mp
        | some lastC =>
          if (neighbours (env c.1).rows (env c.1).cols c.2).any
              (fun q => decide ((c.1, q) = lastC)) then
            ⟨mp.mazeId, mp.path ++ [c],
              fun p => if p = c.2 then (mp.path.length : Int)
                       else mp.cellPositions p⟩
          else mp
      else mp
  else mp

/-- `remove(cell)`: for a same-maze cell present at position `k`, clear
the position entries of the cells from `k` on, truncate the path to `k`
cells, and then redraw the new last cell — which dereferences
`path[-1] = undefined` and throws a `TypeError` when `k = 0`.  The
`Except.error` result carries the (already mutated) state at the throw. -/
def MazePath.remove (env : Nat → Board) (mp : MazePath) (c : MCell) :
    Except MazePath MazePath :=
  if c.1 = mp.mazeId then
    let position := mp.cellPositions c.2
    if position = -1 then Except.ok mp
    else
      let keep := mp.path.take position.toNat
      let removed := mp.path.drop position.toNat
      let mp' : MazePath :=
        ⟨mp.mazeId, keep,
          fun p => if (removed.map fun d => d.2).contains p then -1
                   else mp.cellPositions p⟩
      match keep.getLast? with
      | none => Except.error mp'
      | some _ => Except.ok mp'
  else Except.ok mp

/-- `getPosition(cell)`: table lookup, `-1` across mazes. -/
def MazePath.getPosition (mp : MazePath) (c : MCell) : Int :=
  if c.1 = mp.mazeId then mp.cellPositions c.2 else -1

/-- The helper loop of `isComplete()`: for `i < length - 1`, require
`path[i]` open and `path[i].isNeighbour(path[i+1])`. -/
def pairsOk (env : Nat → Board) : List MCell → Bool
  | [] => true
  | [_] => true
  | a :: b :: rest =>
    isOpenCell env a && isNeighbourB a b && pairsOk env (b :: rest)

/-- `isComplete()`: the consecutive-pair loop, then the final check that
the last cell is open and IS (object identity) the maze's bottom-right
cell.  On an empty path the JavaScript reads `path[-1] = undefined` and
throws on `.isOpen()`; that is the `none` result. -/
def MazePath.isComplete (env : Nat → Board) (mp : MazePath) : Option Bool :=
  match mp.path.getLast? with
  | none => none
  | some lastC =>
    let b := env mp.mazeId
    some (pairsOk env mp.path && isOpenCell env lastC &&
      decide (lastC.1 = mp.mazeId ∧
        some lastC.2 = mazeGetCell b ((b.rows : Int) - 1) ((b.cols : Int) - 1)))

/-- A user-interaction step: the two mutations `MazePath` exposes. -/
inductive PathOp where
  | addOp : MCell → PathOp
  | removeOp : MCell → PathOp

/-- Run a sequence of interactions on a path; an uncaught `TypeError`
(from `remove` at position 0) aborts the rest of the sequence, leaving the
mutated state. -/
def applyOps (env : Nat → Board) : MazePath → List PathOp →
    Except MazePath MazePath
  | mp, [] => Except.ok mp
  | mp, PathOp.addOp c :: rest => applyOps env (mp.add env c) rest
  | mp, PathOp.removeOp c :: rest =>
    match mp.remove env c with
    | Except.ok mp' => applyOps env mp' rest
    | Except.error mp' => Except.error mp'

/-- The state held by a `MazePath` object, whether or not the last call
threw. -/
def exceptState (r : Except MazePath MazePath) : MazePath :=
  match r with
  | Except.ok mp => mp
  | Except.error mp => mp

/-- Is the result a normal return? -/
def exceptIsOk (r : Except MazePath MazePath) : Bool :=
  match r with
  | Except.ok _ => true
  | Except.error _ => false

/-- The four documented `MazePath` invariants plus the exactness of the
position index:
1. no cell appears twice;
2. every cell on the path is open (hence on the board, by `WfEnv`);
3. consecutive cells are grid-adjacent;
4. every cell belongs to the maze the path was constructed against;
5. `cellPositions` maps the coordinates of the `i`-th cell to `i` and all
   other coordinates to `-1`. -/
def WfPath (env : Nat → Board) (mp : MazePath) : Prop :=
  mp.path.Nodup ∧
  (∀ c ∈ mp.path, c.1 = mp.mazeId ∧ isOpenCell env c = true ∧
    InB (env mp.mazeId).rows (env mp.mazeId).cols c.2) ∧
  List.Chain' (fun a b : MCell => Adj a.2 b.2) mp.path ∧
  (∀ i c, mp.path.get? i = some c → mp.cellPositions c.2 = (i : Int)) ∧
  (∀ p : Nat × Nat, (∀ c ∈ mp.path, c.2 ≠ p) → mp.cellPositions p = -1)

/-! Facts about `WfPath` and the two mutations. -/

theorem wfPath_empty (env : Nat → Board) (id : Nat) :
    WfPath env (emptyPath id) := by
  refine ⟨List.nodup_nil, ?_, List.chain'_nil, ?_, ?_⟩
  · intro c hc; exact absurd hc (List.not_mem_nil c)
  · intro i c hc
    rw [List.get?_len_le (by simp [emptyPath])] at hc
    exact Option.noConfusion hc
  · intro p _; rfl

theorem wfPath_pos_of_mem {env : Nat → Board} {mp : MazePath}
    (hwf : WfPath env mp) {c : MCell} (hc : c ∈ mp.path) :
    0 ≤ mp.cellPositions c.2 := by
  obtain ⟨i, hi⟩ := List.mem_iff_get?.1 hc
  rw [hwf.2.2.2.1 i c hi]
  exact Int.natCast_nonneg i

theorem wfPath_coords_absent {env : Nat → Board} {mp : MazePath}
    (hwf : WfPath env mp) {p : Nat × Nat}
    (h : mp.cellPositions p = -1) : ∀ c ∈ mp.path, c.2 ≠ p := by
  intro c hc hp
  have := wfPath_pos_of_mem hwf hc
  rw [hp, h] at this
  omega

theorem wfPath_lookup {env : Nat → Board} {mp : MazePath}
    (hwf : WfPath env mp) {p : Nat × Nat}
    (h : mp.cellPositions p ≠ -1) :
    ∃ c, mp.path.get? (mp.cellPositions p).toNat = some c ∧ c.2 = p := by
  have hex : ∃ c ∈ mp.path, c.2 = p := by
    by_contra hc
    push_neg at hc
    exact h (hwf.2.2.2.2 p hc)
  obtain ⟨c, hcmem, hcp⟩ := hex
  obtain ⟨i, hi⟩ := List.mem_iff_get?.1 hcmem
  have hpos : mp.cellPositions p = (i : Int) := by
    rw [← hcp]; exact hwf.2.2.2.1 i c hi
  refine ⟨c, ?_, hcp⟩
  rw [hpos, Int.toNat_natCast]
  exact hi

/-- `add` preserves the `MazePath` invariants. -/
theorem add_wf (env : Nat → Board) (henv : WfEnv env) (mp : MazePath)
    (c : MCell) (hwf : WfPath env mp) : WfPath env (mp.add env c) := by
  unfold MazePath.add
  by_cases hg : c.1 = mp.mazeId ∧ isOpenCell env c = true
  · rw [if_pos hg]
    have hcInB : InB (env mp.mazeId).rows (env mp.mazeId).cols c.2 := by
      by_contra hni
      have := henv mp.mazeId c.2 hni
      rw [isOpenCell, hg.1] at hg
      rw [this] at hg
      exact Bool.noConfusion hg.2
    by_cases hlen : mp.path.length = 0
    · rw [if_pos hlen]
      have hpem : mp.path = [] := List.length_eq_zero.1 hlen
      refine ⟨?_, ?_, ?_, ?_, ?_⟩
      · rw [hpem]; exact List.nodup_singleton c
      · intro d hd
        rw [hpem] at hd
        rcases List.mem_singleton.1 hd with rfl
        exact ⟨hg.1, hg.2, hcInB⟩
      · rw [hpem]; exact List.chain'_singleton c
      · intro i d hd
        rw [hpem] at hd
        cases i with
        | zero =>
          have hcd : c = d := by simpa using hd
          subst hcd
          simp
        | succ i =>
          rw [List.get?_len_le (by simp)] at hd
          exact Option.noConfusion hd
      · intro p hp
        have hpc : c.2 ≠ p := by
          apply hp
          rw [hpem]
          exact List.mem_singleton.2 rfl
        show (if p = c.2 then 0 else mp.cellPositions p) = -1
        rw [if_neg (fun h => hpc h.symm)]
        apply hwf.2.2.2.2
        intro d hd
        rw [hpem] at hd
        exact absurd hd (List.not_mem_nil d)
    · rw [if_neg hlen]
      by_cases habs : mp.cellPositions c.2 = -1
      · rw [if_pos habs]
        cases hlast : mp.path.getLast? with
        | none => exact hwf
        | some lastC =>
          dsimp only
          by_cases hadj : (neighbours (env c.1).rows (env c.1).cols c.2).any
              (fun q => decide ((c.1, q) = lastC)) = true
          · rw [if_pos hadj]
            have hfresh : ∀ d ∈ mp.path, d.2 ≠ c.2 :=
              wfPath_coords_absent hwf habs
            have hnotmem : c ∉ mp.path := fun hc =>
              hfresh c hc rfl
            have hlastmem : lastC ∈ mp.path :=
              List.mem_of_mem_getLast? hlast
            have hAdj : Adj lastC.2 c.2 := by
              obtain ⟨q, hqmem, hqeq⟩ := List.any_eq_true.1 hadj
              have hq : (c.1, q) = lastC := of_decide_eq_true hqeq
              have hrc : (env c.1) = (env mp.mazeId) := by rw [hg.1]
              rw [hrc] at hqmem
              have := (mem_neighbours hcInB).1 hqmem
              have hq2 : q = lastC.2 := by
                rw [← hq]
              rw [hq2] at this
              exact this.2.symm
            refine ⟨?_, ?_, ?_, ?_, ?_⟩
            · rw [← List.concat_eq_append]
              exact hwf.1.concat hnotmem
            · intro d hd
              rcases List.mem_append.1 hd with h | h
              · exact hwf.2.1 d h
              · rcases List.mem_singleton.1 h with rfl
                exact ⟨hg.1, hg.2, hcInB⟩
            · rw [List.chain'_append]
              refine ⟨hwf.2.2.1, List.chain'_singleton c, ?_⟩
              intro x hx y hy
              rw [hlast] at hx
              have hx' : x = lastC := (Option.some.inj (Option.mem_def.1 hx)).symm
              subst hx'
              simp only [List.head?_cons, Option.mem_def, Option.some.injEq] at hy
              subst hy
              exact hAdj
            · intro i d hd
              by_cases hi : i < mp.path.length
              · rw [List.get?_append hi] at hd
                have hdmem : d ∈ mp.path := List.mem_iff_get?.2 ⟨i, hd⟩
                show (if d.2 = c.2 then ((mp.path.length : Nat) : Int)
                  else mp.cellPositions d.2) = (i : Int)
                rw [if_neg (hfresh d hdmem)]
                exact hwf.2.2.2.1 i d hd
              · by_cases hieq : i = mp.path.length
                · subst hieq
                  rw [List.get?_concat_length] at hd
                  have hcd : c = d := Option.some.inj hd
                  subst hcd
                  show (if c.2 = c.2 then ((mp.path.length : Nat) : Int)
                    else mp.cellPositions c.2) = _
                  rw [if_pos rfl]
                · rw [List.get?_len_le] at hd
                  · exact Option.noConfusion hd
                  · rw [List.length_append, List.length_singleton]
                    omega
            · intro p hp
              have hpc : c.2 ≠ p := by
                apply hp
                exact List.mem_append.2 (Or.inr (List.mem_singleton.2 rfl))
              show (if p = c.2 then ((mp.path.length : Nat) : Int)
                else mp.cellPositions p) = -1
              rw [if_neg (fun h => hpc h.symm)]
              apply hwf.2.2.2.2
              intro d hd
              exact hp d (List.mem_append.2 (Or.inl hd))
          · rw [if_neg hadj]; exact hwf
      · rw [if_neg habs]; exact hwf
  · rw [if_neg hg]; exact hwf

/-- `remove` preserves the `MazePath` invariants, whether or not the call
throws (the thrown `TypeError` leaves the already-truncated state). -/
theorem remove_wf (env : Nat → Board) (mp : MazePath) (c : MCell)
    (hwf : WfPath env mp) : WfPath env (exceptState (mp.remove env c)) := by
  unfold MazePath.remove
  by_cases hm : c.1 = mp.mazeId
  · rw [if_pos hm]
    dsimp only
    by_cases habs : mp.cellPositions c.2 = -1
    · rw [if_pos habs]; exact hwf
    · rw [if_neg habs]
      set k := (mp.cellPositions c.2).toNat with hk
      have hsplit : mp.path.take k ++ mp.path.drop k = mp.path :=
        List.take_append_drop k mp.path
      have hwf' : WfPath env
          ⟨mp.mazeId, mp.path.take k,
            fun p => if ((mp.path.drop k).map fun d => d.2).contains p then -1
                     else mp.cellPositions p⟩ := by
        have hsame : ∀ d ∈ mp.path, d.1 = mp.mazeId := fun d hd =>
          (hwf.2.1 d hd).1
        have hdisj : ∀ d ∈ mp.path.take k, ∀ e ∈ mp.path.drop k, d ≠ e :=
          fun d hd e he hde =>
            (List.disjoint_take_drop hwf.1 (le_refl k)) hd (hde ▸ he)
        have hcoords : ∀ d ∈ mp.path.take k,
            ((mp.path.drop k).map fun d => d.2).contains d.2 = false := by
          intro d hd
          rw [Bool.eq_false_iff]
          intro hcont
          obtain ⟨e, hemem, heq⟩ := List.mem_map.1 (List.elem_iff.1 hcont)
          have hde : d = e := by
            have h1 : d.1 = mp.mazeId := hsame d (List.take_subset k _ hd)
            have h2 : e.1 = mp.mazeId := hsame e (List.drop_subset k _ hemem)
            have : e.1 = d.1 := h2.trans h1.symm
            obtain ⟨d1, d2⟩ := d
            obtain ⟨e1, e2⟩ := e
            simp only at heq this
            rw [heq, this]
          exact hdisj d hd e hemem hde
        refine ⟨?_, ?_, ?_, ?_, ?_⟩
        · exact List.Nodup.sublist (List.take_sublist k mp.path) hwf.1
        · intro d hd
          exact hwf.2.1 d (List.take_subset k _ hd)
        · have hch := hwf.2.2.1
          rw [← hsplit] at hch
          exact (List.chain'_append.1 hch).1
        · intro i d hd
          have hilt : i < (mp.path.take k).length := by
            by_contra hc
            rw [List.get?_len_le (Nat.le_of_not_lt hc)] at hd
            exact Option.noConfusion hd
          have hik : i < k := by
            rw [List.length_take] at hilt
            omega
          have hd' : mp.path.get? i = some d := by
            rw [← List.get?_take hik]
            exact hd
          show (if ((mp.path.drop k).map fun d => d.2).contains d.2 then -1
            else mp.cellPositions d.2) = (i : Int)
          rw [hcoords d (List.mem_iff_get?.2 ⟨i, hd⟩), if_neg (by simp)]
          exact hwf.2.2.2.1 i d hd'
        · intro p hp
          show (if ((mp.path.drop k).map fun d => d.2).contains p then -1
            else mp.cellPositions p) = -1
          by_cases hcont : ((mp.path.drop k).map fun d => d.2).contains p = true
          · rw [if_pos hcont]
          · rw [if_neg hcont]
            apply hwf.2.2.2.2
            intro d hd hdp
            rcases List.mem_append.1 (hsplit ▸ hd) with h | h
            · exact hp d h hdp
            · apply hcont
              exact List.elem_iff.2 (List.mem_map.2 ⟨d, h, hdp⟩)
      cases hlast : (mp.path.take k).getLast? with
      | none => exact hwf'
      | some d => exact hwf'
  · rw [if_neg hm]; exact hwf

/-- Claim C5: starting from the freshly-constructed empty path, every
sequence of `add`/`remove` interactions leaves a state satisfying all four
documented invariants and the exactness of the position index (also when
the sequence is cut short by the `remove`-at-position-0 `TypeError`). -/
theorem claim_C5_path_invariants (env : Nat → Board) (henv : WfEnv env)
    (id : Nat) (ops : List PathOp) :
    WfPath env (exceptState (applyOps env (emptyPath id) ops)) := by
  suffices h : ∀ mp, WfPath env mp →
      WfPath env (exceptState (applyOps env mp ops)) from
    h _ (wfPath_empty env id)
  induction ops with
  | nil => intro mp h; exact h
  | cons op rest ih =>
    intro mp h
    cases op with
    | addOp c => exact ih _ (add_wf env henv mp c h)
    | removeOp c =>
      show WfPath env (exceptState
        (match mp.remove env c with
         | Except.ok mp' => applyOps env mp' rest
         | Except.error mp' => Except.error mp'))
      have hrm := remove_wf env mp c h
      cases hr : mp.remove env c with
      | ok mp' =>
        rw [hr] at hrm
        exact ih _ hrm
      | error mp' =>
        rw [hr] at hrm
        exact hrm

/-- Claim C4 (amended): on an invariant-satisfying path,
`remove(cell at position k)` with `k ≥ 1` returns normally with the path
truncated to exactly `k` cells and `getPosition = -1` for the removed
cells; with `k = 0` the same truncation happens but the call then throws a
`TypeError` (`path[-1].getRow()` on the emptied path); a cell that is not
on the path, or belongs to another maze, makes the call a no-op. -/
theorem claim_C4_remove_truncates (env : Nat → Board) (mp : MazePath)
    (hwf : WfPath env mp) (c : MCell) :
    (∀ k, 1 ≤ k → mp.path.get? k = some c →
      ∃ mp', mp.remove env c = Except.ok mp' ∧
        mp'.path = mp.path.take k ∧ mp'.path.length = k ∧
        ∀ j d, k ≤ j → mp.path.get? j = some d → mp'.getPosition d = -1) ∧
    (mp.path.get? 0 = some c →
      ∃ mp', mp.remove env c = Except.error mp' ∧ mp'.path = [] ∧
        ∀ j d, mp.path.get? j = some d → mp'.getPosition d = -1) ∧
    (c.1 = mp.mazeId → c ∉ mp.path → mp.remove env c = Except.ok mp) ∧
    (c.1 ≠ mp.mazeId → mp.remove env c = Except.ok mp) := by
  have main : ∀ k, mp.path.get? k = some c →
      ∃ mp', (mp.remove env c =
          if 1 ≤ k then Except.ok mp' else Except.error mp') ∧
        mp'.path = mp.path.take k ∧ mp'.path.length = k ∧
        ∀ j d, k ≤ j → mp.path.get? j = some d → mp'.getPosition d = -1 := by
    intro k hk
    have hmem : c ∈ mp.path := List.mem_iff_get?.2 ⟨k, hk⟩
    have hm : c.1 = mp.mazeId := (hwf.2.1 c hmem).1
    have hklen : k < mp.path.length := by
      by_contra hc
      rw [List.get?_len_le (Nat.le_of_not_lt hc)] at hk
      exact Option.noConfusion hk
    have hpos : mp.cellPositions c.2 = (k : Int) := hwf.2.2.2.1 k c hk
    have habs : ¬ mp.cellPositions c.2 = -1 := by
      rw [hpos]; omega
    have htn : (mp.cellPositions c.2).toNat = k := by
      rw [hpos, Int.toNat_natCast]
    refine ⟨⟨mp.mazeId, mp.path.take k,
      fun p => if ((mp.path.drop k).map fun d => d.2).contains p then -1
               else mp.cellPositions p⟩, ?_, rfl, ?_, ?_⟩
    · unfold MazePath.remove
      rw [if_pos hm]
      dsimp only
      rw [if_neg habs, htn]
      by_cases hk1 : 1 ≤ k
      · rw [if_pos hk1]
        have hne : mp.path.take k ≠ [] := by
          intro hnil
          have := congrArg List.length hnil
          rw [List.length_take] at this
          simp only [List.length_nil] at this
          omega
        cases hl : (mp.path.take k).getLast? with
        | none => exact absurd (List.getLast?_eq_none_iff.1 hl) hne
        | some d => rfl
      · have hk0 : k = 0 := by omega
        rw [if_neg hk1, hk0, List.take_zero]
        rfl
    · rw [List.length_take]
      omega
    · intro j d hj hd
      have hdd : d ∈ mp.path.drop k := by
        apply List.mem_iff_get?.2 ⟨j - k, ?_⟩
        rw [List.get?_drop]
        have : k + (j - k) = j := by omega
        rw [this]
        exact hd
      have hcont : ((mp.path.drop k).map fun d => d.2).contains d.2 = true :=
        List.elem_iff.2 (List.mem_map.2 ⟨d, hdd, rfl⟩)
      unfold MazePath.getPosition
      by_cases hdm : d.1 = mp.mazeId
      · rw [if_pos hdm]
        show (if ((mp.path.drop k).map fun d => d.2).contains d.2 then -1
          else mp.cellPositions d.2) = -1
        rw [if_pos hcont]
      · rw [if_neg hdm]
  refine ⟨?_, ?_, ?_, ?_⟩
  · intro k hk1 hk
    obtain ⟨mp', h1, h2, h3, h4⟩ := main k hk
    rw [if_pos hk1] at h1
    exact ⟨mp', h1, h2, h3, h4⟩
  · intro hk
    obtain ⟨mp', h1, h2, h3, h4⟩ := main 0 hk
    rw [if_neg (by omega)] at h1
    refine ⟨mp', h1, by rw [h2, List.take_zero], ?_⟩
    intro j d hd
    exact h4 j d (Nat.zero_le j) hd
  · intro hm hnot
    unfold MazePath.remove
    rw [if_pos hm]
    dsimp only
    have habs : mp.cellPositions c.2 = -1 := by
      apply hwf.2.2.2.2
      intro d hd hdc
      apply hnot
      have hdm : d.1 = mp.mazeId := (hwf.2.1 d hd).1
      have : d = c := by
        obtain ⟨d1, d2⟩ := d
        obtain ⟨c1, c2⟩ := c
        simp only at hdc hdm hm
        rw [hdc, hdm, hm]
      exact this ▸ hd
    rw [if_pos habs]
  · intro hm
    unfold MazePath.remove
    rw [if_neg hm]

/-- A tiny concrete environment: every maze identifier denotes the same
1 × 2 board whose two cells are both open. -/
def envB : Nat → Board := fun _ => ⟨1, 2, fun p => decide (p.1 = 0 ∧ p.2 ≤ 1)⟩

theorem wfEnvB : WfEnv envB := by
  intro id p hp
  unfold envB at hp ⊢
  unfold InB at hp
  simp only [decide_eq_false_iff_not]
  simp only at hp
  omega

/-- The two-cell path (0,0), (0,1) built by two `add` calls on `envB`. -/
def mp2ex : MazePath :=
  ((emptyPath 0).add envB (0, (0, 0))).add envB (0, (0, 1))

/-- Claim C4 counterexample: on a 1 × 2 board with the single-cell path
[(0,0)], removing the cell at position k = 0 does NOT return normally: the
call throws (the source reads `this.path[-1]` after truncating and calls
`.getRow()` on `undefined`), so the claimed "truncates ... and afterwards
getPosition returns -1" behaviour fails for k = 0. -/
theorem claim_C4_counterexample :
    exceptIsOk (((emptyPath 0).add envB (0, (0, 0))).remove envB
      (0, (0, 0))) = false ∧
    ((emptyPath 0).add envB (0, (0, 0))).path.get? 0 = some (0, (0, 0)) :=
  ⟨rfl, rfl⟩

/-- Witness for the amended C4 at k = 1 on the concrete two-cell path. -/
theorem claim_C4_remove_truncates_witness :
    ∃ mp', mp2ex.remove envB (0, (0, 1)) = Except.ok mp' ∧
      mp'.path = mp2ex.path.take 1 ∧ mp'.path.length = 1 ∧
      ∀ j d, 1 ≤ j → mp2ex.path.get? j = some d → mp'.getPosition d = -1 :=
  (claim_C4_remove_truncates envB mp2ex
    (add_wf envB wfEnvB _ _ (add_wf envB wfEnvB _ _ (wfPath_empty envB 0)))
    (0, (0, 1))).1 1 (by decide) rfl

/-- Witness for C5: a concrete add/add/remove interaction sequence. -/
theorem claim_C5_path_invariants_witness :
    WfPath envB (exceptState (applyOps envB (emptyPath 0)
      [PathOp.addOp (0, (0, 0)), PathOp.addOp (0, (0, 1)),
       PathOp.removeOp (0, (0, 1))])) :=
  claim_C5_path_invariants envB wfEnvB 0 _

/-- The consecutive-pair loop of `isComplete()` checks exactly the
open-and-adjacent chain condition, given that all cells belong to one maze
(which makes `isNeighbour`'s identity check on the maze succeed). -/
theorem pairsOk_iff_chain (env : Nat → Board) (id0 : Nat) :
    ∀ l : List MCell, (∀ a ∈ l, a.1 = id0) →
      (pairsOk env l = true ↔
        List.Chain' (fun a b : MCell =>
          isOpenCell env a = true ∧ Adj a.2 b.2) l) := by
  intro l
  induction l with
  | nil => intro _; simp [pairsOk]
  | cons a rest ih =>
    intro hmz
    cases rest with
    | nil => simp [pairsOk]
    | cons b rest2 =>
      have hab : b.1 = a.1 := by
        rw [hmz b (by simp), hmz a (by simp)]
      have ihr := ih fun x hx => hmz x (List.mem_cons_of_mem a hx)
      rw [List.chain'_cons]
      show (isOpenCell env a && isNeighbourB a b &&
        pairsOk env (b :: rest2)) = true ↔ _
      constructor
      · intro h
        simp only [Bool.and_eq_true] at h
        obtain ⟨⟨hopen, hnb⟩, hrest⟩ := h
        have hadj : Adj a.2 b.2 := by
          unfold isNeighbourB at hnb
          simp only [Bool.and_eq_true, decide_eq_true_eq] at hnb
          exact hnb.2
        exact ⟨⟨hopen, hadj⟩, ihr.1 hrest⟩
      · rintro ⟨⟨hopen, hadj⟩, hchain⟩
        simp only [Bool.and_eq_true]
        refine ⟨⟨hopen, ?_⟩, ihr.2 hchain⟩
        unfold isNeighbourB
        simp only [Bool.and_eq_true, decide_eq_true_eq]
        exact ⟨hab, hadj⟩

/-- Claim C9: on a non-empty path whose cells belong to the path's maze
(with at least one row and column), `isComplete()` returns true exactly
when every consecutive pair is open-and-adjacent and the last cell is open
and is the bottom-right cell `(rows-1, columns-1)`. -/
theorem claim_C9_isComplete (env : Nat → Board) (mp : MazePath)
    (hmz : ∀ c ∈ mp.path, c.1 = mp.mazeId)
    (hr : 1 ≤ (env mp.mazeId).rows) (hc : 1 ≤ (env mp.mazeId).cols)
    (lastC : MCell) (hlast : mp.path.getLast? = some lastC) :
    mp.isComplete env = some true ↔
      List.Chain' (fun a b : MCell =>
        isOpenCell env a = true ∧ Adj a.2 b.2) mp.path ∧
      isOpenCell env lastC = true ∧
      lastC.2 = ((env mp.mazeId).rows - 1, (env mp.mazeId).cols - 1) := by
  have hmzlast : lastC.1 = mp.mazeId :=
    hmz lastC (List.mem_of_mem_getLast? hlast)
  have hgc : mazeGetCell (env mp.mazeId) ((env mp.mazeId).rows - 1)
      ((env mp.mazeId).cols - 1) =
      some ((env mp.mazeId).rows - 1, (env mp.mazeId).cols - 1) := by
    unfold mazeGetCell
    rw [if_pos (by omega)]
    have h1 : (((env mp.mazeId).rows : Int) - 1).toNat =
        (env mp.mazeId).rows - 1 := by omega
    have h2 : (((env mp.mazeId).cols : Int) - 1).toNat =
        (env mp.mazeId).cols - 1 := by omega
    rw [h1, h2]
  unfold MazePath.isComplete
  rw [hlast]
  dsimp only
  rw [Option.some_inj]
  simp only [Bool.and_eq_true, decide_eq_true_eq]
  rw [pairsOk_iff_chain env mp.mazeId mp.path hmz, hgc,
    Option.some_inj]
  constructor
  · rintro ⟨⟨h1, h2⟩, _, h4⟩
    exact ⟨h1, h2, h4⟩
  · rintro ⟨h1, h2, h3⟩
    exact ⟨⟨h1, h2⟩, hmzlast, h3⟩

/-- A 1 × 1 environment: every maze identifier denotes the single-cell
board whose only cell is open. -/
def env1 : Nat → Board := fun _ => ⟨1, 1, fun p => decide (p = (0, 0))⟩

/-- Witness for C9: the spec's 1 × 1 example — a path holding just the
single cell (both origin and destination) reports `isComplete() = true`. -/
theorem claim_C9_isComplete_witness :
    ((emptyPath 0).add env1 (0, (0, 0))).isComplete env1 = some true :=
  (claim_C9_isComplete env1 ((emptyPath 0).add env1 (0, (0, 0)))
    (by decide) (by decide) (by decide) (0, (0, 0)) rfl).mpr
    ⟨List.chain'_singleton _, rfl, rfl⟩

/-! ## Maze generation (`generateMaze`, part_005 / part_002)

The random draws are explicit streams: `rand i` (clamped by `% (i + 1)`)
stands for `Math.floor(Math.random() * (i + 1))` in the Fisher–Yates
shuffle, and `coins k` stands for `Math.random() <= 0.03` — the source
draws that coin only in iterations whose wall has no next cell, but a
stream indexed by the (unique) fuel value of each iteration quantifies
over exactly the same set of behaviours. -/

/-- The Fisher–Yates loop of `generateWeights`, from `i = m - 1` down to
`0` (the counter is `i + 1`).  Each step swaps the weight entries at the
linear positions `i` and `rand`. -/
def shuffleWeights (cols : Nat) (rand : Nat → Nat) :
    Nat → (Nat × Nat → Nat) → (Nat × Nat → Nat)
  | 0, w => w
  | m + 1, w =>
    let a : Nat × Nat := (m / cols, m % cols)
    let r : Nat := rand m % (m + 1)
    let b : Nat × Nat := (r / cols, r % cols)
    shuffleWeights cols rand m
      (fun p => if p = a then w b else if p = b then w a else w p)

/-- `generateWeights`: a random permutation of `0 .. rows*cols - 1` laid
over the grid. -/
def generateWeights (rows cols : Nat) (rand : Nat → Nat) :
    Nat × Nat → Nat :=
  shuffleWeights cols rand (rows * cols) (fun p => p.1 * cols + p.2)

/-- The mutable state of `generateMaze`: the boards' `open` flags, the
`visited` table and the priority queue of walls. -/
structure GenState where
  opn : Nat × Nat → Bool
  visited : Nat × Nat → Bool
  pq : PriorityQueue (Nat × Nat)

/-- The `updatePQ` closure: insert every currently-closed neighbour of
`cell`, keyed by its weight (iterating the neighbour list in order). -/
def insertWalls (opn : Nat × Nat → Bool) (weights : Nat × Nat → Nat) :
    List (Nat × Nat) → PriorityQueue (Nat × Nat) →
    PriorityQueue (Nat × Nat)
  | [], pq => pq
  | q :: rest, pq =>
    insertWalls opn weights rest
      (if opn q = true then pq else pq.insert q ((weights q : Int)))

def updatePQ (rows cols : Nat) (opn : Nat × Nat → Bool)
    (weights : Nat × Nat → Nat) (cell : Nat × Nat)
    (pq : PriorityQueue (Nat × Nat)) : PriorityQueue (Nat × Nat) :=
  insertWalls opn weights (neighbours rows cols cell) pq

/-- Mark one cell's flag true (`setOpen(true)` / `visited[..] = true` on
the cell at `w`), leaving every other cell unchanged. -/
def setTrue (f : Nat × Nat → Bool) (w : Nat × Nat) : Nat × Nat → Bool :=
  fun p => if p = w then true else f p

/-- One iteration of the generation loop: pop the minimum wall, look for
its first open unvisited neighbour; if found, carve the wall, mark both
visited and enqueue the next cell's closed neighbours; otherwise carve the
wall (making a cycle) only when the 3% coin comes up. -/
def genStep (rows cols : Nat) (weights : Nat × Nat → Nat) (coin : Bool)
    (s : GenState) : GenState :=
  match s.pq.removeMin with
  | none => s
  | some (wall, pq') =>
    match (neighbours rows cols wall).find?
        (fun q => !(s.visited q) && s.opn q) with
    | some nextCell =>
      ⟨setTrue s.opn wall,
       setTrue (setTrue s.visited nextCell) wall,
       updatePQ rows cols (setTrue s.opn wall) weights nextCell pq'⟩
    | none =>
      if coin then
        ⟨setTrue s.opn wall, setTrue s.visited wall, pq'⟩
      else
        ⟨s.opn, s.visited, pq'⟩

/-- The `while (pq.size() !== 0)` loop, with fuel; each iteration's coin
is indexed by its fuel value. -/
def genLoop (rows cols : Nat) (weights : Nat × Nat → Nat)
    (coins : Nat → Bool) : Nat → GenState → GenState
  | 0, s => s
  | fuel + 1, s =>
    if s.pq.size = 0 then s
    else genLoop rows cols weights coins fuel
      (genStep rows cols weights (coins fuel) s)

/-- The state just before the loop: the skeleton board, `(0,0)` visited,
and the closed neighbours of `(0,0)` enqueued. -/
def genInit (rows cols : Nat) (weights : Nat × Nat → Nat) : GenState :=
  ⟨initOpen rows cols,
   fun p => decide (p = (0, 0)),
   updatePQ rows cols (initOpen rows cols) weights (0, 0)
     (PriorityQueue.empty (Nat × Nat))⟩

/-- Enough fuel to drain the queue (proved below): the measure
`5 · unvisited + queue size` strictly decreases each iteration. -/
def genFuel (rows cols : Nat) : Nat := 5 * (rows * cols) + 5

/-- `generateMaze`: the open flags after the carving loop finishes. -/
def generateMaze (rows cols : Nat) (rand : Nat → Nat)
    (coins : Nat → Bool) : Nat × Nat → Bool :=
  (genLoop rows cols (generateWeights rows cols rand) coins
    (genFuel rows cols)
    (genInit rows cols (generateWeights rows cols rand))).opn

/-! Reachability through open, in-bounds, grid-adjacent cells. -/

/-- One step: move to an adjacent, in-bounds, open cell. -/
def StepTo (rows cols : Nat) (opn : Nat × Nat → Bool) (p q : Nat × Nat) :
    Prop :=
  Adj p q ∧ InB rows cols q ∧ opn q = true

/-- Reachability (reflexive-transitive closure of `StepTo`). -/
def Reach (rows cols : Nat) (opn : Nat × Nat → Bool) (p q : Nat × Nat) :
    Prop :=
  Relation.ReflTransGen (StepTo rows cols opn) p q

theorem reach_mono {rows cols : Nat} {o o' : Nat × Nat → Bool}
    (h : ∀ p, o p = true → o' p = true) {a b : Nat × Nat}
    (hr : Reach rows cols o a b) : Reach rows cols o' a b :=
  Relation.ReflTransGen.mono
    (fun x y hxy => ⟨hxy.1, hxy.2.1, h y hxy.2.2⟩) hr

theorem adj_ne {p q : Nat × Nat} (h : Adj p q) : p ≠ q := by
  obtain ⟨p1, p2⟩ := p
  obtain ⟨q1, q2⟩ := q
  intro hc
  rw [Prod.mk.injEq] at hc
  unfold Adj at h
  omega

theorem setTrue_self {f : Nat × Nat → Bool} {w : Nat × Nat} :
    setTrue f w w = true := by
  unfold setTrue
  rw [if_pos rfl]

theorem setTrue_of {f : Nat × Nat → Bool} {w p : Nat × Nat}
    (h : f p = true) : setTrue f w p = true := by
  unfold setTrue
  by_cases hpw : p = w
  · rw [if_pos hpw]
  · rw [if_neg hpw]; exact h

theorem setTrue_elim {f : Nat × Nat → Bool} {w p : Nat × Nat}
    (h : setTrue f w p = true) : p = w ∨ f p = true := by
  unfold setTrue at h
  by_cases hpw : p = w
  · exact Or.inl hpw
  · rw [if_neg hpw] at h; exact Or.inr h

theorem setTrue_ne {f : Nat × Nat → Bool} {w p : Nat × Nat}
    (h : p ≠ w) : setTrue f w p = f p := by
  unfold setTrue
  rw [if_neg h]

/-! Openness is monotone through the generation loop (claim C10). -/

theorem genStep_opn_mono (rows cols : Nat) (weights : Nat × Nat → Nat)
    (coin : Bool) (s : GenState) (p : Nat × Nat) (hp : s.opn p = true) :
    (genStep rows cols weights coin s).opn p = true := by
  unfold genStep
  cases hrm : s.pq.removeMin with
  | none => exact hp
  | some wq =>
    obtain ⟨wall, pq'⟩ := wq
    dsimp only
    cases hf : (neighbours rows cols wall).find?
        (fun q => !(s.visited q) && s.opn q) with
    | some nextCell =>
      dsimp only
      exact setTrue_of hp
    | none =>
      dsimp only
      cases coin with
      | true =>
        rw [if_pos rfl]
        exact setTrue_of hp
      | false =>
        rw [if_neg (by simp)]
        exact hp

theorem genLoop_opn_mono (rows cols : Nat) (weights : Nat × Nat → Nat)
    (coins : Nat → Bool) (fuel : Nat) (s : GenState) (p : Nat × Nat)
    (hp : s.opn p = true) :
    (genLoop rows cols weights coins fuel s).opn p = true := by
  induction fuel generalizing s with
  | zero => exact hp
  | succ fuel ih =>
    unfold genLoop
    by_cases h0 : s.pq.size = 0
    · rw [if_pos h0]; exact hp
    · rw [if_neg h0]
      exact ih _ (genStep_opn_mono rows cols weights (coins fuel) s p hp)

/-- Claim C10: generation never closes a cell; every skeleton-open cell —
in particular the origin and the bottom-right destination — is still open
in the generated grid, for every stream of random draws. -/
theorem claim_C10_open_monotone (rows cols : Nat) (hr : 1 ≤ rows)
    (hc : 1 ≤ cols) (rand : Nat → Nat) (coins : Nat → Bool) :
    (∀ p, initOpen rows cols p = true →
      generateMaze rows cols rand coins p = true) ∧
    generateMaze rows cols rand coins (0, 0) = true ∧
    generateMaze rows cols rand coins (rows - 1, cols - 1) = true := by
  have hmono : ∀ p, initOpen rows cols p = true →
      generateMaze rows cols rand coins p = true := by
    intro p hp
    exact genLoop_opn_mono rows cols _ coins (genFuel rows cols)
      (genInit rows cols _) p hp
  refine ⟨hmono, hmono _ ?_, hmono _ ?_⟩
  · apply initOpen_eq_true_iff.2
    refine ⟨⟨hr, hc⟩, Or.inl rfl, Or.inl rfl⟩
  · apply initOpen_eq_true_iff.2
    exact ⟨⟨by omega, by omega⟩, Or.inr rfl, Or.inr rfl⟩

/-- Witness for C10 on a 2 × 3 grid with concrete streams. -/
theorem claim_C10_open_monotone_witness :
    (∀ p, initOpen 2 3 p = true →
      generateMaze 2 3 (fun i => i) (fun _ => false) p = true) ∧
    generateMaze 2 3 (fun i => i) (fun _ => false) (0, 0) = true ∧
    generateMaze 2 3 (fun i => i) (fun _ => false) (2 - 1, 3 - 1) = true :=
  claim_C10_open_monotone 2 3 (by decide) (by decide) (fun i => i)
    (fun _ => false)

/-! Properties of `insertWalls` (the `updatePQ` loop). -/

theorem insertWalls_wf (opn : Nat × Nat → Bool) (weights : Nat × Nat → Nat)
    (l : List (Nat × Nat)) (pq : PriorityQueue (Nat × Nat))
    (hwf : pq.heap.length = pq.size) :
    (insertWalls opn weights l pq).heap.length =
      (insertWalls opn weights l pq).size := by
  induction l generalizing pq with
  | nil => exact hwf
  | cons q rest ih =>
    unfold insertWalls
    by_cases hq : opn q = true
    · rw [if_pos hq]; exact ih pq hwf
    · rw [if_neg hq]
      exact ih _ (insert_wf pq q _ hwf)

theorem insertWalls_size_le (opn : Nat × Nat → Bool)
    (weights : Nat × Nat → Nat) (l : List (Nat × Nat))
    (pq : PriorityQueue (Nat × Nat)) :
    (insertWalls opn weights l pq).size ≤ pq.size + l.length := by
  induction l generalizing pq with
  | nil => simp [insertWalls]
  | cons q rest ih =>
    unfold insertWalls
    by_cases hq : opn q = true
    · rw [if_pos hq]
      calc (insertWalls opn weights rest pq).size ≤ pq.size + rest.length :=
            ih pq
        _ ≤ pq.size + (q :: rest).length := by simp
    · rw [if_neg hq]
      calc (insertWalls opn weights rest (pq.insert q (weights q))).size ≤
            (pq.insert q (weights q)).size + rest.length := ih _
        _ = pq.size + (q :: rest).length := by
            rw [insert_size]; simp; omega

theorem insertWalls_mem_old (opn : Nat × Nat → Bool)
    (weights : Nat × Nat → Nat) (l : List (Nat × Nat))
    (pq : PriorityQueue (Nat × Nat)) {e : PQElem (Nat × Nat)}
    (he : e ∈ pq.heap) : e ∈ (insertWalls opn weights l pq).heap := by
  induction l generalizing pq with
  | nil => exact he
  | cons q rest ih =>
    unfold insertWalls
    by_cases hq : opn q = true
    · rw [if_pos hq]; exact ih pq he
    · rw [if_neg hq]
      exact ih _ ((insert_mem_iff pq q _ e).2 (Or.inl he))

theorem insertWalls_mem_elim (opn : Nat × Nat → Bool)
    (weights : Nat × Nat → Nat) (l : List (Nat × Nat))
    (pq : PriorityQueue (Nat × Nat)) {e : PQElem (Nat × Nat)}
    (he : e ∈ (insertWalls opn weights l pq).heap) :
    e ∈ pq.heap ∨ (e.data ∈ l ∧ opn e.data = false) := by
  induction l generalizing pq with
  | nil => exact Or.inl he
  | cons q rest ih =>
    unfold insertWalls at he
    by_cases hq : opn q = true
    · rw [if_pos hq] at he
      rcases ih pq he with h | h
      · exact Or.inl h
      · exact Or.inr ⟨List.mem_cons_of_mem q h.1, h.2⟩
    · rw [if_neg hq] at he
      rcases ih _ he with h | h
      · rcases (insert_mem_iff pq q _ e).1 h with h' | h'
        · exact Or.inl h'
        · subst h'
          exact Or.inr ⟨List.mem_cons_self q rest, Bool.eq_false_iff.2 hq⟩
      · exact Or.inr ⟨List.mem_cons_of_mem q h.1, h.2⟩

theorem insertWalls_mem_new (opn : Nat × Nat → Bool)
    (weights : Nat × Nat → Nat) (l : List (Nat × Nat))
    (pq : PriorityQueue (Nat × Nat)) {q : Nat × Nat} (hq : q ∈ l)
    (hcl : opn q = false) :
    ∃ e ∈ (insertWalls opn weights l pq).heap, e.data = q := by
  induction l generalizing pq with
  | nil => exact absurd hq (List.not_mem_nil q)
  | cons x rest ih =>
    unfold insertWalls
    rcases List.mem_cons.1 hq with rfl | hmem
    · rw [if_neg (by rw [hcl]; exact Bool.false_ne_true)]
      refine ⟨⟨q, (weights q : Int)⟩, ?_, rfl⟩
      apply insertWalls_mem_old
      exact (insert_mem_iff pq q _ _).2 (Or.inr rfl)
    · by_cases hx : opn x = true
      · rw [if_pos hx]; exact ih pq hmem
      · rw [if_neg hx]; exact ih _ hmem

/-- A cell whose row fails the skeleton rule has its adjacent skeleton
cells directly above or below it. -/
theorem adj_skel_axis_row {rows cols w1 w2 u1 u2 : Nat}
    (hw : ¬ (w1 % 2 = 0 ∨ w1 = rows - 1))
    (hadj : Adj (u1, u2) (w1, w2)) (hsk : Skel rows cols (u1, u2)) :
    u2 = w2 ∧ (u1 + 1 = w1 ∨ w1 + 1 = u1) := by
  unfold Adj at hadj
  unfold Skel at hsk
  simp only at hadj hsk
  omega

/-- A cell whose column fails the skeleton rule has its adjacent skeleton
cells directly left or right of it. -/
theorem adj_skel_axis_col {rows cols w1 w2 u1 u2 : Nat}
    (hw : ¬ (w2 % 2 = 0 ∨ w2 = cols - 1))
    (hadj : Adj (u1, u2) (w1, w2)) (hsk : Skel rows cols (u1, u2)) :
    u1 = w1 ∧ (u2 + 1 = w2 ∨ w2 + 1 = u2) := by
  unfold Adj at hadj
  unfold Skel at hsk
  simp only at hadj hsk
  omega

/-- Any closed cell has at most two adjacent skeleton cells (its row or
its column fails the skeleton rule, forcing all adjacent skeleton cells
onto a single axis with only two slots). -/
theorem skel_nbrs_le_two {rows cols : Nat} {w u v x : Nat × Nat}
    (hns : ¬ Skel rows cols w)
    (hu : Adj u w ∧ Skel rows cols u) (hv : Adj v w ∧ Skel rows cols v)
    (hx : Adj x w ∧ Skel rows cols x) : u = v ∨ u = x ∨ v = x := by
  obtain ⟨w1, w2⟩ := w
  obtain ⟨u1, u2⟩ := u
  obtain ⟨v1, v2⟩ := v
  obtain ⟨x1, x2⟩ := x
  simp only [Prod.mk.injEq]
  by_cases hrow : w1 % 2 = 0 ∨ w1 = rows - 1
  · have hcol : ¬ (w2 % 2 = 0 ∨ w2 = cols - 1) := fun hc => hns ⟨hrow, hc⟩
    obtain ⟨ha, hb⟩ := adj_skel_axis_col hcol hu.1 hu.2
    obtain ⟨hc', hd⟩ := adj_skel_axis_col hcol hv.1 hv.2
    obtain ⟨he, hf⟩ := adj_skel_axis_col hcol hx.1 hx.2
    omega
  · obtain ⟨ha, hb⟩ := adj_skel_axis_row hrow hu.1 hu.2
    obtain ⟨hc', hd⟩ := adj_skel_axis_row hrow hv.1 hv.2
    obtain ⟨he, hf⟩ := adj_skel_axis_row hrow hx.1 hx.2
    omega

/-- The loop invariant of `generateMaze`:
* the queue is well formed and its entries are in-bounds non-skeleton
  cells that neighbour a visited skeleton cell;
* openness contains the skeleton and stays on the board; every open
  non-skeleton cell is visited; visited cells are open and reachable from
  the origin;
* every open (carved) non-skeleton cell has all its open neighbours
  visited; and every closed non-skeleton cell adjacent to a visited
  skeleton cell is either still queued or already has all its open
  neighbours visited. -/
structure GenInv (rows cols : Nat) (s : GenState) : Prop where
  wf : s.pq.heap.length = s.pq.size
  skelOpen : ∀ p, InB rows cols p → Skel rows cols p → s.opn p = true
  opnInB : ∀ p, s.opn p = true → InB rows cols p
  opnSkelVis : ∀ p, s.opn p = true → Skel rows cols p ∨ s.visited p = true
  visOpn : ∀ p, s.visited p = true → s.opn p = true
  visReach : ∀ p, s.visited p = true → Reach rows cols s.opn (0, 0) p
  origVis : s.visited (0, 0) = true
  qInB : ∀ e ∈ s.pq.heap, InB rows cols e.data
  qNotSkel : ∀ e ∈ s.pq.heap, ¬ Skel rows cols e.data
  qAnchor : ∀ e ∈ s.pq.heap, ∃ u, Adj u e.data ∧ InB rows cols u ∧
    Skel rows cols u ∧ s.visited u = true
  wallOpenVis : ∀ w, InB rows cols w → ¬ Skel rows cols w →
    s.opn w = true → ∀ u, Adj u w → InB rows cols u → s.opn u = true →
    s.visited u = true
  wallQueue : ∀ w, InB rows cols w → ¬ Skel rows cols w →
    s.opn w = false →
    (∃ u, Adj u w ∧ InB rows cols u ∧ Skel rows cols u ∧
      s.visited u = true) →
    (∃ e ∈ s.pq.heap, e.data = w) ∨
    (∀ u, Adj u w → InB rows cols u → s.opn u = true →
      s.visited u = true)

theorem genInit_inv (rows cols : Nat) (hr : 1 ≤ rows) (hc : 1 ≤ cols)
    (weights : Nat × Nat → Nat) :
    GenInv rows cols (genInit rows cols weights) := by
  have hInB0 : InB rows cols (0, 0) := ⟨hr, hc⟩
  have hSkel0 : Skel rows cols (0, 0) := ⟨Or.inl rfl, Or.inl rfl⟩
  have hOpen0 : initOpen rows cols (0, 0) = true :=
    initOpen_eq_true_iff.2 ⟨hInB0, hSkel0⟩
  have hElem : ∀ e : PQElem (Nat × Nat),
      e ∈ (genInit rows cols weights).pq.heap →
      e.data ∈ neighbours rows cols (0, 0) ∧
        initOpen rows cols e.data = false := by
    intro e he
    rcases insertWalls_mem_elim _ _ _ _ he with h | h
    · exact absurd h (List.not_mem_nil e)
    · exact h
  refine ⟨?_, ?_, ?_, ?_, ?_, ?_, ?_, ?_, ?_, ?_, ?_, ?_⟩
  · exact insertWalls_wf _ _ _ _ rfl
  · intro p h1 h2; exact initOpen_eq_true_iff.2 ⟨h1, h2⟩
  · intro p h; exact (initOpen_eq_true_iff.1 h).1
  · intro p h; exact Or.inl (initOpen_eq_true_iff.1 h).2
  · intro p h
    have : p = (0, 0) := of_decide_eq_true h
    rw [this]; exact hOpen0
  · intro p h
    have : p = (0, 0) := of_decide_eq_true h
    rw [this]
    exact Relation.ReflTransGen.refl
  · exact rfl
  · intro e he
    exact ((mem_neighbours hInB0).1 (hElem e he).1).1
  · intro e he
    intro hsk
    have hin := ((mem_neighbours hInB0).1 (hElem e he).1).1
    have := initOpen_eq_true_iff.2 ⟨hin, hsk⟩
    rw [(hElem e he).2] at this
    exact Bool.noConfusion this
  · intro e he
    exact ⟨(0, 0), ((mem_neighbours hInB0).1 (hElem e he).1).2, hInB0,
      hSkel0, rfl⟩
  · intro w hin hns hop
    exact absurd ((initOpen_eq_true_iff.1 hop).2) hns
  · intro w hin hns hcl hu
    obtain ⟨u, hAdj, hInBu, hSkelu, hVisu⟩ := hu
    have hu0 : u = (0, 0) := of_decide_eq_true hVisu
    subst hu0
    left
    have hwmem : w ∈ neighbours rows cols (0, 0) :=
      (mem_neighbours hInB0).2 ⟨hin, hAdj⟩
    exact insertWalls_mem_new _ _ _ _ hwmem hcl

/-- One generation step preserves the loop invariant. -/
theorem genStep_inv (rows cols : Nat) (weights : Nat × Nat → Nat)
    (coin : Bool) (s : GenState) (hinv : GenInv rows cols s) :
    GenInv rows cols (genStep rows cols weights coin s) := by
  unfold genStep
  cases hrm : s.pq.removeMin with
  | none => exact hinv
  | some wq =>
    obtain ⟨wall, pq'⟩ := wq
    dsimp only
    obtain ⟨hsz', hwf', e0, he0mem, he0data, hsplit, hsub⟩ :=
      removeMin_spec s.pq hinv.wf hrm
    have hInBw : InB rows cols wall := he0data ▸ hinv.qInB e0 he0mem
    have hNSw : ¬ Skel rows cols wall := he0data ▸ hinv.qNotSkel e0 he0mem
    have hanchor := hinv.qAnchor e0 he0mem
    rw [he0data] at hanchor
    obtain ⟨a, haAdj, haInB, haSkel, haVis⟩ := hanchor
    cases hf : (neighbours rows cols wall).find?
        (fun q => !(s.visited q) && s.opn q) with
    | some nextCell =>
      dsimp only
      have hnmem := List.mem_of_find?_eq_some hf
      have hnpred := List.find?_some hf
      simp only [Bool.and_eq_true, Bool.not_eq_true'] at hnpred
      have hnVis : s.visited nextCell = false := hnpred.1
      have hnOpn : s.opn nextCell = true := hnpred.2
      have hnIA := (mem_neighbours hInBw).1 hnmem
      have hnInB : InB rows cols nextCell := hnIA.1
      have hwAdjn : Adj wall nextCell := hnIA.2
      have hnSkel : Skel rows cols nextCell := by
        rcases hinv.opnSkelVis nextCell hnOpn with h | h
        · exact h
        · rw [h] at hnVis; exact Bool.noConfusion hnVis
      have hwn : wall ≠ nextCell := adj_ne hwAdjn
      have hwCl : s.opn wall = false := by
        cases hop : s.opn wall with
        | false => rfl
        | true =>
          have := hinv.wallOpenVis wall hInBw hNSw hop nextCell
            hwAdjn.symm hnInB hnOpn
          rw [this] at hnVis
          exact Bool.noConfusion hnVis
      have hvmono : ∀ p, s.visited p = true →
          setTrue (setTrue s.visited nextCell) wall p = true :=
        fun p hp => setTrue_of (setTrue_of hp)
      have hvn : setTrue (setTrue s.visited nextCell) wall nextCell = true :=
        setTrue_of setTrue_self
      have hvw : setTrue (setTrue s.visited nextCell) wall wall = true :=
        setTrue_self
      have hreachW : Reach rows cols (setTrue s.opn wall) (0, 0) wall := by
        refine Relation.ReflTransGen.tail ?_ ⟨haAdj, hInBw, setTrue_self⟩
        exact reach_mono (fun p hp => setTrue_of hp) (hinv.visReach a haVis)
      have hreachN : Reach rows cols (setTrue s.opn wall) (0, 0) nextCell :=
        Relation.ReflTransGen.tail hreachW
          ⟨hwAdjn, hnInB, by rw [setTrue_ne (fun hc => hwn hc.symm)]; exact hnOpn⟩
      have hq'' : ∀ e : PQElem (Nat × Nat),
          e ∈ (updatePQ rows cols (setTrue s.opn wall) weights nextCell
            pq').heap →
          e ∈ s.pq.heap ∨ (e.data ∈ neighbours rows cols nextCell ∧
            setTrue s.opn wall e.data = false) := by
        intro e he
        rcases insertWalls_mem_elim _ _ _ _ he with h | h
        · exact Or.inl (hsub e h)
        · exact Or.inr h
      refine ⟨?_, ?_, ?_, ?_, ?_, ?_, ?_, ?_, ?_, ?_, ?_, ?_⟩
      · exact insertWalls_wf _ _ _ _ hwf'
      · intro p h1 h2
        exact setTrue_of (hinv.skelOpen p h1 h2)
      · intro p h
        rcases setTrue_elim h with h' | h'
        · rw [h']; exact hInBw
        · exact hinv.opnInB p h'
      · intro p h
        rcases setTrue_elim h with h' | h'
        · rw [h']; exact Or.inr hvw
        · rcases hinv.opnSkelVis p h' with h'' | h''
          · exact Or.inl h''
          · exact Or.inr (hvmono p h'')
      · intro p h
        rcases setTrue_elim h with h' | h'
        · rw [h']; exact setTrue_self
        · rcases setTrue_elim h' with h'' | h''
          · rw [h'']
            show setTrue s.opn wall nextCell = true
            rw [setTrue_ne (fun hc => hwn hc.symm)]
            exact hnOpn
          · exact setTrue_of (hinv.visOpn p h'')
      · intro p h
        rcases setTrue_elim h with h' | h'
        · rw [h']; exact hreachW
        · rcases setTrue_elim h' with h'' | h''
          · rw [h'']; exact hreachN
          · exact reach_mono (fun q hq => setTrue_of hq)
              (hinv.visReach p h'')
      · exact hvmono (0, 0) hinv.origVis
      · intro e he
        rcases hq'' e he with h | h
        · exact hinv.qInB e h
        · exact ((mem_neighbours hnInB).1 h.1).1
      · intro e he hsk
        rcases hq'' e he with h | h
        · exact hinv.qNotSkel e h hsk
        · have hInBe : InB rows cols e.data := ((mem_neighbours hnInB).1 h.1).1
          have := setTrue_of (w := wall) (hinv.skelOpen e.data hInBe hsk)
          rw [h.2] at this
          exact Bool.noConfusion this
      · intro e he
        rcases hq'' e he with h | h
        · obtain ⟨u, h1, h2, h3, h4⟩ := hinv.qAnchor e h
          exact ⟨u, h1, h2, h3, hvmono u h4⟩
        · exact ⟨nextCell, ((mem_neighbours hnInB).1 h.1).2, hnInB, hnSkel,
            hvn⟩
      · intro w hin hns hop u hAdj hInBu hOpu
        have hop' : setTrue s.opn wall w = true := hop
        have hOpu' : setTrue s.opn wall u = true := hOpu
        show setTrue (setTrue s.visited nextCell) wall u = true
        by_cases huw : u = wall
        · rw [huw]; exact hvw
        · rw [setTrue_ne huw] at hOpu'
          by_cases hww : w = wall
          · subst hww
            by_cases hun : u = nextCell
            · rw [hun]; exact hvn
            · rcases hinv.opnSkelVis u hOpu' with hsk | hvis
              · rcases skel_nbrs_le_two hns ⟨hAdj, hsk⟩ ⟨haAdj, haSkel⟩
                  ⟨hwAdjn.symm, hnSkel⟩ with h | h | h
                · rw [h]; exact hvmono a haVis
                · exact absurd h hun
                · rw [h] at haVis
                  rw [haVis] at hnVis
                  exact Bool.noConfusion hnVis
              · exact hvmono u hvis
          · rw [setTrue_ne hww] at hop'
            exact hvmono u (hinv.wallOpenVis w hin hns hop' u hAdj hInBu hOpu')
      · intro w hin hns hcl hprem
        have hcl0 : setTrue s.opn wall w = false := hcl
        have hww : w ≠ wall := by
          intro hc
          rw [hc, setTrue_self] at hcl0
          exact Bool.noConfusion hcl0
        rw [setTrue_ne hww] at hcl0
        obtain ⟨u, hAdju, hInBu, hSkelu, hVisu'⟩ := hprem
        rcases setTrue_elim hVisu' with huw | hVisu''
        · rw [huw] at hSkelu
          exact absurd hSkelu hNSw
        · rcases setTrue_elim hVisu'' with hun | hVisu
          · subst hun
            left
            have hwmem : w ∈ neighbours rows cols u :=
              (mem_neighbours hnInB).2 ⟨hin, hAdju⟩
            have hcl' : setTrue s.opn wall w = false := by
              rw [setTrue_ne hww]; exact hcl0
            exact insertWalls_mem_new _ _ _ _ hwmem hcl'
          · rcases hinv.wallQueue w hin hns hcl0
              ⟨u, hAdju, hInBu, hSkelu, hVisu⟩ with h | h
            · obtain ⟨e, he, hedata⟩ := h
              rcases hsplit e he with h' | h'
              · rw [h'] at hedata
                rw [he0data] at hedata
                exact absurd hedata.symm hww
              · exact Or.inl ⟨e, insertWalls_mem_old _ _ _ _ h', hedata⟩
            · right
              intro u' hAdj' hInB' hOp'
              rcases setTrue_elim hOp' with h' | h'
              · rw [h']
                show setTrue (setTrue s.visited nextCell) wall wall = true
                exact hvw
              · exact hvmono u' (h u' hAdj' hInB' h')
    | none =>
      dsimp only
      have hnone : ∀ q ∈ neighbours rows cols wall,
          s.opn q = true → s.visited q = true := by
        intro q hq hop
        have := List.find?_eq_none.1 hf q hq
        simp only [Bool.and_eq_true, Bool.not_eq_true'] at this
        cases hv : s.visited q with
        | true => rfl
        | false => exact absurd ⟨hv, hop⟩ this
      cases coin with
      | true =>
        rw [if_pos rfl]
        have hvmono : ∀ p, s.visited p = true →
            setTrue s.visited wall p = true := fun p hp => setTrue_of hp
        have hreachW : Reach rows cols (setTrue s.opn wall) (0, 0) wall := by
          refine Relation.ReflTransGen.tail ?_ ⟨haAdj, hInBw, setTrue_self⟩
          exact reach_mono (fun p hp => setTrue_of hp) (hinv.visReach a haVis)
        refine ⟨?_, ?_, ?_, ?_, ?_, ?_, ?_, ?_, ?_, ?_, ?_, ?_⟩
        · exact hwf'
        · intro p h1 h2
          exact setTrue_of (hinv.skelOpen p h1 h2)
        · intro p h
          rcases setTrue_elim h with h' | h'
          · rw [h']; exact hInBw
          · exact hinv.opnInB p h'
        · intro p h
          rcases setTrue_elim h with h' | h'
          · rw [h']; exact Or.inr setTrue_self
          · rcases hinv.opnSkelVis p h' with h'' | h''
            · exact Or.inl h''
            · exact Or.inr (hvmono p h'')
        · intro p h
          rcases setTrue_elim h with h' | h'
          · rw [h']; exact setTrue_self
          · exact setTrue_of (hinv.visOpn p h')
        · intro p h
          rcases setTrue_elim h with h' | h'
          · rw [h']; exact hreachW
          · exact reach_mono (fun q hq => setTrue_of hq)
              (hinv.visReach p h')
        · exact hvmono (0, 0) hinv.origVis
        · intro e he
          exact hinv.qInB e (hsub e he)
        · intro e he
          exact hinv.qNotSkel e (hsub e he)
        · intro e he
          obtain ⟨u, h1, h2, h3, h4⟩ := hinv.qAnchor e (hsub e he)
          exact ⟨u, h1, h2, h3, hvmono u h4⟩
        · intro w hin hns hop u hAdj hInBu hOpu
          have hop' : setTrue s.opn wall w = true := hop
          have hOpu' : setTrue s.opn wall u = true := hOpu
          show setTrue s.visited wall u = true
          by_cases huw : u = wall
          · rw [huw]; exact setTrue_self
          · rw [setTrue_ne huw] at hOpu'
            by_cases hww : w = wall
            · have humem : u ∈ neighbours rows cols wall :=
                (mem_neighbours hInBw).2 ⟨hInBu, (hww ▸ hAdj).symm⟩
              exact hvmono u (hnone u humem hOpu')
            · rw [setTrue_ne hww] at hop'
              exact hvmono u (hinv.wallOpenVis w hin hns hop' u hAdj hInBu hOpu')
        · intro w hin hns hcl hprem
          have hcl0 : setTrue s.opn wall w = false := hcl
          have hww : w ≠ wall := by
            intro hc
            rw [hc, setTrue_self] at hcl0
            exact Bool.noConfusion hcl0
          rw [setTrue_ne hww] at hcl0
          obtain ⟨u, hAdju, hInBu, hSkelu, hVisu'⟩ := hprem
          rcases setTrue_elim hVisu' with huw | hVisu
          · rw [huw] at hSkelu
            exact absurd hSkelu hNSw
          · rcases hinv.wallQueue w hin hns hcl0
              ⟨u, hAdju, hInBu, hSkelu, hVisu⟩ with h | h
            · obtain ⟨e, he, hedata⟩ := h
              rcases hsplit e he with h' | h'
              · rw [h'] at hedata
                rw [he0data] at hedata
                exact absurd hedata.symm hww
              · exact Or.inl ⟨e, h', hedata⟩
            · right
              intro u' hAdj' hInB' hOp'
              rcases setTrue_elim hOp' with h' | h'
              · rw [h']
                show setTrue s.visited wall wall = true
                exact setTrue_self
              · exact hvmono u' (h u' hAdj' hInB' h')
      | false =>
        rw [if_neg (by simp)]
        refine ⟨?_, ?_, ?_, ?_, ?_, ?_, ?_, ?_, ?_, ?_, ?_, ?_⟩
        · exact hwf'
        · exact hinv.skelOpen
        · exact hinv.opnInB
        · exact hinv.opnSkelVis
        · exact hinv.visOpn
        · exact hinv.visReach
        · exact hinv.origVis
        · intro e he
          exact hinv.qInB e (hsub e he)
        · intro e he
          exact hinv.qNotSkel e (hsub e he)
        · intro e he
          exact hinv.qAnchor e (hsub e he)
        · exact hinv.wallOpenVis
        · intro w hin hns hcl hprem
          rcases hinv.wallQueue w hin hns hcl hprem with h | h
          · obtain ⟨e, he, hedata⟩ := h
            rcases hsplit e he with h' | h'
            · right
              intro u' hAdj' hInB' hOp'
              have hwwall : w = wall := by
                rw [h'] at hedata
                rw [he0data] at hedata
                exact hedata.symm
              have humem : u' ∈ neighbours rows cols wall :=
                (mem_neighbours hInBw).2 ⟨hInB', (hwwall ▸ hAdj').symm⟩
              exact hnone u' humem hOp'
            · exact Or.inl ⟨e, h', hedata⟩
          · exact Or.inr h

/-! Termination of the generation loop: the measure
`5 · (unvisited in-bounds cells) + queue size` strictly decreases. -/

def unvisitedCount (rows cols : Nat) (vis : Nat × Nat → Bool) : Nat :=
  ((Finset.range rows ×ˢ Finset.range cols).filter
    fun p => vis p = false).card

theorem unvisitedCount_le {rows cols : Nat} {vis vis' : Nat × Nat → Bool}
    (h : ∀ p, vis p = true → vis' p = true) :
    unvisitedCount rows cols vis' ≤ unvisitedCount rows cols vis := by
  apply Finset.card_le_card
  intro p hp
  rw [Finset.mem_filter] at hp ⊢
  refine ⟨hp.1, ?_⟩
  cases hv : vis p with
  | false => rfl
  | true =>
    rw [h p hv] at hp
    exact absurd hp.2 (by simp)

theorem unvisitedCount_lt {rows cols : Nat} {vis vis' : Nat × Nat → Bool}
    (h : ∀ p, vis p = true → vis' p = true) {q : Nat × Nat}
    (hqI : InB rows cols q) (hq : vis q = false) (hq' : vis' q = true) :
    unvisitedCount rows cols vis' < unvisitedCount rows cols vis := by
  apply Finset.card_lt_card
  rw [Finset.ssubset_iff_of_subset]
  · refine ⟨q, ?_, ?_⟩
    · rw [Finset.mem_filter, Finset.mem_product, Finset.mem_range,
        Finset.mem_range]
      exact ⟨⟨hqI.1, hqI.2⟩, hq⟩
    · rw [Finset.mem_filter]
      intro hcon
      rw [hq'] at hcon
      exact absurd hcon.2 (by simp)
  · intro p hp
    rw [Finset.mem_filter] at hp ⊢
    refine ⟨hp.1, ?_⟩
    cases hv : vis p with
    | false => rfl
    | true =>
      rw [h p hv] at hp
      exact absurd hp.2 (by simp)

def genMeasure (rows cols : Nat) (s : GenState) : Nat :=
  5 * unvisitedCount rows cols s.visited + s.pq.size

theorem genStep_measure (rows cols : Nat) (weights : Nat × Nat → Nat)
    (coin : Bool) (s : GenState) (hinv : GenInv rows cols s)
    (hsz : s.pq.size ≠ 0) :
    genMeasure rows cols (genStep rows cols weights coin s) <
      genMeasure rows cols s := by
  unfold genStep
  cases hrm : s.pq.removeMin with
  | none =>
    exact absurd ((removeMin_none_iff s.pq hinv.wf).1 hrm) hsz
  | some wq =>
    obtain ⟨wall, pq'⟩ := wq
    dsimp only
    obtain ⟨hsz', hwf', e0, he0mem, he0data, hsplit, hsub⟩ :=
      removeMin_spec s.pq hinv.wf hrm
    have hInBw : InB rows cols wall := he0data ▸ hinv.qInB e0 he0mem
    cases hf : (neighbours rows cols wall).find?
        (fun q => !(s.visited q) && s.opn q) with
    | some nextCell =>
      dsimp only
      have hnmem := List.mem_of_find?_eq_some hf
      have hnpred := List.find?_some hf
      simp only [Bool.and_eq_true, Bool.not_eq_true'] at hnpred
      have hnInB : InB rows cols nextCell :=
        ((mem_neighbours hInBw).1 hnmem).1
      have hUlt : unvisitedCount rows cols
          (setTrue (setTrue s.visited nextCell) wall) <
          unvisitedCount rows cols s.visited :=
        unvisitedCount_lt (fun p hp => setTrue_of (setTrue_of hp)) hnInB
          hnpred.1 (setTrue_of setTrue_self)
      have hS : (updatePQ rows cols (setTrue s.opn wall) weights nextCell
          pq').size ≤ pq'.size + 4 := by
        calc (updatePQ rows cols (setTrue s.opn wall) weights nextCell
            pq').size ≤ pq'.size + (neighbours rows cols nextCell).length :=
              insertWalls_size_le _ _ _ _
          _ ≤ pq'.size + 4 := by
              have := @neighbours_length_le rows cols nextCell
              omega
      unfold genMeasure
      dsimp only
      omega
    | none =>
      dsimp only
      have hU : ∀ vis' : Nat × Nat → Bool,
          (∀ p, s.visited p = true → vis' p = true) →
          unvisitedCount rows cols vis' ≤
            unvisitedCount rows cols s.visited :=
        fun vis' h => unvisitedCount_le h
      cases coin with
      | true =>
        rw [if_pos rfl]
        have h1 := hU (setTrue s.visited wall) (fun p hp => setTrue_of hp)
        unfold genMeasure
        dsimp only
        omega
      | false =>
        rw [if_neg (by simp)]
        unfold genMeasure
        dsimp only
        omega

theorem genLoop_final (rows cols : Nat) (weights : Nat × Nat → Nat)
    (coins : Nat → Bool) :
    ∀ fuel s, GenInv rows cols s → genMeasure rows cols s < fuel →
      GenInv rows cols (genLoop rows cols weights coins fuel s) ∧
        (genLoop rows cols weights coins fuel s).pq.size = 0 := by
  intro fuel
  induction fuel with
  | zero => intro s _ hm; omega
  | succ fuel ih =>
    intro s hinv hm
    unfold genLoop
    by_cases h0 : s.pq.size = 0
    · rw [if_pos h0]
      exact ⟨hinv, h0⟩
    · rw [if_neg h0]
      apply ih
      · exact genStep_inv rows cols weights (coins fuel) s hinv
      · have := genStep_measure rows cols weights (coins fuel) s hinv h0
        omega

theorem genInit_measure (rows cols : Nat) (weights : Nat × Nat → Nat) :
    genMeasure rows cols (genInit rows cols weights) < genFuel rows cols := by
  unfold genMeasure genFuel
  have h1 : unvisitedCount rows cols (genInit rows cols weights).visited ≤
      rows * cols := by
    unfold unvisitedCount
    calc ((Finset.range rows ×ˢ Finset.range cols).filter _).card ≤
        (Finset.range rows ×ˢ Finset.range cols).card :=
          Finset.card_filter_le _ _
      _ = rows * cols := by
          rw [Finset.card_product, Finset.card_range, Finset.card_range]
  have h2 : (genInit rows cols weights).pq.size ≤ 4 := by
    show (updatePQ rows cols _ weights (0, 0)
      (PriorityQueue.empty (Nat × Nat))).size ≤ 4
    calc (updatePQ rows cols _ weights (0, 0)
        (PriorityQueue.empty (Nat × Nat))).size ≤
        (PriorityQueue.empty (Nat × Nat)).size +
          (neighbours rows cols (0, 0)).length :=
          insertWalls_size_le _ _ _ _
      _ ≤ 4 := by
          have := @neighbours_length_le rows cols (0, 0)
          show 0 + (neighbours rows cols (0, 0)).length ≤ 4
          omega
  omega

/-! The terminal state: once the queue is empty, visitedness propagates
across every closed "wall" cell between skeleton cells, so all primary
skeleton cells `(2i, 2j)` are visited, and the destination is reachable. -/

theorem adj_horiz {r c c' : Nat} (h : c + 1 = c') : Adj (r, c) (r, c') :=
  Or.inl ⟨rfl, Or.inl h⟩

theorem adj_vert {r r' c : Nat} (h : r + 1 = r') : Adj (r, c) (r', c) :=
  Or.inr ⟨rfl, Or.inl h⟩

theorem skel_mk {rows cols r c : Nat} (h1 : r % 2 = 0 ∨ r = rows - 1)
    (h2 : c % 2 = 0 ∨ c = cols - 1) : Skel rows cols (r, c) := ⟨h1, h2⟩

theorem inB_mk {rows cols r c : Nat} (h1 : r < rows) (h2 : c < cols) :
    InB rows cols (r, c) := ⟨h1, h2⟩

theorem not_skel_row {rows cols r c : Nat} (h1 : r % 2 = 1)
    (h2 : r ≠ rows - 1) : ¬ Skel rows cols (r, c) := by
  intro hsk
  rcases hsk.1 with h | h
  · omega
  · exact h2 h

theorem not_skel_col {rows cols r c : Nat} (h1 : c % 2 = 1)
    (h2 : c ≠ cols - 1) : ¬ Skel rows cols (r, c) := by
  intro hsk
  rcases hsk.2 with h | h
  · omega
  · exact h2 h

theorem final_wall_prop {rows cols : Nat} {f : GenState}
    (hinv : GenInv rows cols f) (hempty : f.pq.size = 0)
    {u w v : Nat × Nat} (hInBu : InB rows cols u)
    (hSkelu : Skel rows cols u) (hVisu : f.visited u = true)
    (hInBw : InB rows cols w) (hNSw : ¬ Skel rows cols w)
    (hInBv : InB rows cols v) (hSkelv : Skel rows cols v)
    (hAdj1 : Adj u w) (hAdj2 : Adj w v) : f.visited v = true := by
  have hnil : f.pq.heap = [] := by
    have := hinv.wf
    rw [hempty] at this
    exact List.length_eq_zero.1 this
  have hOpv : f.opn v = true := hinv.skelOpen v hInBv hSkelv
  cases hop : f.opn w with
  | true =>
    exact hinv.wallOpenVis w hInBw hNSw hop v hAdj2.symm hInBv hOpv
  | false =>
    rcases hinv.wallQueue w hInBw hNSw hop ⟨u, hAdj1, hInBu, hSkelu, hVisu⟩
        with h | h
    · obtain ⟨e, he, _⟩ := h
      rw [hnil] at he
      exact absurd he (List.not_mem_nil e)
    · exact h v hAdj2.symm hInBv hOpv

theorem final_primary_visited {rows cols : Nat} {f : GenState}
    (hinv : GenInv rows cols f) (hempty : f.pq.size = 0) :
    ∀ i j, 2 * i < rows → 2 * j < cols →
      f.visited (2 * i, 2 * j) = true := by
  intro i
  induction i with
  | zero =>
    intro j
    induction j with
    | zero =>
      intro _ _
      exact hinv.origVis
    | succ j ihj =>
      intro h2i h2j
      have hInBu : InB rows cols (2 * 0, 2 * j) := inB_mk (by omega) (by omega)
      have hSkelu : Skel rows cols (2 * 0, 2 * j) :=
        skel_mk (Or.inl (by omega)) (Or.inl (by omega))
      have hVisu : f.visited (2 * 0, 2 * j) = true := ihj (by omega) (by omega)
      have hInBw : InB rows cols (2 * 0, 2 * j + 1) :=
        inB_mk (by omega) (by omega)
      have hNSw : ¬ Skel rows cols (2 * 0, 2 * j + 1) :=
        not_skel_col (by omega) (by omega)
      have hInBv : InB rows cols (2 * 0, 2 * (j + 1)) :=
        inB_mk (by omega) (by omega)
      have hSkelv : Skel rows cols (2 * 0, 2 * (j + 1)) :=
        skel_mk (Or.inl (by omega)) (Or.inl (by omega))
      have hAdj1 : Adj (2 * 0, 2 * j) (2 * 0, 2 * j + 1) := adj_horiz rfl
      have hAdj2 : Adj (2 * 0, 2 * j + 1) (2 * 0, 2 * (j + 1)) :=
        adj_horiz (by omega)
      exact final_wall_prop hinv hempty hInBu hSkelu hVisu hInBw hNSw hInBv
        hSkelv hAdj1 hAdj2
  | succ i ihi =>
    intro j h2i h2j
    have hInBu : InB rows cols (2 * i, 2 * j) := inB_mk (by omega) (by omega)
    have hSkelu : Skel rows cols (2 * i, 2 * j) :=
      skel_mk (Or.inl (by omega)) (Or.inl (by omega))
    have hVisu : f.visited (2 * i, 2 * j) = true := ihi j (by omega) (by omega)
    have hInBw : InB rows cols (2 * i + 1, 2 * j) :=
      inB_mk (by omega) (by omega)
    have hNSw : ¬ Skel rows cols (2 * i + 1, 2 * j) :=
      not_skel_row (by omega) (by omega)
    have hInBv : InB rows cols (2 * (i + 1), 2 * j) :=
      inB_mk (by omega) (by omega)
    have hSkelv : Skel rows cols (2 * (i + 1), 2 * j) :=
      skel_mk (Or.inl (by omega)) (Or.inl (by omega))
    have hAdj1 : Adj (2 * i, 2 * j) (2 * i + 1, 2 * j) := adj_vert rfl
    have hAdj2 : Adj (2 * i + 1, 2 * j) (2 * (i + 1), 2 * j) :=
      adj_vert (by omega)
    exact final_wall_prop hinv hempty hInBu hSkelu hVisu hInBw hNSw hInBv
      hSkelv hAdj1 hAdj2

theorem final_dest_reach {rows cols : Nat} (hr : 1 ≤ rows) (hc : 1 ≤ cols)
    {f : GenState} (hinv : GenInv rows cols f) (hempty : f.pq.size = 0) :
    Reach rows cols f.opn (0, 0) (rows - 1, cols - 1) := by
  have hprim := final_primary_visited hinv hempty
  have hdestSkel : Skel rows cols (rows - 1, cols - 1) :=
    skel_mk (Or.inr rfl) (Or.inr rfl)
  have hdestInB : InB rows cols (rows - 1, cols - 1) :=
    inB_mk (by omega) (by omega)
  have hdestOpn : f.opn (rows - 1, cols - 1) = true :=
    hinv.skelOpen _ hdestInB hdestSkel
  have hvis : ∀ r c, r < rows → c < cols → r % 2 = 0 → c % 2 = 0 →
      f.visited (r, c) = true := by
    intro r c h1 h2 h3 h4
    have := hprim (r / 2) (c / 2) (by omega) (by omega)
    have heq : ((2 * (r / 2) : Nat), (2 * (c / 2) : Nat)) =
        ((r : Nat), (c : Nat)) := by
      rw [Prod.mk.injEq]
      omega
    rw [heq] at this
    exact this
  by_cases hre : (rows - 1) % 2 = 0
  · by_cases hce : (cols - 1) % 2 = 0
    · exact hinv.visReach _
        (hvis (rows - 1) (cols - 1) (by omega) (by omega) hre hce)
    · have hv := hvis (rows - 1) (cols - 2) (by omega) (by omega) hre
        (by omega)
      refine Relation.ReflTransGen.tail (hinv.visReach _ hv)
        ⟨adj_horiz (by omega), hdestInB, hdestOpn⟩
  · by_cases hce : (cols - 1) % 2 = 0
    · have hv := hvis (rows - 2) (cols - 1) (by omega) (by omega) (by omega)
        hce
      refine Relation.ReflTransGen.tail (hinv.visReach _ hv)
        ⟨adj_vert (by omega), hdestInB, hdestOpn⟩
    · have hv := hvis (rows - 2) (cols - 2) (by omega) (by omega) (by omega)
        (by omega)
      have hmidSkel : Skel rows cols (rows - 1, cols - 2) :=
        skel_mk (Or.inr rfl) (Or.inl (by omega))
      have hmidInB : InB rows cols (rows - 1, cols - 2) :=
        inB_mk (by omega) (by omega)
      have hmidOpn : f.opn (rows - 1, cols - 2) = true :=
        hinv.skelOpen _ hmidInB hmidSkel
      refine Relation.ReflTransGen.tail (Relation.ReflTransGen.tail
        (hinv.visReach _ hv) ⟨adj_vert (by omega), hmidInB, hmidOpn⟩)
        ⟨adj_horiz (by omega), hdestInB, hdestOpn⟩

/-- The generated grid's origin and destination are open, and the
destination is reachable from the origin through open, in-bounds,
grid-adjacent cells — for every pair of random streams. -/
theorem gen_connected (rows cols : Nat) (hr : 1 ≤ rows) (hc : 1 ≤ cols)
    (rand : Nat → Nat) (coins : Nat → Bool) :
    generateMaze rows cols rand coins (0, 0) = true ∧
    generateMaze rows cols rand coins (rows - 1, cols - 1) = true ∧
    Reach rows cols (generateMaze rows cols rand coins) (0, 0)
      (rows - 1, cols - 1) := by
  obtain ⟨hinv, hempty⟩ := genLoop_final rows cols
    (generateWeights rows cols rand) coins (genFuel rows cols)
    (genInit rows cols (generateWeights rows cols rand))
    (genInit_inv rows cols hr hc _) (genInit_measure rows cols _)
  refine ⟨?_, ?_, final_dest_reach hr hc hinv hempty⟩
  · exact hinv.skelOpen (0, 0) ⟨hr, hc⟩ ⟨Or.inl rfl, Or.inl rfl⟩
  · exact hinv.skelOpen (rows - 1, cols - 1) ⟨by omega, by omega⟩
      ⟨Or.inr rfl, Or.inr rfl⟩

/-- Claim C1: for every valid dimensions and every sequence of random
choices, the generated grid connects the origin to the bottom-right
destination: both are open and the destination is reachable from `(0,0)`
through open, in-bounds, grid-adjacent cells. -/
theorem claim_C1_generated_connected (rows cols : Nat) (hr : 1 ≤ rows)
    (hc : 1 ≤ cols) (rand : Nat → Nat) (coins : Nat → Bool) :
    generateMaze rows cols rand coins (0, 0) = true ∧
    generateMaze rows cols rand coins (rows - 1, cols - 1) = true ∧
    Reach rows cols (generateMaze rows cols rand coins) (0, 0)
      (rows - 1, cols - 1) :=
  gen_connected rows cols hr hc rand coins

/-- Witness for C1 at the application's 25 × 51 dimensions with concrete
streams. -/
theorem claim_C1_generated_connected_witness :
    generateMaze 25 51 (fun i => 7 * i + 3) (fun k => k % 33 = 0) (0, 0) =
      true ∧
    generateMaze 25 51 (fun i => 7 * i + 3) (fun k => k % 33 = 0)
      (25 - 1, 51 - 1) = true ∧
    Reach 25 51 (generateMaze 25 51 (fun i => 7 * i + 3)
      (fun k => k % 33 = 0)) (0, 0) (25 - 1, 51 - 1) :=
  claim_C1_generated_connected 25 51 (by decide) (by decide)
    (fun i => 7 * i + 3) (fun k => k % 33 = 0)

/-! ## Open paths and graph distance (specification side, for the solver).

The solver claims are about shortest paths of open, in-bounds,
grid-adjacent cells; these definitions are the specification vocabulary,
not translations of code. -/

/-- A list of cells forming a path: consecutive cells grid-adjacent, every
cell in-bounds and open. -/
def OpenPath (b : Board) (l : List (Nat × Nat)) : Prop :=
  List.Chain' Adj l ∧ ∀ p ∈ l, InB b.rows b.cols p ∧ b.openAt p = true

/-- An open path from `x` to `y` (inclusive). -/
def PathBetween (b : Board) (l : List (Nat × Nat)) (x y : Nat × Nat) :
    Prop :=
  OpenPath b l ∧ l.head? = some x ∧ l.getLast? = some y

/-- The hop distance from `x` to `y`: the least `n` such that some open
path with `n + 1` cells joins them. -/
noncomputable def gdist (b : Board) (x y : Nat × Nat) : Nat :=
  sInf {n | ∃ l, PathBetween b l x y ∧ l.length = n + 1}

theorem pathBetween_singleton {b : Board} {x : Nat × Nat}
    (hx : InB b.rows b.cols x ∧ b.openAt x = true) :
    PathBetween b [x] x x := by
  refine ⟨⟨List.chain'_singleton x, ?_⟩, rfl, rfl⟩
  intro p hp
  rcases List.mem_singleton.1 hp with rfl
  exact hx

theorem pathBetween_snoc {b : Board} {l : List (Nat × Nat)}
    {x y z : Nat × Nat} (h : PathBetween b l x y) (hAdj : Adj y z)
    (hz : InB b.rows b.cols z ∧ b.openAt z = true) :
    PathBetween b (l ++ [z]) x z := by
  obtain ⟨⟨hch, hmem⟩, hhd, hlast⟩ := h
  refine ⟨⟨?_, ?_⟩, ?_, List.getLast?_concat l⟩
  · rw [List.chain'_append]
    refine ⟨hch, List.chain'_singleton z, ?_⟩
    intro a ha c hc
    rw [hlast] at ha
    have ha' : a = y := by
      have h2 := Option.mem_def.1 ha
      exact (Option.some.inj h2).symm
    simp only [List.head?_cons, Option.mem_def, Option.some.injEq] at hc
    rw [ha', ← hc]
    exact hAdj
  · intro p hp
    rcases List.mem_append.1 hp with hp | hp
    · exact hmem p hp
    · rcases List.mem_singleton.1 hp with rfl
      exact hz
  · cases l with
    | nil => exact absurd hhd (by simp)
    | cons a as => exact hhd

theorem gdist_le {b : Board} {x y : Nat × Nat} {l : List (Nat × Nat)}
    (h : PathBetween b l x y) : gdist b x y + 1 ≤ l.length := by
  have hne : l ≠ [] := by
    intro hc
    rw [hc] at h
    exact Option.noConfusion h.2.1
  have hlen : 1 ≤ l.length := by
    cases l with
    | nil => exact absurd rfl hne
    | cons a as => simp
  have hmem : l.length - 1 ∈ {n | ∃ l', PathBetween b l' x y ∧
      l'.length = n + 1} := ⟨l, h, by omega⟩
  have := Nat.sInf_le hmem
  unfold gdist
  omega

theorem gdist_spec {b : Board} {x y : Nat × Nat}
    (h : ∃ l, PathBetween b l x y) :
    ∃ l, PathBetween b l x y ∧ l.length = gdist b x y + 1 := by
  obtain ⟨l, hl⟩ := h
  have hne : l ≠ [] := by
    intro hc
    rw [hc] at hl
    exact Option.noConfusion hl.2.1
  have hlen : 1 ≤ l.length := by
    cases l with
    | nil => exact absurd rfl hne
    | cons a as => simp
  have hmem : {n | ∃ l', PathBetween b l' x y ∧ l'.length = n + 1}.Nonempty :=
    ⟨l.length - 1, l, hl, by omega⟩
  have := Nat.sInf_mem hmem
  exact this

theorem gdist_self {b : Board} {x : Nat × Nat}
    (hx : InB b.rows b.cols x ∧ b.openAt x = true) : gdist b x x = 0 := by
  have := gdist_le (pathBetween_singleton hx)
  simp only [List.length_singleton] at this
  omega

theorem gdist_eq_zero {b : Board} {x y : Nat × Nat}
    (h : ∃ l, PathBetween b l x y) (h0 : gdist b x y = 0) : x = y := by
  obtain ⟨l, hl, hlen⟩ := gdist_spec h
  rw [h0] at hlen
  cases l with
  | nil => exact absurd hlen (by simp)
  | cons a as =>
    cases as with
    | nil =>
      have h1 : a = x := Option.some.inj hl.2.1
      have h2 : a = y := by
        have h3 := hl.2.2
        simp only [List.getLast?_singleton, Option.some.injEq] at h3
        exact h3
      rw [← h1, h2]
    | cons c cs => simp at hlen

theorem gdist_succ_le {b : Board} {x y z : Nat × Nat}
    (h : ∃ l, PathBetween b l x y) (hAdj : Adj y z)
    (hz : InB b.rows b.cols z ∧ b.openAt z = true) :
    gdist b x z ≤ gdist b x y + 1 := by
  obtain ⟨l, hl, hlen⟩ := gdist_spec h
  have := gdist_le (pathBetween_snoc hl hAdj hz)
  rw [List.length_append, List.length_singleton, hlen] at this
  omega

theorem gdist_pred {b : Board} {x y : Nat × Nat}
    (h : ∃ l, PathBetween b l x y) (hne : y ≠ x) :
    ∃ w, Adj w y ∧ (InB b.rows b.cols w ∧ b.openAt w = true) ∧
      (∃ l, PathBetween b l x w) ∧ gdist b x w + 1 = gdist b x y := by
  obtain ⟨l, hl, hlen⟩ := gdist_spec h
  have hn1 : 1 ≤ gdist b x y := by
    rcases Nat.eq_zero_or_pos (gdist b x y) with h0 | h1
    · exact absurd (gdist_eq_zero h h0).symm hne
    · exact h1
  have hlne : l ≠ [] := by
    intro hc
    rw [hc] at hl
    exact Option.noConfusion hl.2.1
  have hy : l.getLast hlne = y := by
    have h2 := hl.2.2
    rw [List.getLast?_eq_getLast l hlne, Option.some.injEq] at h2
    exact h2
  have hsplit : l.dropLast ++ [y] = l := by
    rw [← hy]
    exact List.dropLast_append_getLast hlne
  have hlen' : l.dropLast.length = gdist b x y := by
    have h3 := List.length_dropLast l
    omega
  have hl'ne : l.dropLast ≠ [] := by
    have : 0 < l.dropLast.length := by omega
    exact List.ne_nil_of_length_pos this
  have hch : List.Chain' Adj (l.dropLast ++ [y]) := by
    rw [hsplit]
    exact hl.1.1
  rw [List.chain'_append] at hch
  obtain ⟨hch1, _, hjun⟩ := hch
  refine ⟨l.dropLast.getLast hl'ne, ?_, ?_, ?_, ?_⟩
  · exact hjun _ (by rw [List.getLast?_eq_getLast _ hl'ne]; rfl) y rfl
  · exact hl.1.2 _ (List.mem_of_mem_dropLast (List.getLast_mem hl'ne))
  · refine ⟨l.dropLast, ⟨⟨hch1, ?_⟩, ?_, ?_⟩⟩
    · intro p hp
      refine hl.1.2 p ?_
      rw [← hsplit]
      exact List.mem_append.2 (Or.inl hp)
    · have hx := hl.2.1
      rw [← hsplit] at hx
      cases hdl : l.dropLast with
      | nil => exact absurd hdl hl'ne
      | cons a as =>
        rw [hdl] at hx
        exact hx
    · rw [List.getLast?_eq_getLast _ hl'ne]
  · have hub : gdist b x (l.dropLast.getLast hl'ne) + 1 ≤ l.dropLast.length := by
      refine gdist_le ⟨⟨hch1, ?_⟩, ?_, ?_⟩
      · intro p hp
        refine hl.1.2 p ?_
        rw [← hsplit]
        exact List.mem_append.2 (Or.inl hp)
      · have hx := hl.2.1
        rw [← hsplit] at hx
        cases hdl : l.dropLast with
        | nil => exact absurd hdl hl'ne
        | cons a as =>
          rw [hdl] at hx
          exact hx
      · rw [List.getLast?_eq_getLast _ hl'ne]
    have hlb : gdist b x y ≤ gdist b x (l.dropLast.getLast hl'ne) + 1 := by
      refine gdist_succ_le ?_ ?_ ?_
      · refine ⟨l.dropLast, ⟨⟨hch1, ?_⟩, ?_, ?_⟩⟩
        · intro p hp
          refine hl.1.2 p ?_
          rw [← hsplit]
          exact List.mem_append.2 (Or.inl hp)
        · have hx := hl.2.1
          rw [← hsplit] at hx
          cases hdl : l.dropLast with
          | nil => exact absurd hdl hl'ne
          | cons a as =>
            rw [hdl] at hx
            exact hx
        · rw [List.getLast?_eq_getLast _ hl'ne]
      · exact hjun _ (by rw [List.getLast?_eq_getLast _ hl'ne]; rfl) y rfl
      · refine hl.1.2 y ?_
        rw [← hsplit]
        exact List.mem_append.2 (Or.inr (List.mem_singleton.2 rfl))
    omega

/-! ## The solver `getSolution` (the `Cell[]`-queue variant).

`visited` and `discoveredFrom` are arrays indexed by the cell's column and
row; semantically each is a per-coordinate table defaulting to
unset/`undefined` (falsy), so they are embedded as total functions on
coordinates.  Cells of the maze are their coordinate pairs.  `toExplore`
is a plain array used through `push`/`shift`, i.e. a FIFO list. -/

structure BfsState where
  visited : Nat × Nat → Bool
  parent : Nat × Nat → Option (Nat × Nat)
  queue : List (Nat × Nat)

/-- The inner `for (let c of neighbors)` loop of the first BFS `while`:
an unvisited open neighbour gets its parent (`discoveredFrom`) set to
`curr`, is marked visited, and is pushed; the `visited` checks see the
updates made earlier in the same pass. -/
def bfsExpand (b : Board) (curr : Nat × Nat) :
    List (Nat × Nat) → BfsState → BfsState
  | [], s => s
  | c :: cs, s =>
    if s.visited c = false ∧ b.openAt c = true then
      bfsExpand b curr cs
        ⟨setTrue s.visited c,
         fun p => if p = c then some curr else s.parent p,
         s.queue ++ [c]⟩
    else bfsExpand b curr cs s

/-- One iteration of the BFS `while (toExplore.length)` loop:
`shift()` the head and expand its neighbour list. -/
def bfsStep (b : Board) (s : BfsState) : BfsState :=
  match s.queue with
  | [] => s
  | curr :: rest =>
    bfsExpand b curr (neighbours b.rows b.cols curr)
      ⟨s.visited, s.parent, rest⟩

/-- The BFS loop, fuel-bounded (the fuel provably suffices). -/
def bfsLoop (b : Board) : Nat → BfsState → BfsState
  | 0, s => s
  | fuel + 1, s =>
    match s.queue with
    | [] => s
    | _ :: _ => bfsLoop b fuel (bfsStep b s)

/-- State before the loop: `visited[0][0] = true`,
`discoveredFrom[0][0] = maze.getCell(0,0)`, origin pushed. -/
def bfsInit : BfsState :=
  ⟨setTrue (fun _ => false) (0, 0),
   fun p => if p = (0, 0) then some (0, 0) else none,
   [(0, 0)]⟩

def bfsFuel (b : Board) : Nat := 5 * (b.rows * b.cols) + 5

/-- The reconstruction `while (toExplore.length)` loop.  Each iteration
shifts `curr`, pushes it on `solutionPath` (`acc`), and pushes
`discoveredFrom[curr]` unless it equals the origin cell; two cells of one
maze are `equals` iff their coordinates agree.  When `discoveredFrom` is
unset the source calls `.equals` on `undefined` and throws a `TypeError`,
the `Except.error`.  Fuel exhaustion (never reached in the theorems) is
also mapped to `Except.error`. -/
def traceback (parent : Nat × Nat → Option (Nat × Nat)) :
    Nat → List (Nat × Nat) → List (Nat × Nat) →
    Except Unit (List (Nat × Nat))
  | 0, _, _ => Except.error ()
  | fuel + 1, q, acc =>
    match q with
    | [] => Except.ok acc
    | curr :: rest =>
      match parent curr with
      | none => Except.error ()
      | some p =>
        if p = (0, 0) then traceback parent fuel rest (acc ++ [curr])
        else traceback parent fuel (rest ++ [p]) (acc ++ [curr])

/-- `getSolution(maze, mazePath)`: run the BFS from the origin, trace back
from `maze.getCell(rows-1, columns-1)`, append the origin cell, reverse,
and `mazePath.add` each cell in order.  The maze is `env id`; the added
cell objects carry that identifier. -/
def getSolution (env : Nat → Board) (id : Nat) (mp : MazePath) :
    Except Unit MazePath :=
  let b := env id
  let final := bfsLoop b (bfsFuel b) bfsInit
  match traceback final.parent (b.rows * b.cols + 2)
      [(b.rows - 1, b.cols - 1)] [] with
  | Except.error e => Except.error e
  | Except.ok solutionPath =>
    Except.ok (((solutionPath ++ [(0, 0)]).reverse).foldl
      (fun m c => m.add env (id, c)) mp)

/-! Structural facts about one neighbour-expansion pass. -/

theorem bfsExpand_visited_mono {b : Board} {curr : Nat × Nat}
    (L : List (Nat × Nat)) (s : BfsState) {p : Nat × Nat}
    (h : s.visited p = true) :
    (bfsExpand b curr L s).visited p = true := by
  induction L generalizing s with
  | nil => exact h
  | cons c cs ih =>
    unfold bfsExpand
    by_cases hc : s.visited c = false ∧ b.openAt c = true
    · rw [if_pos hc]
      exact ih _ (setTrue_of h)
    · rw [if_neg hc]
      exact ih _ h

theorem bfsExpand_visited_iff {b : Board} {curr : Nat × Nat}
    (L : List (Nat × Nat)) (s : BfsState) (p : Nat × Nat) :
    (bfsExpand b curr L s).visited p = true ↔
      s.visited p = true ∨ (p ∈ L ∧ b.openAt p = true) := by
  induction L generalizing s with
  | nil =>
    simp only [bfsExpand, List.not_mem_nil, false_and, or_false]
  | cons c cs ih =>
    unfold bfsExpand
    by_cases hc : s.visited c = false ∧ b.openAt c = true
    · rw [if_pos hc, ih]
      constructor
      · rintro (h | h)
        · rcases setTrue_elim h with he | h'
          · rw [he]
            exact Or.inr ⟨List.mem_cons_self c cs, hc.2⟩
          · exact Or.inl h'
        · exact Or.inr ⟨List.mem_cons_of_mem c h.1, h.2⟩
      · rintro (h | ⟨hm, ho⟩)
        · exact Or.inl (setTrue_of h)
        · rcases List.mem_cons.1 hm with rfl | hm'
          · exact Or.inl setTrue_self
          · exact Or.inr ⟨hm', ho⟩
    · rw [if_neg hc, ih]
      constructor
      · rintro (h | h)
        · exact Or.inl h
        · exact Or.inr ⟨List.mem_cons_of_mem c h.1, h.2⟩
      · rintro (h | ⟨hm, ho⟩)
        · exact Or.inl h
        · rcases List.mem_cons.1 hm with rfl | hm'
          · rcases not_and_or.1 hc with h' | h'
            · cases hvc : s.visited p with
              | false => exact absurd hvc h'
              | true => exact Or.inl rfl
            · exact absurd ho h'
          · exact Or.inr ⟨hm', ho⟩

theorem bfsExpand_parent_of_visited {b : Board} {curr : Nat × Nat}
    (L : List (Nat × Nat)) (s : BfsState) {p : Nat × Nat}
    (h : s.visited p = true) :
    (bfsExpand b curr L s).parent p = s.parent p := by
  induction L generalizing s with
  | nil => rfl
  | cons c cs ih =>
    unfold bfsExpand
    by_cases hc : s.visited c = false ∧ b.openAt c = true
    · rw [if_pos hc]
      have hpc : p ≠ c := by
        intro he
        have h3 := hc.1
        rw [← he, h] at h3
        exact Bool.noConfusion h3
      have := ih ⟨setTrue s.visited c,
        fun q => if q = c then some curr else s.parent q,
        s.queue ++ [c]⟩ (setTrue_of h)
      rw [this]
      exact if_neg hpc
    · rw [if_neg hc]
      exact ih _ h

theorem bfsExpand_parent_of_unvisited {b : Board} {curr : Nat × Nat}
    (L : List (Nat × Nat)) (s : BfsState) {p : Nat × Nat}
    (h : (bfsExpand b curr L s).visited p = false) :
    (bfsExpand b curr L s).parent p = s.parent p ∧
      s.visited p = false := by
  induction L generalizing s with
  | nil => exact ⟨rfl, h⟩
  | cons c cs ih =>
    unfold bfsExpand at h ⊢
    by_cases hc : s.visited c = false ∧ b.openAt c = true
    · rw [if_pos hc] at h ⊢
      obtain ⟨h1, h2⟩ := ih _ h
      have h2' : setTrue s.visited c p = false := h2
      have hpc : p ≠ c := by
        intro he
        rw [he, setTrue_self] at h2'
        exact Bool.noConfusion h2'
      refine ⟨?_, ?_⟩
      · rw [h1]
        exact if_neg hpc
      · rw [setTrue_ne hpc] at h2'
        exact h2'
    · rw [if_neg hc] at h ⊢
      exact ih _ h

theorem bfsExpand_parent_new {b : Board} {curr : Nat × Nat}
    (L : List (Nat × Nat)) (s : BfsState) {p : Nat × Nat}
    (h0 : s.visited p = false)
    (h1 : (bfsExpand b curr L s).visited p = true) :
    (bfsExpand b curr L s).parent p = some curr := by
  induction L generalizing s with
  | nil => rw [bfsExpand] at h1; exact absurd h1 (by rw [h0]; simp)
  | cons c cs ih =>
    unfold bfsExpand at h1 ⊢
    by_cases hc : s.visited c = false ∧ b.openAt c = true
    · rw [if_pos hc] at h1 ⊢
      by_cases hpc : p = c
      · subst hpc
        have := @bfsExpand_parent_of_visited b curr cs
          ⟨setTrue s.visited p,
           fun q => if q = p then some curr else s.parent q,
           s.queue ++ [p]⟩ p setTrue_self
        rw [this]
        show (if p = p then some curr else s.parent p) = some curr
        rw [if_pos rfl]
      · have h0' : (setTrue s.visited c) p = false := by
          rw [setTrue_ne hpc]; exact h0
        exact ih _ h0' h1
    · rw [if_neg hc] at h1 ⊢
      exact ih _ h0 h1

theorem bfsExpand_queue_append {b : Board} {curr : Nat × Nat}
    (L : List (Nat × Nat)) (s : BfsState) :
    ∃ N, (bfsExpand b curr L s).queue = s.queue ++ N ∧
      ∀ q ∈ N, q ∈ L ∧ b.openAt q = true ∧ s.visited q = false := by
  induction L generalizing s with
  | nil => exact ⟨[], by rw [List.append_nil]; rfl, by intro q hq; cases hq⟩
  | cons c cs ih =>
    unfold bfsExpand
    by_cases hc : s.visited c = false ∧ b.openAt c = true
    · rw [if_pos hc]
      obtain ⟨N, hN, hprop⟩ := ih ⟨setTrue s.visited c,
        fun q => if q = c then some curr else s.parent q, s.queue ++ [c]⟩
      refine ⟨c :: N, ?_, ?_⟩
      · rw [hN]
        simp
      · intro q hq
        rcases List.mem_cons.1 hq with he | hq'
        · rw [he]
          exact ⟨List.mem_cons_self c cs, hc.2, hc.1⟩
        · obtain ⟨hm, ho, hv⟩ := hprop q hq'
          have hv' : setTrue s.visited c q = false := hv
          refine ⟨List.mem_cons_of_mem c hm, ho, ?_⟩
          cases hsv : s.visited q with
          | false => rfl
          | true => rw [setTrue_of hsv] at hv'; exact Bool.noConfusion hv'
    · rw [if_neg hc]
      obtain ⟨N, hN, hprop⟩ := ih s
      refine ⟨N, hN, fun q hq => ?_⟩
      obtain ⟨hm, ho, hv⟩ := hprop q hq
      exact ⟨List.mem_cons_of_mem c hm, ho, hv⟩

/-! ## BFS correctness invariant for `getSolution`. -/

/-- A cell is processed when it is visited and so is every open in-bounds
neighbour. -/
def Processed (b : Board) (vis : Nat × Nat → Bool) (w : Nat × Nat) :
    Prop :=
  vis w = true ∧ ∀ c, Adj w c → InB b.rows b.cols c →
    b.openAt c = true → vis c = true

theorem processed_mono {b : Board} {vis vis' : Nat × Nat → Bool}
    {w : Nat × Nat} (h : Processed b vis w)
    (hmono : ∀ p, vis p = true → vis' p = true) : Processed b vis' w :=
  ⟨hmono w h.1, fun c h1 h2 h3 => hmono c (h.2 c h1 h2 h3)⟩

/-- The loop invariant of the solver's BFS, for a board whose origin is
open: visited cells are exactly discovered open cells reachable from the
origin; parents are set exactly for visited cells and step one level down
in hop distance; the queue is sorted by distance with spread at most one;
cells strictly below every queued distance are fully expanded. -/
structure BfsInv (b : Board) (s : BfsState) : Prop where
  visOk : ∀ p, s.visited p = true →
    InB b.rows b.cols p ∧ b.openAt p = true
  visReach : ∀ p, s.visited p = true → ∃ l, PathBetween b l (0, 0) p
  origVis : s.visited (0, 0) = true
  parentNone : ∀ p, s.visited p = false → s.parent p = none
  parentOrig : s.parent (0, 0) = some (0, 0)
  parentChain : ∀ p, s.visited p = true → p ≠ (0, 0) →
    ∃ q, s.parent p = some q ∧ s.visited q = true ∧ Adj q p ∧
      gdist b (0, 0) q + 1 = gdist b (0, 0) p
  queueVis : ∀ p ∈ s.queue, s.visited p = true
  queueSorted : s.queue.Pairwise
    (fun p q => gdist b (0, 0) p ≤ gdist b (0, 0) q)
  queueSpread : ∀ p ∈ s.queue, ∀ q ∈ s.queue,
    gdist b (0, 0) p ≤ gdist b (0, 0) q + 1
  visitedState : ∀ p, s.visited p = true →
    p ∈ s.queue ∨ Processed b s.visited p
  belowProcessed : ∀ w, InB b.rows b.cols w → b.openAt w = true →
    (∃ l, PathBetween b l (0, 0) w) →
    (∀ q ∈ s.queue, gdist b (0, 0) w < gdist b (0, 0) q) →
    Processed b s.visited w

theorem bfsInit_inv {b : Board} (hr : 1 ≤ b.rows) (hcb : 1 ≤ b.cols)
    (ho : b.openAt (0, 0) = true) : BfsInv b bfsInit := by
  have horig : InB b.rows b.cols (0, 0) ∧ b.openAt (0, 0) = true :=
    ⟨⟨hr, hcb⟩, ho⟩
  have hvisEq : bfsInit.visited = setTrue (fun _ => false) (0, 0) := rfl
  have hparEq : bfsInit.parent =
      fun p : Nat × Nat =>
        if p = (0, 0) then some ((0, 0) : Nat × Nat) else none := rfl
  have hqEq : bfsInit.queue = [((0, 0) : Nat × Nat)] := rfl
  have hvis : ∀ p : Nat × Nat, bfsInit.visited p = true → p = (0, 0) := by
    intro p hp
    rw [hvisEq] at hp
    rcases setTrue_elim hp with h | h
    · exact h
    · exact Bool.noConfusion h
  refine ⟨?_, ?_, ?_, ?_, ?_, ?_, ?_, ?_, ?_, ?_, ?_⟩
  · intro p hp
    rw [hvis p hp]
    exact horig
  · intro p hp
    rw [hvis p hp]
    exact ⟨[(0, 0)], pathBetween_singleton horig⟩
  · rw [hvisEq]
    exact setTrue_self
  · intro p hp
    have hpo : p ≠ (0, 0) := by
      intro he
      rw [he, hvisEq, setTrue_self] at hp
      exact Bool.noConfusion hp
    rw [hparEq]
    exact if_neg hpo
  · rw [hparEq]
    exact if_pos rfl
  · intro p hp hpo
    exact absurd (hvis p hp) hpo
  · intro p hp
    rw [hqEq] at hp
    rcases List.mem_singleton.1 hp with rfl
    rw [hvisEq]
    exact setTrue_self
  · rw [hqEq]
    exact List.pairwise_singleton _ _
  · intro p hp q hq
    rw [hqEq] at hp hq
    rcases List.mem_singleton.1 hp with rfl
    rcases List.mem_singleton.1 hq with rfl
    omega
  · intro p hp
    rw [hvis p hp, hqEq]
    exact Or.inl (List.mem_singleton.2 rfl)
  · intro w hwI hwO hwR hlt
    rw [hqEq] at hlt
    have h0 := hlt (0, 0) (List.mem_singleton.2 rfl)
    rw [gdist_self horig] at h0
    omega

theorem bfsExpand_queue_mono {b : Board} {curr : Nat × Nat}
    (L : List (Nat × Nat)) (s : BfsState) {q : Nat × Nat}
    (h : q ∈ s.queue) : q ∈ (bfsExpand b curr L s).queue := by
  obtain ⟨N, hN, _⟩ := @bfsExpand_queue_append b curr L s
  rw [hN]
  exact List.mem_append_left N h

theorem bfsExpand_new_in_queue {b : Board} {curr : Nat × Nat}
    (L : List (Nat × Nat)) (s : BfsState) {p : Nat × Nat}
    (h0 : s.visited p = false)
    (h1 : (bfsExpand b curr L s).visited p = true) :
    p ∈ (bfsExpand b curr L s).queue := by
  induction L generalizing s with
  | nil => rw [bfsExpand] at h1; exact absurd h1 (by rw [h0]; simp)
  | cons c cs ih =>
    unfold bfsExpand at h1 ⊢
    by_cases hc : s.visited c = false ∧ b.openAt c = true
    · rw [if_pos hc] at h1 ⊢
      by_cases hpc : p = c
      · apply bfsExpand_queue_mono
        rw [hpc]
        show c ∈ s.queue ++ [c]
        exact List.mem_append_right _ (List.mem_singleton.2 rfl)
      · have h0' : (setTrue s.visited c) p = false := by
          rw [setTrue_ne hpc]; exact h0
        exact ih _ h0' h1
    · rw [if_neg hc] at h1 ⊢
      exact ih _ h0 h1

theorem bfsExpand_queue_len {b : Board} {curr : Nat × Nat}
    (L : List (Nat × Nat)) (s : BfsState) :
    (bfsExpand b curr L s).queue.length ≤ s.queue.length + L.length := by
  induction L generalizing s with
  | nil => simp [bfsExpand]
  | cons c cs ih =>
    unfold bfsExpand
    by_cases hc : s.visited c = false ∧ b.openAt c = true
    · rw [if_pos hc]
      have h2 : (bfsExpand b curr cs ⟨setTrue s.visited c,
          fun q => if q = c then some curr else s.parent q,
          s.queue ++ [c]⟩).queue.length ≤
          (s.queue ++ [c]).length + cs.length := ih _
      rw [List.length_append, List.length_singleton] at h2
      simp only [List.length_cons]
      omega
    · rw [if_neg hc]
      have := ih s
      simp only [List.length_cons]
      omega

/-- A cell discovered while expanding the queue head sits exactly one hop
further from the origin than the head. -/
theorem discovered_dist {b : Board} {s : BfsState}
    (hinv : BfsInv b s) {h v : Nat × Nat} {rest : List (Nat × Nat)}
    (hq : s.queue = h :: rest) (hAdj : Adj h v)
    (hvI : InB b.rows b.cols v) (hvO : b.openAt v = true)
    (hunvis : s.visited v = false) :
    gdist b (0, 0) v = gdist b (0, 0) h + 1 := by
  have hhmem : h ∈ s.queue := by rw [hq]; exact List.mem_cons_self h rest
  have hhvis := hinv.queueVis h hhmem
  have hreach_h := hinv.visReach h hhvis
  have hreach_v : ∃ l, PathBetween b l (0, 0) v := by
    obtain ⟨l, hl⟩ := hreach_h
    exact ⟨l ++ [v], pathBetween_snoc hl hAdj ⟨hvI, hvO⟩⟩
  have hle : gdist b (0, 0) v ≤ gdist b (0, 0) h + 1 :=
    gdist_succ_le hreach_h hAdj ⟨hvI, hvO⟩
  rcases Nat.lt_or_ge (gdist b (0, 0) h) (gdist b (0, 0) v) with hgt | hge
  · omega
  · exfalso
    have hvo : v ≠ (0, 0) := by
      intro he
      rw [he, hinv.origVis] at hunvis
      exact Bool.noConfusion hunvis
    obtain ⟨w, hwAdj, hwOk, hwReach, hwd⟩ := gdist_pred hreach_v hvo
    have hhd : ∀ q ∈ s.queue, gdist b (0, 0) h ≤ gdist b (0, 0) q := by
      intro q hqm
      rw [hq] at hqm
      rcases List.mem_cons.1 hqm with rfl | hqm'
      · exact Nat.le_refl _
      · have := hinv.queueSorted
        rw [hq, List.pairwise_cons] at this
        exact this.1 q hqm'
    have hwlt : ∀ q ∈ s.queue, gdist b (0, 0) w < gdist b (0, 0) q := by
      intro q hqm
      have := hhd q hqm
      omega
    have hproc := hinv.belowProcessed w hwOk.1 hwOk.2 hwReach hwlt
    have := hproc.2 v hwAdj hvI hvO
    rw [hunvis] at this
    exact Bool.noConfusion this

/-- Expanding the popped head preserves the BFS invariant. -/
theorem bfsExpand_inv {b : Board} {s : BfsState} {h : Nat × Nat}
    {rest : List (Nat × Nat)} (ho : b.openAt (0, 0) = true)
    (hinv : BfsInv b s) (hq : s.queue = h :: rest) (s' : BfsState)
    (hs' : s' = bfsExpand b h (neighbours b.rows b.cols h)
      ⟨s.visited, s.parent, rest⟩) : BfsInv b s' := by
  have hhmem : h ∈ s.queue := by rw [hq]; exact List.mem_cons_self h rest
  have hhvis : s.visited h = true := hinv.queueVis h hhmem
  have hhOk := hinv.visOk h hhvis
  have hmono : ∀ p, s.visited p = true → s'.visited p = true := by
    intro p hp
    rw [hs']
    exact bfsExpand_visited_mono _ _ hp
  have hviff : ∀ p, s'.visited p = true ↔
      s.visited p = true ∨
        (p ∈ neighbours b.rows b.cols h ∧ b.openAt p = true) := by
    intro p
    rw [hs']
    exact bfsExpand_visited_iff _ _ p
  have hnew : ∀ p, s.visited p = false → s'.visited p = true →
      InB b.rows b.cols p ∧ b.openAt p = true ∧ Adj h p ∧
      gdist b (0, 0) p = gdist b (0, 0) h + 1 ∧ s'.parent p = some h := by
    intro p h0 h1
    have hmem : p ∈ neighbours b.rows b.cols h ∧ b.openAt p = true := by
      rcases (hviff p).1 h1 with h2 | h2
      · rw [h0] at h2; exact absurd h2 (by simp)
      · exact h2
    have hIA := (mem_neighbours hhOk.1).1 hmem.1
    refine ⟨hIA.1, hmem.2, hIA.2, ?_, ?_⟩
    · exact discovered_dist hinv hq hIA.2 hIA.1 hmem.2 h0
    · rw [hs'] at h1 ⊢
      exact bfsExpand_parent_new _ _ h0 h1
  have hproc_h : Processed b s'.visited h := by
    refine ⟨hmono h hhvis, ?_⟩
    intro c hAdj hI hO
    exact (hviff c).2 (Or.inr ⟨(mem_neighbours hhOk.1).2 ⟨hI, hAdj⟩, hO⟩)
  obtain ⟨N, hNq, hNprop⟩ := @bfsExpand_queue_append b h
    (neighbours b.rows b.cols h) ⟨s.visited, s.parent, rest⟩
  rw [← hs'] at hNq
  have hNfact : ∀ q ∈ N, s.visited q = false ∧ s'.visited q = true ∧
      gdist b (0, 0) q = gdist b (0, 0) h + 1 := by
    intro q hqm
    obtain ⟨hmL, hOq, hvq⟩ := hNprop q hqm
    have hv' : s'.visited q = true := (hviff q).2 (Or.inr ⟨hmL, hOq⟩)
    obtain ⟨_, _, _, hd, _⟩ := hnew q hvq hv'
    exact ⟨hvq, hv', hd⟩
  have hheadmin : ∀ q ∈ rest, gdist b (0, 0) h ≤ gdist b (0, 0) q := by
    have h2 := hinv.queueSorted
    rw [hq, List.pairwise_cons] at h2
    exact h2.1
  have hspread_h : ∀ q ∈ rest, gdist b (0, 0) q ≤ gdist b (0, 0) h + 1 :=
    fun q hqm => hinv.queueSpread q
      (by rw [hq]; exact List.mem_cons_of_mem h hqm) h hhmem
  have hrest_vis : ∀ p ∈ rest, s.visited p = true := fun p hp =>
    hinv.queueVis p (by rw [hq]; exact List.mem_cons_of_mem h hp)
  have hparent_old : ∀ p, s.visited p = true →
      s'.parent p = s.parent p := by
    intro p hp
    rw [hs']
    exact bfsExpand_parent_of_visited _ _ hp
  have hnewq : ∀ p, s.visited p = false → s'.visited p = true →
      p ∈ s'.queue := by
    intro p h0 h1
    rw [hs'] at h1 ⊢
    exact bfsExpand_new_in_queue _ _ h0 h1
  refine ⟨?_, ?_, ?_, ?_, ?_, ?_, ?_, ?_, ?_, ?_, ?_⟩
  · intro p hp
    cases hv : s.visited p with
    | true => exact hinv.visOk p hv
    | false =>
      obtain ⟨hI, hO, _, _, _⟩ := hnew p hv hp
      exact ⟨hI, hO⟩
  · intro p hp
    cases hv : s.visited p with
    | true => exact hinv.visReach p hv
    | false =>
      obtain ⟨hI, hO, hA, _, _⟩ := hnew p hv hp
      obtain ⟨l, hl⟩ := hinv.visReach h hhvis
      exact ⟨l ++ [p], pathBetween_snoc hl hA ⟨hI, hO⟩⟩
  · exact hmono _ hinv.origVis
  · intro p hp
    rw [hs'] at hp ⊢
    obtain ⟨heq, hv⟩ := bfsExpand_parent_of_unvisited _ _ hp
    rw [heq]
    exact hinv.parentNone p hv
  · rw [hparent_old (0, 0) hinv.origVis]
    exact hinv.parentOrig
  · intro p hp hpo
    cases hv : s.visited p with
    | true =>
      obtain ⟨q, hpq, hqv, hA, hd⟩ := hinv.parentChain p hv hpo
      refine ⟨q, ?_, hmono q hqv, hA, hd⟩
      rw [hparent_old p hv]
      exact hpq
    | false =>
      obtain ⟨hI, hO, hA, hd, hpar⟩ := hnew p hv hp
      exact ⟨h, hpar, hmono h hhvis, hA, by omega⟩
  · intro p hp
    rw [hNq] at hp
    rcases List.mem_append.1 hp with hp' | hp'
    · exact hmono p (hrest_vis p hp')
    · exact (hNfact p hp').2.1
  · rw [hNq, List.pairwise_append]
    refine ⟨?_, ?_, ?_⟩
    · have h2 := hinv.queueSorted
      rw [hq, List.pairwise_cons] at h2
      exact h2.2
    · apply List.pairwise_of_forall_mem_list
      intro p hp q hqm
      have hdp := (hNfact p hp).2.2
      have hdq := (hNfact q hqm).2.2
      omega
    · intro p hp q hqm
      have hdp := hspread_h p hp
      have hdq := (hNfact q hqm).2.2
      omega
  · intro p hp q hqm
    rw [hNq] at hp hqm
    rcases List.mem_append.1 hp with hp' | hp' <;>
      rcases List.mem_append.1 hqm with hq' | hq'
    · exact hinv.queueSpread p
        (by rw [hq]; exact List.mem_cons_of_mem h hp') q
        (by rw [hq]; exact List.mem_cons_of_mem h hq')
    · have h1 := hspread_h p hp'
      have h2 := (hNfact q hq').2.2
      omega
    · have h1 := (hNfact p hp').2.2
      have h2 := hheadmin q hq'
      omega
    · have h1 := (hNfact p hp').2.2
      have h2 := (hNfact q hq').2.2
      omega
  · intro p hp
    cases hv : s.visited p with
    | false => exact Or.inl (hnewq p hv hp)
    | true =>
      rcases hinv.visitedState p hv with hmem | hproc
      · rw [hq] at hmem
        rcases List.mem_cons.1 hmem with he | hmem'
        · right
          rw [he]
          exact hproc_h
        · left
          rw [hNq]
          exact List.mem_append_left N hmem'
      · exact Or.inr (processed_mono hproc hmono)
  · suffices H : ∀ n, ∀ w, InB b.rows b.cols w → b.openAt w = true →
        (∃ l, PathBetween b l (0, 0) w) → gdist b (0, 0) w = n →
        (∀ q ∈ s'.queue, n < gdist b (0, 0) q) →
        Processed b s'.visited w by
      intro w hI hO hR hlt
      exact H (gdist b (0, 0) w) w hI hO hR rfl hlt
    intro n
    induction n using Nat.strong_induction_on with
    | _ n ih =>
      intro w hI hO hR hdn hlt
      cases hv : s.visited w with
      | true =>
        rcases hinv.visitedState w hv with hmem | hproc
        · rw [hq] at hmem
          rcases List.mem_cons.1 hmem with he | hmem'
          · rw [he]
            exact hproc_h
          · exfalso
            have hwq : w ∈ s'.queue := by
              rw [hNq]
              exact List.mem_append_left N hmem'
            have := hlt w hwq
            omega
        · exact processed_mono hproc hmono
      | false =>
        cases hv' : s'.visited w with
        | true =>
          exfalso
          have := hlt w (hnewq w hv hv')
          omega
        | false =>
          exfalso
          have hwo : w ≠ (0, 0) := by
            intro he
            rw [he, hinv.origVis] at hv
            exact Bool.noConfusion hv
          obtain ⟨w', hA, hOk', hR', hd'⟩ := gdist_pred hR hwo
          have hlt' : ∀ q ∈ s'.queue,
              gdist b (0, 0) w' < gdist b (0, 0) q := by
            intro q hqm
            have := hlt q hqm
            omega
          have hproc' := ih (gdist b (0, 0) w') (by omega) w'
            hOk'.1 hOk'.2 hR' rfl hlt'
          have h3 := hproc'.2 w hA hI hO
          rw [hv'] at h3
          exact Bool.noConfusion h3

/-- One BFS step preserves the invariant. -/
theorem bfsStep_inv {b : Board} {s : BfsState}
    (ho : b.openAt (0, 0) = true) (hinv : BfsInv b s) :
    BfsInv b (bfsStep b s) := by
  cases hq : s.queue with
  | nil =>
    have h2 : bfsStep b s = s := by unfold bfsStep; rw [hq]
    rw [h2]
    exact hinv
  | cons h rest =>
    have h2 : bfsStep b s = bfsExpand b h (neighbours b.rows b.cols h)
        ⟨s.visited, s.parent, rest⟩ := by
      unfold bfsStep
      rw [hq]
    exact bfsExpand_inv ho hinv hq _ h2

def bfsMeasure (b : Board) (s : BfsState) : Nat :=
  5 * unvisitedCount b.rows b.cols s.visited + s.queue.length

theorem bfsStep_measure {b : Board} {s : BfsState} (hinv : BfsInv b s)
    {h : Nat × Nat} {rest : List (Nat × Nat)} (hq : s.queue = h :: rest) :
    bfsMeasure b (bfsStep b s) < bfsMeasure b s := by
  have hstep : bfsStep b s = bfsExpand b h (neighbours b.rows b.cols h)
      ⟨s.visited, s.parent, rest⟩ := by
    unfold bfsStep
    rw [hq]
  have hhmem : h ∈ s.queue := by rw [hq]; exact List.mem_cons_self h rest
  have hhOk := hinv.visOk h (hinv.queueVis h hhmem)
  have hmono : ∀ p, s.visited p = true →
      (bfsStep b s).visited p = true := by
    intro p hp
    rw [hstep]
    exact bfsExpand_visited_mono _ _ hp
  have hUle := @unvisitedCount_le b.rows b.cols _ _ hmono
  have hlen : (bfsStep b s).queue.length ≤
      rest.length + (neighbours b.rows b.cols h).length := by
    rw [hstep]
    exact bfsExpand_queue_len _ _
  have hlen4 := @neighbours_length_le b.rows b.cols h
  obtain ⟨N, hNq, hNprop⟩ := @bfsExpand_queue_append b h
    (neighbours b.rows b.cols h) ⟨s.visited, s.parent, rest⟩
  rw [← hstep] at hNq
  cases hN : N with
  | nil =>
    rw [hN, List.append_nil] at hNq
    unfold bfsMeasure
    rw [hNq, hq]
    simp only [List.length_cons]
    omega
  | cons q0 N' =>
    have hq0m : q0 ∈ N := by
      rw [hN]
      exact List.mem_cons_self q0 N'
    obtain ⟨hmL, hO, hv⟩ := hNprop q0 hq0m
    have hI : InB b.rows b.cols q0 := ((mem_neighbours hhOk.1).1 hmL).1
    have hpost : (bfsStep b s).visited q0 = true := by
      rw [hstep]
      exact (bfsExpand_visited_iff _ _ q0).2 (Or.inr ⟨hmL, hO⟩)
    have hUlt := @unvisitedCount_lt b.rows b.cols _ _ hmono q0 hI hv hpost
    unfold bfsMeasure
    rw [hq]
    simp only [List.length_cons]
    omega

theorem bfsLoop_final {b : Board} (ho : b.openAt (0, 0) = true) :
    ∀ fuel s, BfsInv b s → bfsMeasure b s < fuel →
      BfsInv b (bfsLoop b fuel s) ∧ (bfsLoop b fuel s).queue = [] := by
  intro fuel
  induction fuel with
  | zero => intro s _ hm; omega
  | succ fuel ih =>
    intro s hinv hm
    cases hq : s.queue with
    | nil =>
      have h2 : bfsLoop b (fuel + 1) s = s := by
        unfold bfsLoop
        rw [hq]
      rw [h2]
      exact ⟨hinv, hq⟩
    | cons h rest =>
      have h2 : bfsLoop b (fuel + 1) s = bfsLoop b fuel (bfsStep b s) := by
        show (match s.queue with
          | [] => s
          | _ :: _ => bfsLoop b fuel (bfsStep b s)) =
            bfsLoop b fuel (bfsStep b s)
        rw [hq]
      rw [h2]
      apply ih
      · exact bfsStep_inv ho hinv
      · have := bfsStep_measure hinv hq
        omega

theorem bfsInit_measure {b : Board} :
    bfsMeasure b bfsInit < bfsFuel b := by
  unfold bfsMeasure bfsFuel
  have h1 : unvisitedCount b.rows b.cols bfsInit.visited ≤
      b.rows * b.cols := by
    unfold unvisitedCount
    calc ((Finset.range b.rows ×ˢ Finset.range b.cols).filter _).card ≤
        (Finset.range b.rows ×ˢ Finset.range b.cols).card :=
          Finset.card_filter_le _ _
      _ = b.rows * b.cols := by
          rw [Finset.card_product, Finset.card_range, Finset.card_range]
  have h2 : bfsInit.queue.length = 1 := rfl
  omega

/-- The fully-run BFS: invariant holds and the frontier is drained. -/
theorem bfs_final {b : Board} (hr : 1 ≤ b.rows) (hcb : 1 ≤ b.cols)
    (ho : b.openAt (0, 0) = true) :
    BfsInv b (bfsLoop b (bfsFuel b) bfsInit) ∧
      (bfsLoop b (bfsFuel b) bfsInit).queue = [] :=
  bfsLoop_final ho (bfsFuel b) bfsInit (bfsInit_inv hr hcb ho)
    bfsInit_measure

theorem bfs_final_visited_of_reach {b : Board} (hr : 1 ≤ b.rows)
    (hcb : 1 ≤ b.cols) (ho : b.openAt (0, 0) = true) {p : Nat × Nat}
    (hI : InB b.rows b.cols p) (hO : b.openAt p = true)
    (hR : ∃ l, PathBetween b l (0, 0) p) :
    (bfsLoop b (bfsFuel b) bfsInit).visited p = true := by
  obtain ⟨hinv, hempty⟩ := bfs_final hr hcb ho
  refine (hinv.belowProcessed p hI hO hR ?_).1
  intro q hqm
  rw [hempty] at hqm
  exact absurd hqm (List.not_mem_nil q)

theorem bfs_final_unvisited_of_unreach {b : Board} (hr : 1 ≤ b.rows)
    (hcb : 1 ≤ b.cols) (ho : b.openAt (0, 0) = true) {p : Nat × Nat}
    (hR : ¬ ∃ l, PathBetween b l (0, 0) p) :
    (bfsLoop b (bfsFuel b) bfsInit).visited p = false := by
  obtain ⟨hinv, _⟩ := bfs_final hr hcb ho
  cases hv : (bfsLoop b (bfsFuel b) bfsInit).visited p with
  | false => rfl
  | true => exact absurd (hinv.visReach p hv) hR

/-! The reconstruction loop on the finished BFS state. -/

theorem traceback_origin {parent : Nat × Nat → Option (Nat × Nat)}
    (hpo : parent (0, 0) = some (0, 0)) :
    ∀ fuel acc, 2 ≤ fuel →
      traceback parent fuel [(0, 0)] acc =
        Except.ok (acc ++ [(0, 0)]) := by
  intro fuel acc hf
  cases fuel with
  | zero => omega
  | succ k =>
    cases k with
    | zero => omega
    | succ m =>
      simp only [traceback, hpo]
      rw [if_pos trivial]

theorem traceback_chain {b : Board} {f : BfsState} (hinv : BfsInv b f) :
    ∀ n, 1 ≤ n → ∀ p, f.visited p = true → gdist b (0, 0) p = n →
      ∀ acc fuel, n + 1 ≤ fuel →
        ∃ l, traceback f.parent fuel [p] acc = Except.ok (acc ++ l) ∧
          l.length = n ∧ l.head? = some p ∧
          (∀ i x, l.get? i = some x → f.visited x = true ∧
            gdist b (0, 0) x = n - i) ∧
          List.Chain' (fun a c => Adj c a) l := by
  have horig := hinv.visOk _ hinv.origVis
  intro n hn
  induction n, hn using Nat.le_induction with
  | base =>
    intro p hv hd acc fuel hf
    have hpo : p ≠ (0, 0) := by
      intro he
      rw [he, gdist_self horig] at hd
      omega
    obtain ⟨q, hpq, hqv, hA, hqd⟩ := hinv.parentChain p hv hpo
    have hq0 : gdist b (0, 0) q = 0 := by omega
    have hqorig : q = (0, 0) :=
      (gdist_eq_zero (hinv.visReach q hqv) hq0).symm
    cases fuel with
    | zero => omega
    | succ k =>
      cases k with
      | zero => omega
      | succ m =>
        refine ⟨[p], ?_, rfl, rfl, ?_, List.chain'_singleton p⟩
        · rw [hqorig] at hpq
          simp only [traceback, hpq]
          rw [if_pos trivial]
        · intro i x hx
          cases i with
          | zero =>
            have hxp : x = p := by
              simp only [List.get?_cons_zero, Option.some.injEq] at hx
              exact hx.symm
            rw [hxp]
            exact ⟨hv, hd⟩
          | succ j =>
            simp only [List.get?_cons_succ, List.get?_nil] at hx
            exact Option.noConfusion hx
  | succ n hn1 ih =>
    intro p hv hd acc fuel hf
    have hpo : p ≠ (0, 0) := by
      intro he
      rw [he, gdist_self horig] at hd
      omega
    obtain ⟨q, hpq, hqv, hA, hqd⟩ := hinv.parentChain p hv hpo
    have hqd' : gdist b (0, 0) q = n := by omega
    have hqo : q ≠ (0, 0) := by
      intro he
      rw [he, gdist_self horig] at hqd'
      omega
    cases fuel with
    | zero => omega
    | succ k =>
      obtain ⟨l', hok, hlen, hhd, hget, hch⟩ :=
        ih q hqv hqd' (acc ++ [p]) k (by omega)
      refine ⟨p :: l', ?_, ?_, rfl, ?_, ?_⟩
      · have hstep : traceback f.parent (k + 1) [p] acc =
            traceback f.parent k [q] (acc ++ [p]) := by
          simp only [traceback, hpq, if_neg hqo, List.nil_append]
        rw [hstep, hok, List.append_assoc]
        rfl
      · simp [hlen]
      · intro i x hx
        cases i with
        | zero =>
          have hxp : x = p := by
            simp only [List.get?_cons_zero, Option.some.injEq] at hx
            exact hx.symm
          rw [hxp]
          refine ⟨hv, by omega⟩
        | succ j =>
          rw [List.get?_cons_succ] at hx
          obtain ⟨hvx, hdx⟩ := hget j x hx
          refine ⟨hvx, by omega⟩
      · rw [List.chain'_cons']
        refine ⟨?_, hch⟩
        intro y hy
        rw [hhd] at hy
        have : q = y := Option.some.inj (Option.mem_def.1 hy)
        rw [← this]
        exact hA

/-! Facts about `add` needed to replay the solver's final loop. -/

theorem add_mazeId (env : Nat → Board) (mp : MazePath) (c : MCell) :
    (mp.add env c).mazeId = mp.mazeId := by
  unfold MazePath.add
  by_cases h1 : c.1 = mp.mazeId ∧ isOpenCell env c = true
  · rw [if_pos h1]
    by_cases h2 : mp.path.length = 0
    · rw [if_pos h2]
    · rw [if_neg h2]
      by_cases h3 : mp.cellPositions c.2 = -1
      · rw [if_pos h3]
        cases h4 : mp.path.getLast? with
        | none => rfl
        | some lastC =>
          dsimp only
          by_cases h5 : (neighbours (env c.1).rows (env c.1).cols
              c.2).any (fun q => decide ((c.1, q) = lastC)) = true
          · rw [if_pos h5]
          · rw [if_neg h5]
      · rw [if_neg h3]
  · rw [if_neg h1]

theorem add_path_first {env : Nat → Board} {mp : MazePath} {c : MCell}
    (hidc : c.1 = mp.mazeId) (hopen : isOpenCell env c = true)
    (hemp : mp.path = []) : (mp.add env c).path = [c] := by
  unfold MazePath.add
  rw [if_pos ⟨hidc, hopen⟩, if_pos (by rw [hemp]; rfl)]
  show mp.path ++ [c] = [c]
  rw [hemp]
  rfl

theorem add_path_append {env : Nat → Board} (henv : WfEnv env)
    {mp : MazePath} {c : MCell} (hwf : WfPath env mp)
    (hidc : c.1 = mp.mazeId) (hopen : isOpenCell env c = true)
    (habsent : ∀ d ∈ mp.path, d.2 ≠ c.2)
    (hlast : ∃ lastC, mp.path.getLast? = some lastC ∧ Adj lastC.2 c.2) :
    (mp.add env c).path = mp.path ++ [c] := by
  obtain ⟨lastC, hlc, hAdj⟩ := hlast
  have hne : mp.path ≠ [] := by
    intro h0
    rw [h0] at hlc
    exact Option.noConfusion hlc
  have hlen : mp.path.length ≠ 0 := by
    intro h0
    exact hne (List.length_eq_zero.1 h0)
  have hpos : mp.cellPositions c.2 = -1 := hwf.2.2.2.2 c.2 habsent
  have hcInB : InB (env mp.mazeId).rows (env mp.mazeId).cols c.2 := by
    by_contra hni
    have := henv mp.mazeId c.2 hni
    rw [isOpenCell, hidc] at hopen
    rw [this] at hopen
    exact Bool.noConfusion hopen
  have hlcmem : lastC ∈ mp.path := by
    rw [List.getLast?_eq_getLast _ hne, Option.some.injEq] at hlc
    rw [← hlc]
    exact List.getLast_mem hne
  obtain ⟨hlcId, _, hlcInB⟩ := hwf.2.1 lastC hlcmem
  have hany : (neighbours (env c.1).rows (env c.1).cols c.2).any
      (fun q => decide ((c.1, q) = lastC)) = true := by
    rw [List.any_eq_true]
    refine ⟨lastC.2, ?_, ?_⟩
    · rw [hidc]
      exact (mem_neighbours hcInB).2 ⟨hlcInB, hAdj.symm⟩
    · rw [decide_eq_true_eq]
      refine Prod.ext ?_ rfl
      rw [hidc, hlcId]
  unfold MazePath.add
  rw [if_pos ⟨hidc, hopen⟩, if_neg hlen, if_pos hpos, hlc]
  show (if (neighbours (env c.1).rows (env c.1).cols c.2).any
      (fun q => decide ((c.1, q) = lastC)) = true then
    ({ mazeId := mp.mazeId, path := mp.path ++ [c],
       cellPositions := fun p => if p = c.2 then (mp.path.length : Int)
         else mp.cellPositions p } : MazePath) else mp).path =
    mp.path ++ [c]
  rw [if_pos hany]

theorem add_noop_present {env : Nat → Board} {mp : MazePath} {c : MCell}
    (hlen : mp.path.length ≠ 0) (hpos : mp.cellPositions c.2 ≠ -1) :
    mp.add env c = mp := by
  unfold MazePath.add
  by_cases h1 : c.1 = mp.mazeId ∧ isOpenCell env c = true
  · rw [if_pos h1, if_neg hlen, if_neg hpos]
  · rw [if_neg h1]

/-- Replaying `for (c of cells) mazePath.add(c)` over a valid chain of
fresh cells appends them all. -/
theorem foldl_add_path (env : Nat → Board) (henv : WfEnv env) (id : Nat) :
    ∀ (cs : List (Nat × Nat)) (mp : MazePath) (pre : List (Nat × Nat)),
      mp.mazeId = id →
      WfPath env mp →
      mp.path = pre.map (fun x => (id, x)) →
      pre ≠ [] →
      List.Chain' Adj (pre ++ cs) →
      (pre ++ cs).Nodup →
      (∀ x ∈ pre ++ cs, (env id).openAt x = true) →
      (cs.foldl (fun m c => m.add env (id, c)) mp).path =
        (pre ++ cs).map (fun x => (id, x)) ∧
      WfPath env (cs.foldl (fun m c => m.add env (id, c)) mp) ∧
      (cs.foldl (fun m c => m.add env (id, c)) mp).mazeId = id := by
  intro cs
  induction cs with
  | nil =>
    intro mp pre h1 h2 h3 _ _ _ _
    rw [List.foldl_nil, List.append_nil]
    exact ⟨h3, h2, h1⟩
  | cons c cs ih =>
    intro mp pre hid hwf hpath hpre hch hnd hmem
    have hcmem : c ∈ pre ++ c :: cs :=
      List.mem_append_right pre (List.mem_cons_self c cs)
    have hopen : isOpenCell env (id, c) = true := hmem c hcmem
    have hcpre : c ∉ pre := by
      intro hc
      rw [List.nodup_append] at hnd
      exact hnd.2.2 hc (List.mem_cons_self c cs)
    have hstep : (mp.add env (id, c)).path =
        mp.path ++ ([(id, c)] : List MCell) := by
      apply add_path_append henv hwf
      · rw [hid]
      · exact hopen
      · intro d hd he
        rw [hpath, List.mem_map] at hd
        obtain ⟨x, hx, hxd⟩ := hd
        rw [← hxd] at he
        have he' : x = c := he
        exact hcpre (he' ▸ hx)
      · have hpne : pre.getLast? = some (pre.getLast hpre) :=
          List.getLast?_eq_getLast pre hpre
        refine ⟨(id, pre.getLast hpre), ?_, ?_⟩
        · rw [hpath]
          rw [List.getLast?_map]
          rw [hpne]
          rfl
        · rw [List.chain'_append] at hch
          exact hch.2.2 (pre.getLast hpre)
            (by rw [hpne]; rfl) c rfl
    have hwfc := add_wf env henv mp (id, c) hwf
    have hidc : (mp.add env (id, c)).mazeId = id := by
      rw [add_mazeId, hid]
    have hassoc : (pre ++ [c]) ++ cs = pre ++ c :: cs := by
      rw [List.append_assoc]
      rfl
    have hres := ih (mp.add env (id, c)) (pre ++ [c]) hidc hwfc
      (by rw [hstep, hpath, List.map_append]; rfl)
      (by simp)
      (by rw [hassoc]; exact hch)
      (by rw [hassoc]; exact hnd)
      (by rw [hassoc]; exact hmem)
    rw [List.foldl_cons]
    rw [hassoc] at hres
    exact hres

theorem mem_of_getLast? {α : Type} {l : List α} {a : α}
    (h : l.getLast? = some a) : a ∈ l := by
  cases l with
  | nil => exact Option.noConfusion h
  | cons x xs =>
    have hne : x :: xs ≠ [] := by simp
    rw [List.getLast?_eq_getLast _ hne, Option.some.injEq] at h
    rw [← h]
    exact List.getLast_mem hne

/-- A list whose entries determine their own index is duplicate-free. -/
theorem nodup_of_index {α : Type} {l : List α} (g : α → Nat)
    (h : ∀ i x, l.get? i = some x → g x = i) : l.Nodup := by
  rw [List.nodup_iff_injective_get]
  intro i j hij
  have hi := h i.1 (l.get i) (List.get?_eq_get i.2)
  have hj := h j.1 (l.get j) (List.get?_eq_get j.2)
  rw [hij] at hi
  exact Fin.ext (hi ▸ hj)

/-- Reachability through open cells yields an explicit open path. -/
theorem reach_pathBetween {b : Board}
    (ho : InB b.rows b.cols (0, 0) ∧ b.openAt (0, 0) = true)
    {y : Nat × Nat} (h : Reach b.rows b.cols b.openAt (0, 0) y) :
    ∃ l, PathBetween b l (0, 0) y := by
  induction h with
  | refl => exact ⟨[(0, 0)], pathBetween_singleton ho⟩
  | tail hab hbc ih =>
    obtain ⟨l, hl⟩ := ih
    exact ⟨l ++ [_], pathBetween_snoc hl hbc.1 ⟨hbc.2.1, hbc.2.2⟩⟩

/-- The parent chain realizes every distance below a visited cell's, so
distances are bounded by the number of cells. -/
theorem gdist_le_cells {b : Board} {f : BfsState} (hinv : BfsInv b f)
    {y : Nat × Nat} (hv : f.visited y = true) :
    gdist b (0, 0) y + 1 ≤ b.rows * b.cols := by
  have horig := hinv.visOk _ hinv.origVis
  have hQ : ∀ d, d ≤ gdist b (0, 0) y → ∃ c, f.visited c = true ∧
      gdist b (0, 0) c = gdist b (0, 0) y - d := by
    intro d
    induction d with
    | zero => intro _; exact ⟨y, hv, by omega⟩
    | succ d ih =>
      intro hd
      obtain ⟨c, hcv, hcd⟩ := ih (by omega)
      have hco : c ≠ (0, 0) := by
        intro he
        rw [he, gdist_self horig] at hcd
        omega
      obtain ⟨q, _, hqv, _, hqd⟩ := hinv.parentChain c hcv hco
      exact ⟨q, hqv, by omega⟩
  have hK : ∀ k, ∃ c, k ≤ gdist b (0, 0) y →
      f.visited c = true ∧ gdist b (0, 0) c = k := by
    intro k
    by_cases hk : k ≤ gdist b (0, 0) y
    · obtain ⟨c, h1, h2⟩ := hQ (gdist b (0, 0) y - k) (by omega)
      exact ⟨c, fun _ => ⟨h1, by omega⟩⟩
    · exact ⟨(0, 0), fun h2 => absurd h2 hk⟩
  choose g hg using hK
  have hcard : (Finset.range (gdist b (0, 0) y + 1)).card ≤
      (Finset.range b.rows ×ˢ Finset.range b.cols).card := by
    apply Finset.card_le_card_of_injOn g
    · intro k hk
      rw [Finset.mem_range] at hk
      obtain ⟨h1, _⟩ := hg k (by omega)
      have := (hinv.visOk _ h1).1
      rw [Finset.mem_product, Finset.mem_range, Finset.mem_range]
      exact ⟨this.1, this.2⟩
    · intro k1 hk1 k2 hk2 he
      rw [Finset.coe_range, Set.mem_Iio] at hk1 hk2
      obtain ⟨_, hd1⟩ := hg k1 (by omega)
      obtain ⟨_, hd2⟩ := hg k2 (by omega)
      rw [he] at hd1
      rw [hd1] at hd2
      exact hd2
  rw [Finset.card_range, Finset.card_product, Finset.card_range,
    Finset.card_range] at hcard
  exact hcard

/-- `getSolution` on a solvable board returns the path of the BFS parent
chain: it runs from the origin to the bottom-right destination and its
cell count is exactly one more than the hop distance. -/
theorem getSolution_correct (env : Nat → Board) (henv : WfEnv env)
    (id : Nat) (hr : 1 ≤ (env id).rows) (hcb : 1 ≤ (env id).cols)
    (ho : (env id).openAt (0, 0) = true)
    (hreach : ∃ l, PathBetween (env id) l (0, 0)
      ((env id).rows - 1, (env id).cols - 1)) :
    ∃ mp, getSolution env id (emptyPath id) = Except.ok mp ∧
      mp.path.head? = some (id, (0, 0)) ∧
      mp.path.getLast? =
        some (id, ((env id).rows - 1, (env id).cols - 1)) ∧
      mp.path.length = gdist (env id) (0, 0)
        ((env id).rows - 1, (env id).cols - 1) + 1 := by
  have horig : InB (env id).rows (env id).cols (0, 0) ∧
      (env id).openAt (0, 0) = true := ⟨⟨hr, hcb⟩, ho⟩
  obtain ⟨hinv, hempty⟩ := bfs_final hr hcb ho
  have hdI : InB (env id).rows (env id).cols
      ((env id).rows - 1, (env id).cols - 1) := ⟨by omega, by omega⟩
  have hdO : (env id).openAt ((env id).rows - 1, (env id).cols - 1) =
      true := by
    obtain ⟨l, hl⟩ := hreach
    exact (hl.1.2 _ (mem_of_getLast? hl.2.2)).2
  have hvisited := bfs_final_visited_of_reach hr hcb ho hdI hdO hreach
  have hm1id : ((emptyPath id).add env (id, (0, 0))).mazeId = id := by
    rw [add_mazeId]
    rfl
  have hm1path : ((emptyPath id).add env (id, (0, 0))).path =
      [((id, (0, 0)) : MCell)] :=
    add_path_first rfl ho rfl
  have hm1wf : WfPath env ((emptyPath id).add env (id, (0, 0))) :=
    add_wf env henv _ _ (wfPath_empty env id)
  rcases Nat.eq_zero_or_pos (gdist (env id) (0, 0)
      ((env id).rows - 1, (env id).cols - 1)) with h0 | hn1
  · -- destination is the origin
    have hdz : (0, 0) = (((env id).rows - 1, (env id).cols - 1) :
        Nat × Nat) := gdist_eq_zero hreach h0
    have htb : traceback (bfsLoop (env id) (bfsFuel (env id))
        bfsInit).parent ((env id).rows * (env id).cols + 2)
        [((env id).rows - 1, (env id).cols - 1)] [] =
        Except.ok [((env id).rows - 1, (env id).cols - 1)] := by
      rw [← hdz]
      exact traceback_origin hinv.parentOrig _ [] (by nlinarith)
    have hgs : getSolution env id (emptyPath id) = Except.ok
        ((([((env id).rows - 1, (env id).cols - 1)] ++
          [((0, 0) : Nat × Nat)]).reverse).foldl
          (fun m c => m.add env (id, c)) (emptyPath id)) := by
      show (match traceback (bfsLoop (env id) (bfsFuel (env id))
          bfsInit).parent ((env id).rows * (env id).cols + 2)
          [((env id).rows - 1, (env id).cols - 1)] [] with
        | Except.error e => Except.error e
        | Except.ok sp => Except.ok (((sp ++ [(0, 0)]).reverse).foldl
            (fun m c => MazePath.add env m (id, c)) (emptyPath id))) = _
      rw [htb]
    rw [← hdz] at hgs
    have hfold : (([((0, 0) : Nat × Nat)] ++
        [((0, 0) : Nat × Nat)]).reverse).foldl
        (fun m c => m.add env (id, c)) (emptyPath id) =
        (emptyPath id).add env (id, (0, 0)) := by
      show ((emptyPath id).add env (id, (0, 0))).add env (id, (0, 0)) =
        (emptyPath id).add env (id, (0, 0))
      apply add_noop_present
      · rw [hm1path]
        simp
      · have := hm1wf.2.2.2.1 0 (id, (0, 0))
          (by rw [hm1path]; rfl)
        intro hc
        rw [hc] at this
        exact absurd this (by decide)
    rw [hfold] at hgs
    refine ⟨(emptyPath id).add env (id, (0, 0)), hgs, ?_, ?_, ?_⟩
    · rw [hm1path]
      rfl
    · rw [hm1path, ← hdz]
      rfl
    · rw [hm1path, h0]
      rfl
  · -- destination at positive distance
    have hfuel : gdist (env id) (0, 0)
        ((env id).rows - 1, (env id).cols - 1) + 1 ≤
        (env id).rows * (env id).cols + 2 := by
      have := gdist_le_cells hinv hvisited
      omega
    obtain ⟨l, hok, hlen, hhd, hget, hch⟩ := traceback_chain hinv
      (gdist (env id) (0, 0) ((env id).rows - 1, (env id).cols - 1))
      hn1 _ hvisited rfl [] ((env id).rows * (env id).cols + 2) hfuel
    rw [List.nil_append] at hok
    have hlne : l ≠ [] := by
      intro hc
      rw [hc] at hlen
      have h2 : (0 : Nat) = gdist (env id) (0, 0)
          ((env id).rows - 1, (env id).cols - 1) := hlen
      omega
    -- the last traceback cell neighbours the origin
    have hzlt : gdist (env id) (0, 0)
        ((env id).rows - 1, (env id).cols - 1) - 1 < l.length := by
      omega
    have hzget : l.get? (gdist (env id) (0, 0)
        ((env id).rows - 1, (env id).cols - 1) - 1) =
        some (l.get ⟨_, hzlt⟩) := List.get?_eq_get hzlt
    obtain ⟨hzv, hzd⟩ := hget _ _ hzget
    have hzd1 : gdist (env id) (0, 0) (l.get ⟨_, hzlt⟩) = 1 := by
      omega
    have hzno : l.get ⟨_, hzlt⟩ ≠ (0, 0) := by
      intro he
      rw [he, gdist_self horig] at hzd1
      omega
    obtain ⟨q', hq'p, hq'v, hq'A, hq'd⟩ := hinv.parentChain _ hzv hzno
    have hq'0 : gdist (env id) (0, 0) q' = 0 := by omega
    have hq'orig : (0, 0) = q' :=
      gdist_eq_zero (hinv.visReach q' hq'v) hq'0
    have hAdjoz : Adj (0, 0) (l.get ⟨_, hzlt⟩) := by
      rw [← hq'orig] at hq'A
      exact hq'A
    have hlast : l.getLast? = some (l.get ⟨_, hzlt⟩) := by
      rw [List.getLast?_eq_get?]
      have hidx : l.length - 1 = gdist (env id) (0, 0)
          ((env id).rows - 1, (env id).cols - 1) - 1 := by omega
      rw [hidx]
      exact hzget
    -- properties of every traceback cell
    have hmem_facts : ∀ x ∈ l, (env id).openAt x = true ∧
        InB (env id).rows (env id).cols x := by
      intro x hx
      obtain ⟨i, hi⟩ := List.mem_iff_get?.1 hx
      obtain ⟨hvx, _⟩ := hget i x hi
      exact ⟨(hinv.visOk x hvx).2, (hinv.visOk x hvx).1⟩
    have hnodup : ((0, 0) :: l.reverse).Nodup := by
      rw [List.nodup_cons]
      constructor
      · intro hc
        rw [List.mem_reverse] at hc
        obtain ⟨i, hi⟩ := List.mem_iff_get?.1 hc
        obtain ⟨_, hdi⟩ := hget i (0, 0) hi
        rw [gdist_self horig] at hdi
        have hilt : i < l.length := by
          rcases List.get?_eq_some.1 hi with ⟨h2, _⟩
          exact h2
        omega
      · rw [List.nodup_reverse]
        apply nodup_of_index (fun x =>
          gdist (env id) (0, 0)
            ((env id).rows - 1, (env id).cols - 1) -
          gdist (env id) (0, 0) x)
        intro i x hi
        obtain ⟨_, hdi⟩ := hget i x hi
        have hilt : i < l.length := by
          rcases List.get?_eq_some.1 hi with ⟨h2, _⟩
          exact h2
        rw [hdi]
        omega
    have hchain : List.Chain' Adj ((0, 0) :: l.reverse) := by
      rw [List.chain'_cons']
      constructor
      · intro y hy
        rw [List.head?_reverse, hlast] at hy
        have h2 : l.get ⟨_, hzlt⟩ = y :=
          Option.some.inj (Option.mem_def.1 hy)
        rw [← h2]
        exact hAdjoz
      · exact List.chain'_reverse.2 hch
    have hopen_all : ∀ x ∈ ([(0, 0)] ++ l.reverse : List (Nat × Nat)),
        (env id).openAt x = true := by
      intro x hx
      rcases List.mem_append.1 hx with hx' | hx'
      · rcases List.mem_singleton.1 hx' with rfl
        exact ho
      · exact (hmem_facts x (List.mem_reverse.1 hx')).1
    obtain ⟨hfpath, hfwf, hfid⟩ := foldl_add_path env henv id l.reverse
      ((emptyPath id).add env (id, (0, 0))) [(0, 0)] hm1id hm1wf
      (by rw [hm1path]; rfl) (by simp) hchain hnodup hopen_all
    have hgs : getSolution env id (emptyPath id) = Except.ok
        (((l ++ [((0, 0) : Nat × Nat)]).reverse).foldl
          (fun m c => m.add env (id, c)) (emptyPath id)) := by
      show (match traceback (bfsLoop (env id) (bfsFuel (env id))
          bfsInit).parent ((env id).rows * (env id).cols + 2)
          [((env id).rows - 1, (env id).cols - 1)] [] with
        | Except.error e => Except.error e
        | Except.ok sp => Except.ok (((sp ++ [(0, 0)]).reverse).foldl
            (fun m c => MazePath.add env m (id, c)) (emptyPath id))) = _
      rw [hok]
    have hrw : (l ++ [((0, 0) : Nat × Nat)]).reverse =
        (0, 0) :: l.reverse := by
      rw [List.reverse_append]
      rfl
    rw [hrw] at hgs
    have hfold_eq : ((0, 0) :: l.reverse).foldl
        (fun m c => m.add env (id, c)) (emptyPath id) =
        l.reverse.foldl (fun m c => m.add env (id, c))
          ((emptyPath id).add env (id, (0, 0))) := rfl
    rw [hfold_eq] at hgs
    refine ⟨_, hgs, ?_, ?_, ?_⟩
    · rw [hfpath]
      cases hre : l.reverse with
      | nil => exact absurd (List.reverse_eq_nil_iff.1 hre) hlne
      | cons w ws => rfl
    · rw [hfpath]
      cases hre : l.reverse with
      | nil => exact absurd (List.reverse_eq_nil_iff.1 hre) hlne
      | cons w ws =>
        have hne2 : (w :: ws : List (Nat × Nat)) ≠ [] := by simp
        rw [List.getLast?_map,
          List.getLast?_append_of_ne_nil _ hne2, ← hre,
          List.getLast?_reverse, hhd]
        rfl
    · rw [hfpath, List.length_map, List.length_append,
        List.length_reverse, hlen]
      exact Nat.add_comm 1 _

theorem generateMaze_open_inB (rows cols : Nat) (hr : 1 ≤ rows)
    (hc : 1 ≤ cols) (rand : Nat → Nat) (coins : Nat → Bool)
    {p : Nat × Nat} (h : generateMaze rows cols rand coins p = true) :
    InB rows cols p := by
  obtain ⟨hinv, _⟩ := genLoop_final rows cols
    (generateWeights rows cols rand) coins (genFuel rows cols)
    (genInit rows cols (generateWeights rows cols rand))
    (genInit_inv rows cols hr hc _) (genInit_measure rows cols _)
  exact hinv.opnInB p h

/-- Claim C3: on every grid produced by the generation algorithm, the
solver's BFS returns a `MazePath` that starts at the origin, ends at the
bottom-right destination, and has minimal cell count among all open,
grid-adjacent paths from the origin to the destination. -/
theorem claim_C3_solver_shortest_path (rows cols : Nat) (hr : 1 ≤ rows)
    (hc : 1 ≤ cols) (rand : Nat → Nat) (coins : Nat → Bool)
    (env : Nat → Board) (id : Nat) (henv : WfEnv env)
    (hb : env id = ⟨rows, cols, generateMaze rows cols rand coins⟩) :
    ∃ mp, getSolution env id (emptyPath id) = Except.ok mp ∧
      mp.path.head? = some (id, (0, 0)) ∧
      mp.path.getLast? = some (id, (rows - 1, cols - 1)) ∧
      ∀ l, PathBetween (env id) l (0, 0) (rows - 1, cols - 1) →
        mp.path.length ≤ l.length := by
  obtain ⟨ho0, hod, hreach0⟩ := gen_connected rows cols hr hc rand coins
  have hrows : (env id).rows = rows := by rw [hb]
  have hcols : (env id).cols = cols := by rw [hb]
  have hr' : 1 ≤ (env id).rows := by rw [hrows]; exact hr
  have hc' : 1 ≤ (env id).cols := by rw [hcols]; exact hc
  have ho : (env id).openAt (0, 0) = true := by rw [hb]; exact ho0
  have horig : InB (env id).rows (env id).cols (0, 0) ∧
      (env id).openAt (0, 0) = true := ⟨⟨hr', hc'⟩, ho⟩
  have hreach : ∃ l, PathBetween (env id) l (0, 0)
      ((env id).rows - 1, (env id).cols - 1) := by
    apply reach_pathBetween horig
    rw [hb]
    exact hreach0
  obtain ⟨mp, hgs, hhead, hlast, hlen⟩ :=
    getSolution_correct env henv id hr' hc' ho hreach
  refine ⟨mp, hgs, hhead, ?_, ?_⟩
  · rw [hrows, hcols] at hlast
    exact hlast
  · intro l hl
    have hle : gdist (env id) (0, 0)
        ((env id).rows - 1, (env id).cols - 1) + 1 ≤ l.length := by
      apply gdist_le
      rw [hrows, hcols]
      exact hl
    omega

/-- Witness for C3 on the 1 × 1 grid. -/
theorem claim_C3_solver_shortest_path_witness :
    ∃ mp, getSolution
        (fun _ => ⟨1, 1, generateMaze 1 1 (fun _ => 0) (fun _ => true)⟩)
        0 (emptyPath 0) = Except.ok mp ∧
      mp.path.head? = some (0, (0, 0)) ∧
      mp.path.getLast? = some (0, (1 - 1, 1 - 1)) ∧
      ∀ l, PathBetween ((fun _ : Nat =>
          (⟨1, 1, generateMaze 1 1 (fun _ => 0) (fun _ => true)⟩ :
            Board)) 0) l (0, 0) (1 - 1, 1 - 1) →
        mp.path.length ≤ l.length := by
  apply claim_C3_solver_shortest_path 1 1 (by decide) (by decide)
    (fun _ => 0) (fun _ => true) _ 0 ?_ rfl
  intro id p hn
  cases hv : generateMaze 1 1 (fun _ => 0) (fun _ => true) p with
  | false => exact hv
  | true =>
    exact absurd (generateMaze_open_inB 1 1 (by decide) (by decide)
      (fun _ => 0) (fun _ => true) hv) hn

/-! ## The dynamic-array queue (src/maze/queue.ts) and `drawSolution`
(src/maze/mazeoperations.ts).

`Queue` keeps an array with an entry index (always the array length for
states reachable through the public interface) and an exit index; `pop`
compacts when the exit index passes half the array.  A JavaScript
assignment `arr[entry] = v` appends when `entry` equals the length and
overwrites below it; indices beyond the length (which would create holes)
never occur for this class. -/

structure Queue (T : Type) where
  arr : List T
  entry : Nat
  exit : Nat

def jsSet {T : Type} (l : List T) (i : Nat) (v : T) : List T :=
  if i < l.length then l.set i v else l ++ [v]

/-- `push(val)`: write at the entry index and advance it. -/
def Queue.push {T : Type} (q : Queue T) (val : T) : Queue T :=
  ⟨jsSet q.arr q.entry val, q.entry + 1, q.exit⟩

/-- `size()`: `entry - exit` (JavaScript subtraction; the class keeps
`exit ≤ entry`, where it agrees with truncated subtraction). -/
def Queue.size {T : Type} (q : Queue T) : Nat := q.entry - q.exit

/-- `pop()`: throw on an empty queue (`none`), otherwise read the front,
advance the exit index, and compact once `exit > arr.length / 2` (the
JavaScript real-division comparison agrees with the integer one). -/
def Queue.pop {T : Type} (q : Queue T) : Option (T × Queue T) :=
  if q.size = 0 then none
  else
    match q.arr.get? q.exit with
    | none => none
    | some ret =>
      if q.arr.length / 2 < q.exit + 1 then
        some (ret, ⟨q.arr.drop (q.exit + 1), q.entry - (q.exit + 1), 0⟩)
      else
        some (ret, ⟨q.arr, q.entry, q.exit + 1⟩)

/-- States reachable through the public interface. -/
def WfQueue {T : Type} (q : Queue T) : Prop :=
  q.exit ≤ q.entry ∧ q.entry = q.arr.length

/-- The queue's logical content, front first. -/
def Queue.toList {T : Type} (q : Queue T) : List T := q.arr.drop q.exit

theorem wfQueue_empty {T : Type} : WfQueue (⟨[], 0, 0⟩ : Queue T) :=
  ⟨Nat.le_refl 0, rfl⟩

theorem push_wf {T : Type} {q : Queue T} (hwf : WfQueue q) (v : T) :
    WfQueue (q.push v) := by
  obtain ⟨h1, h2⟩ := hwf
  refine ⟨?_, ?_⟩
  · show q.exit ≤ q.entry + 1
    omega
  show q.entry + 1 = (jsSet q.arr q.entry v).length
  unfold jsSet
  rw [if_neg (by omega)]
  rw [List.length_append, List.length_singleton]
  omega

theorem push_toList {T : Type} {q : Queue T} (hwf : WfQueue q) (v : T) :
    (q.push v).toList = q.toList ++ [v] := by
  obtain ⟨h1, h2⟩ := hwf
  show (jsSet q.arr q.entry v).drop q.exit = q.arr.drop q.exit ++ [v]
  unfold jsSet
  rw [if_neg (by omega), List.drop_append_of_le_length (by omega)]

theorem toList_length {T : Type} {q : Queue T} (hwf : WfQueue q) :
    q.toList.length = q.size := by
  obtain ⟨h1, h2⟩ := hwf
  show (q.arr.drop q.exit).length = q.entry - q.exit
  rw [List.length_drop]
  omega

theorem pop_spec {T : Type} {q : Queue T} (hwf : WfQueue q)
    (hne : q.size ≠ 0) :
    ∃ ret q', q.pop = some (ret, q') ∧ WfQueue q' ∧
      q.toList = ret :: q'.toList := by
  obtain ⟨h1, h2⟩ := hwf
  have hlt : q.exit < q.arr.length := by
    unfold Queue.size at hne
    omega
  have hget : q.arr.get? q.exit = some (q.arr.get ⟨q.exit, hlt⟩) :=
    List.get?_eq_get hlt
  have hdec : q.arr.drop q.exit =
      q.arr.get ⟨q.exit, hlt⟩ :: q.arr.drop (q.exit + 1) :=
    List.drop_eq_get_cons hlt
  unfold Queue.pop
  rw [if_neg hne, hget]
  dsimp only
  by_cases hcomp : q.arr.length / 2 < q.exit + 1
  · rw [if_pos hcomp]
    refine ⟨q.arr.get ⟨q.exit, hlt⟩,
      ⟨q.arr.drop (q.exit + 1), q.entry - (q.exit + 1), 0⟩, rfl, ?_, ?_⟩
    · refine ⟨Nat.zero_le _, ?_⟩
      show q.entry - (q.exit + 1) = (q.arr.drop (q.exit + 1)).length
      rw [List.length_drop]
      omega
    · show q.arr.drop q.exit = _ :: (q.arr.drop (q.exit + 1)).drop 0
      rw [List.drop_zero]
      exact hdec
  · rw [if_neg hcomp]
    refine ⟨q.arr.get ⟨q.exit, hlt⟩, ⟨q.arr, q.entry, q.exit + 1⟩,
      rfl, ⟨?_, h2⟩, hdec⟩
    show q.exit + 1 ≤ q.entry
    unfold Queue.size at hne
    omega

/-- The BFS state of `drawSolution`: unlike `getSolution`, the origin's
`discoveredFrom` entry is never initialised, and the frontier is the
`Queue` class. -/
structure DrawState where
  visited : Nat × Nat → Bool
  parent : Nat × Nat → Option (Nat × Nat)
  queue : Queue (Nat × Nat)

/-- The `for (let c of neighbors)` body of `drawSolution`'s BFS. -/
def drawExpand (b : Board) (curr : Nat × Nat) :
    List (Nat × Nat) → DrawState → DrawState
  | [], s => s
  | c :: cs, s =>
    if s.visited c = false ∧ b.openAt c = true then
      drawExpand b curr cs
        ⟨setTrue s.visited c,
         fun p => if p = c then some curr else s.parent p,
         s.queue.push c⟩
    else drawExpand b curr cs s

/-- `while (toExplore.size()) { let curr = toExplore.pop(); ... }`. -/
def drawLoop (b : Board) : Nat → DrawState → DrawState
  | 0, s => s
  | fuel + 1, s =>
    if s.queue.size = 0 then s
    else
      match s.queue.pop with
      | none => s
      | some (curr, q') =>
        drawLoop b fuel
          (drawExpand b curr (neighbours b.rows b.cols curr)
            ⟨s.visited, s.parent, q'⟩)

/-- `visited[0][0] = true; toExplore.push(maze.getCell(0, 0))` on a fresh
queue; `discoveredFrom` stays fully unset. -/
def drawInit : DrawState :=
  ⟨setTrue (fun _ => false) (0, 0), fun _ => none,
   Queue.push ⟨[], 0, 0⟩ (0, 0)⟩

/-- The `while (curr) { solutionPath.push(curr); curr =
discoveredFrom[...]; }` loop: stops at an unset (`undefined`, falsy)
parent entry. -/
def drawTraceback (parent : Nat × Nat → Option (Nat × Nat)) :
    Nat → Option (Nat × Nat) → List (Nat × Nat) → List (Nat × Nat)
  | 0, _, acc => acc
  | fuel + 1, curr?, acc =>
    match curr? with
    | none => acc
    | some curr => drawTraceback parent fuel (parent curr) (acc ++ [curr])

/-- `drawSolution(maze, canvas)`: run the queue-based BFS, trace back from
the destination cell, append the origin cell, and add everything to a
fresh `MazePath` from the last index down to 0. -/
def drawSolution (env : Nat → Board) (id : Nat) : MazePath :=
  let b := env id
  let final := drawLoop b (bfsFuel b) drawInit
  let solutionPath := drawTraceback final.parent (b.rows * b.cols + 2)
    (some (b.rows - 1, b.cols - 1)) []
  ((solutionPath ++ [(0, 0)]).reverse).foldl
    (fun m c => m.add env (id, c)) (emptyPath id)

/-- Correspondence between `drawSolution`'s queue-based BFS state and the
list-based one. -/
def DrawSim (s : DrawState) (t : BfsState) : Prop :=
  s.visited = t.visited ∧ s.parent = t.parent ∧ WfQueue s.queue ∧
    s.queue.toList = t.queue

theorem drawExpand_sim {b : Board} {curr : Nat × Nat} :
    ∀ (L : List (Nat × Nat)) (s : DrawState) (t : BfsState),
      DrawSim s t → DrawSim (drawExpand b curr L s) (bfsExpand b curr L t)
  | [], s, t, hsim => hsim
  | c :: cs, s, t, hsim => by
    obtain ⟨hv, hp, hwf, hq⟩ := hsim
    unfold drawExpand bfsExpand
    rw [hv, hp]
    by_cases hc : t.visited c = false ∧ b.openAt c = true
    · rw [if_pos hc, if_pos hc]
      exact drawExpand_sim cs _ _
        ⟨rfl, rfl, push_wf hwf c, by rw [push_toList hwf c, hq]⟩
    · rw [if_neg hc, if_neg hc]
      exact drawExpand_sim cs _ _ ⟨hv, hp, hwf, hq⟩

theorem drawLoop_sim {b : Board} :
    ∀ (fuel : Nat) (s : DrawState) (t : BfsState),
      DrawSim s t → DrawSim (drawLoop b fuel s) (bfsLoop b fuel t) := by
  intro fuel
  induction fuel with
  | zero => intro s t hsim; exact hsim
  | succ fuel ih =>
    intro s t hsim
    obtain ⟨hv, hp, hwf, hq⟩ := hsim
    by_cases h0 : s.queue.size = 0
    · have htl : t.queue = [] := by
        rw [← hq]
        have := toList_length hwf
        rw [h0] at this
        exact List.length_eq_zero.1 this
      have hd : drawLoop b (fuel + 1) s = s := by
        unfold drawLoop
        rw [if_pos h0]
      have hb : bfsLoop b (fuel + 1) t = t := by
        unfold bfsLoop
        rw [htl]
      rw [hd, hb]
      exact ⟨hv, hp, hwf, hq⟩
    · obtain ⟨ret, q', hpop, hwf', htl⟩ := pop_spec hwf h0
      have htq : t.queue = ret :: q'.toList := by rw [← hq, htl]
      have hd : drawLoop b (fuel + 1) s = drawLoop b fuel
          (drawExpand b ret (neighbours b.rows b.cols ret)
            ⟨s.visited, s.parent, q'⟩) := by
        show (if s.queue.size = 0 then s
          else match s.queue.pop with
            | none => s
            | some (curr, q2) =>
              drawLoop b fuel
                (drawExpand b curr (neighbours b.rows b.cols curr)
                  ⟨s.visited, s.parent, q2⟩)) = _
        rw [if_neg h0, hpop]
      have hb : bfsLoop b (fuel + 1) t = bfsLoop b fuel (bfsStep b t) := by
        show (match t.queue with
          | [] => t
          | _ :: _ => bfsLoop b fuel (bfsStep b t)) =
            bfsLoop b fuel (bfsStep b t)
        rw [htq]
      have hstep : bfsStep b t = bfsExpand b ret
          (neighbours b.rows b.cols ret)
          ⟨t.visited, t.parent, q'.toList⟩ := by
        unfold bfsStep
        rw [htq]
      rw [hd, hb, hstep]
      apply ih
      apply drawExpand_sim
      exact ⟨hv, hp, hwf', rfl⟩

/-- The facts about `drawSolution`'s BFS needed for the unreachable case:
visited cells are reachable, queued cells are visited, and unvisited
cells have no parent entry. -/
structure WeakInv (b : Board) (s : BfsState) : Prop where
  visReach : ∀ p, s.visited p = true → ∃ l, PathBetween b l (0, 0) p
  parentNone : ∀ p, s.visited p = false → s.parent p = none
  queueVis : ∀ p ∈ s.queue, s.visited p = true

/-- The list-based counterpart of `drawInit` (origin parent unset). -/
def drawInitL : BfsState :=
  ⟨setTrue (fun _ => false) (0, 0), fun _ => none, [(0, 0)]⟩

theorem drawInit_sim : DrawSim drawInit drawInitL := by
  refine ⟨rfl, rfl, push_wf wfQueue_empty (0, 0), ?_⟩
  show ((⟨[], 0, 0⟩ : Queue (Nat × Nat)).push (0, 0)).toList =
    [((0, 0) : Nat × Nat)]
  rw [push_toList wfQueue_empty (0, 0)]
  rfl

theorem drawInitL_weakInv {b : Board} (hr : 1 ≤ b.rows)
    (hcb : 1 ≤ b.cols) (ho : b.openAt (0, 0) = true) :
    WeakInv b drawInitL := by
  have horig : InB b.rows b.cols (0, 0) ∧ b.openAt (0, 0) = true :=
    ⟨⟨hr, hcb⟩, ho⟩
  have hvisEq : drawInitL.visited = setTrue (fun _ => false) (0, 0) := rfl
  refine ⟨?_, ?_, ?_⟩
  · intro p hp
    rw [hvisEq] at hp
    rcases setTrue_elim hp with h | h
    · rw [h]
      exact ⟨[(0, 0)], pathBetween_singleton horig⟩
    · exact Bool.noConfusion h
  · intro p _
    rfl
  · intro p hp
    rcases List.mem_singleton.1 (show p ∈ [((0, 0) : Nat × Nat)] from hp)
      with rfl
    rw [hvisEq]
    exact setTrue_self

theorem bfsStep_weakInv {b : Board} {s : BfsState}
    (hinv : WeakInv b s) : WeakInv b (bfsStep b s) := by
  cases hq : s.queue with
  | nil =>
    have h2 : bfsStep b s = s := by unfold bfsStep; rw [hq]
    rw [h2]
    exact hinv
  | cons h rest =>
    have h2 : bfsStep b s = bfsExpand b h (neighbours b.rows b.cols h)
        ⟨s.visited, s.parent, rest⟩ := by
      unfold bfsStep
      rw [hq]
    have hhvis : s.visited h = true :=
      hinv.queueVis h (by rw [hq]; exact List.mem_cons_self h rest)
    obtain ⟨lh, hlh⟩ := hinv.visReach h hhvis
    have hhOk : InB b.rows b.cols h ∧ b.openAt h = true :=
      hlh.1.2 h (mem_of_getLast? hlh.2.2)
    have hmono : ∀ p, s.visited p = true →
        (bfsStep b s).visited p = true := by
      intro p hp
      rw [h2]
      exact bfsExpand_visited_mono _ _ hp
    obtain ⟨N, hNq, hNprop⟩ := @bfsExpand_queue_append b h
      (neighbours b.rows b.cols h) ⟨s.visited, s.parent, rest⟩
    rw [← h2] at hNq
    refine ⟨?_, ?_, ?_⟩
    · intro p hp
      cases hv : s.visited p with
      | true => exact hinv.visReach p hv
      | false =>
        rw [h2] at hp
        rcases (bfsExpand_visited_iff _ _ p).1 hp with h3 | h3
        · rw [hv] at h3; exact absurd h3 (by simp)
        · have hIA := (mem_neighbours hhOk.1).1 h3.1
          exact ⟨lh ++ [p], pathBetween_snoc hlh hIA.2 ⟨hIA.1, h3.2⟩⟩
    · intro p hp
      rw [h2] at hp ⊢
      obtain ⟨heq, hv⟩ := bfsExpand_parent_of_unvisited _ _ hp
      rw [heq]
      exact hinv.parentNone p hv
    · intro p hp
      rw [hNq] at hp
      rcases List.mem_append.1 hp with hp' | hp'
      · exact hmono p (hinv.queueVis p
          (by rw [hq]; exact List.mem_cons_of_mem h hp'))
      · obtain ⟨hmL, hOp, hvp⟩ := hNprop p hp'
        rw [h2]
        exact (bfsExpand_visited_iff _ _ p).2 (Or.inr ⟨hmL, hOp⟩)

theorem bfsLoop_weakInv {b : Board} :
    ∀ (fuel : Nat) (s : BfsState), WeakInv b s →
      WeakInv b (bfsLoop b fuel s) := by
  intro fuel
  induction fuel with
  | zero => intro s hinv; exact hinv
  | succ fuel ih =>
    intro s hinv
    cases hq : s.queue with
    | nil =>
      have h2 : bfsLoop b (fuel + 1) s = s := by
        unfold bfsLoop
        rw [hq]
      rw [h2]
      exact hinv
    | cons h rest =>
      have h2 : bfsLoop b (fuel + 1) s = bfsLoop b fuel (bfsStep b s) := by
        show (match s.queue with
          | [] => s
          | _ :: _ => bfsLoop b fuel (bfsStep b s)) =
            bfsLoop b fuel (bfsStep b s)
        rw [hq]
      rw [h2]
      exact ih _ (bfsStep_weakInv hinv)

theorem add_noop_guard {env : Nat → Board} {mp : MazePath} {c : MCell}
    (hg : ¬ (c.1 = mp.mazeId ∧ isOpenCell env c = true)) :
    mp.add env c = mp := by
  unfold MazePath.add
  rw [if_neg hg]

theorem add_noop_not_adjacent {env : Nat → Board} {mp : MazePath}
    {c : MCell} (hlen : mp.path.length ≠ 0)
    (hpos : mp.cellPositions c.2 = -1) {lastC : MCell}
    (hlast : mp.path.getLast? = some lastC)
    (hany : ¬ ((neighbours (env c.1).rows (env c.1).cols c.2).any
        (fun q => decide ((c.1, q) = lastC)) = true)) :
    mp.add env c = mp := by
  unfold MazePath.add
  by_cases hg : c.1 = mp.mazeId ∧ isOpenCell env c = true
  · rw [if_pos hg, if_neg hlen, if_pos hpos, hlast]
    dsimp only
    rw [if_neg hany]
  · rw [if_neg hg]

/-- Claim C8 (amended): with an open origin and an unreachable
destination, `getSolution`'s reconstruction loop does NOT terminate
safely — it calls `.equals` on the unset parent entry and throws a
`TypeError` — while `drawSolution`'s `while (curr)` variant does
terminate safely and produces the single-cell path `[(0,0)]`, whose last
cell is not the destination. -/
theorem claim_C8_unset_parent (env : Nat → Board) (id : Nat)
    (hr : 1 ≤ (env id).rows) (hcb : 1 ≤ (env id).cols)
    (ho : (env id).openAt (0, 0) = true)
    (hunreach : ¬ ∃ l, PathBetween (env id) l (0, 0)
      ((env id).rows - 1, (env id).cols - 1)) :
    getSolution env id (emptyPath id) = Except.error () ∧
    (drawSolution env id).path = [((id, (0, 0)) : MCell)] ∧
    (drawSolution env id).path.getLast? ≠
      some (id, ((env id).rows - 1, (env id).cols - 1)) := by
  have horig : InB (env id).rows (env id).cols (0, 0) ∧
      (env id).openAt (0, 0) = true := ⟨⟨hr, hcb⟩, ho⟩
  have hdne : ((0, 0) : Nat × Nat) ≠
      ((env id).rows - 1, (env id).cols - 1) := by
    intro he
    apply hunreach
    refine ⟨[(0, 0)], ?_⟩
    rw [← he]
    exact pathBetween_singleton horig
  have hm : (env id).rows * (env id).cols + 2 =
      ((env id).rows * (env id).cols + 1) + 1 := rfl
  -- getSolution crashes
  have hvd := bfs_final_unvisited_of_unreach hr hcb ho hunreach
  have hpd : (bfsLoop (env id) (bfsFuel (env id)) bfsInit).parent
      ((env id).rows - 1, (env id).cols - 1) = none :=
    (bfs_final hr hcb ho).1.parentNone _ hvd
  have htb : traceback (bfsLoop (env id) (bfsFuel (env id))
      bfsInit).parent ((env id).rows * (env id).cols + 2)
      [((env id).rows - 1, (env id).cols - 1)] [] =
      Except.error () := by
    rw [hm]
    simp only [traceback, hpd]
  have hgs : getSolution env id (emptyPath id) = Except.error () := by
    show (match traceback (bfsLoop (env id) (bfsFuel (env id))
        bfsInit).parent ((env id).rows * (env id).cols + 2)
        [((env id).rows - 1, (env id).cols - 1)] [] with
      | Except.error e => Except.error e
      | Except.ok sp => Except.ok (((sp ++ [(0, 0)]).reverse).foldl
          (fun m c => MazePath.add env m (id, c)) (emptyPath id))) = _
    rw [htb]
  -- drawSolution terminates safely
  have hsim := drawLoop_sim (b := env id) (bfsFuel (env id)) drawInit
    drawInitL drawInit_sim
  have hweak := bfsLoop_weakInv (b := env id) (bfsFuel (env id))
    drawInitL (drawInitL_weakInv hr hcb ho)
  have hvisL : (bfsLoop (env id) (bfsFuel (env id))
      drawInitL).visited ((env id).rows - 1, (env id).cols - 1) =
      false := by
    cases hv : (bfsLoop (env id) (bfsFuel (env id)) drawInitL).visited
        ((env id).rows - 1, (env id).cols - 1) with
    | false => rfl
    | true => exact absurd (hweak.visReach _ hv) hunreach
  have hpard : (drawLoop (env id) (bfsFuel (env id))
      drawInit).parent ((env id).rows - 1, (env id).cols - 1) =
      none := by
    rw [hsim.2.1]
    exact hweak.parentNone _ hvisL
  have htb2 : drawTraceback (drawLoop (env id) (bfsFuel (env id))
      drawInit).parent ((env id).rows * (env id).cols + 2)
      (some ((env id).rows - 1, (env id).cols - 1)) [] =
      [((env id).rows - 1, (env id).cols - 1)] := by
    rw [hm]
    simp only [drawTraceback, hpard, List.nil_append]
  -- the first add appends the (open) origin
  have hm1path : ((emptyPath id).add env (id, (0, 0))).path =
      [((id, (0, 0)) : MCell)] :=
    add_path_first rfl ho rfl
  have hm1pos : ((emptyPath id).add env (id, (0, 0))).cellPositions
      ((env id).rows - 1, (env id).cols - 1) = -1 := by
    unfold MazePath.add
    rw [if_pos ⟨rfl, ho⟩,
      if_pos (show (emptyPath id).path.length = 0 from rfl)]
    show (if (((env id).rows - 1, (env id).cols - 1) : Nat × Nat) =
        (0, 0) then (0 : Int)
      else (emptyPath id).cellPositions
        ((env id).rows - 1, (env id).cols - 1)) = -1
    rw [if_neg (fun he => hdne he.symm)]
    rfl
  have hm1last : ((emptyPath id).add env (id, (0, 0))).path.getLast? =
      some ((id, (0, 0)) : MCell) := by
    rw [hm1path]
    rfl
  -- adding the destination to the single-origin path is a no-op
  have hnoop : (((emptyPath id).add env (id, (0, 0))).add env
      (id, ((env id).rows - 1, (env id).cols - 1))) =
      (emptyPath id).add env (id, (0, 0)) := by
    by_cases hop : isOpenCell env
        (id, ((env id).rows - 1, (env id).cols - 1)) = true
    · have hdI : InB (env id).rows (env id).cols
          ((env id).rows - 1, (env id).cols - 1) := ⟨by omega, by omega⟩
      have hanyF : ¬ ((neighbours (env id).rows (env id).cols
          ((env id).rows - 1, (env id).cols - 1)).any
          (fun q => decide (((id, q) : MCell) =
            ((id, (0, 0)) : MCell))) = true) := by
        intro hc
        rw [List.any_eq_true] at hc
        obtain ⟨q, hqmem, hqeq⟩ := hc
        rw [decide_eq_true_eq] at hqeq
        have hq0 : q = (0, 0) := congrArg Prod.snd hqeq
        rw [hq0] at hqmem
        have h3 := (mem_neighbours hdI).1 hqmem
        refine hunreach ⟨[(0, 0)] ++
          [((env id).rows - 1, (env id).cols - 1)], ?_⟩
        refine pathBetween_snoc (pathBetween_singleton horig)
          h3.2.symm ⟨hdI, ?_⟩
        exact hop
      refine add_noop_not_adjacent ?_ hm1pos hm1last hanyF
      rw [hm1path]
      simp
    · exact add_noop_guard (fun hg => hop hg.2)
  have hds : drawSolution env id =
      (emptyPath id).add env (id, (0, 0)) := by
    show ((drawTraceback (drawLoop (env id) (bfsFuel (env id))
        drawInit).parent ((env id).rows * (env id).cols + 2)
        (some ((env id).rows - 1, (env id).cols - 1)) [] ++
        [(0, 0)]).reverse).foldl
        (fun m c => MazePath.add env m (id, c)) (emptyPath id) = _
    rw [htb2]
    show (((emptyPath id).add env (id, (0, 0))).add env
      (id, ((env id).rows - 1, (env id).cols - 1))) = _
    exact hnoop
  refine ⟨hgs, ?_, ?_⟩
  · rw [hds]
    exact hm1path
  · rw [hds, hm1last]
    intro hc
    have h2 := Option.some.inj hc
    have h3 : ((0, 0) : Nat × Nat) =
        ((env id).rows - 1, (env id).cols - 1) :=
      congrArg Prod.snd h2
    exact hdne h3

/-- Counterexample for C8's claim that the reconstruction loop always
terminates safely: on a 1 × 2 grid whose destination is closed (hence
unreachable), `getSolution` dereferences the unset parent entry and
throws, returning no path at all. -/
theorem claim_C8_counterexample :
    getSolution (fun _ => ⟨1, 2, fun p => decide (p = (0, 0))⟩) 0
      (emptyPath 0) = Except.error () := by
  rfl

/-- Witness for the amended C8 on the 1 × 2 grid with closed
destination. -/
theorem claim_C8_unset_parent_witness :
    getSolution (fun _ => ⟨1, 2, fun p => decide (p = (0, 0))⟩) 0
      (emptyPath 0) = Except.error () ∧
    (drawSolution (fun _ => ⟨1, 2, fun p => decide (p = (0, 0))⟩)
      0).path = [((0, (0, 0)) : MCell)] ∧
    (drawSolution (fun _ => ⟨1, 2, fun p => decide (p = (0, 0))⟩)
      0).path.getLast? ≠ some (0, (0, 1)) :=
  claim_C8_unset_parent
    (fun _ => ⟨1, 2, fun p => decide (p = (0, 0))⟩) 0
    (Nat.le_refl 1) (by decide) rfl
    (fun h => by
      obtain ⟨l, hl⟩ := h
      have h2 := (hl.1.2 _ (mem_of_getLast? hl.2.2)).2
      exact absurd h2 (by decide))
